import Mathlib

/-!
# morda `Inflater`: merge of GUI chains, variable scopes and reference substitution

A shallow embedding of `src/src/morda/Inflater.cpp`.  A STOB chain (a `stob::Node*`
that is followed through `next()`) is a `List Node`; the null pointer is the
empty list.  Cloning is the identity on these immutable values.  A throwing
function returns `Except String _`; a throwing method of `Inflater` returns
its outcome together with the state of the object after the call.
-/

namespace stob

/-- Modelled from the spec: `stob::Node` (the stob library is not under `src/`).
A node carries a value and an owned chain of children; its `next` sibling is
the tail of the list that holds it. -/
inductive Node where
  | mk (value : String) (children : List Node) : Node

namespace Node

/-- Modelled from the spec: `stob::Node::value()`. -/
def value : Node → String
  | mk v _ => v

/-- Modelled from the spec: `stob::Node::child()`, the chain of children
(empty for the null pointer). -/
def children : Node → List Node
  | mk _ c => c

/-- Modelled from the spec: `stob::Node::isCapital()`, the value starts with a
capital Latin letter. -/
def isCapital (n : Node) : Bool :=
  match n.value.data with
  | [] => false
  | c :: _ => decide ('A' ≤ c) && decide (c ≤ 'Z')

/-- Modelled from the spec: `stob::Node::isProperty()`, the spec's node
attribute `is_property`.  In stob a node is a property unless its value starts
with a capital letter, so the attribute is a function of the value. -/
def isProperty (n : Node) : Bool := !n.isCapital

/-- Modelled from the spec: `stob::Node::setChildren`. -/
def setChildren (n : Node) (c : List Node) : Node := mk n.value c

end Node

/-- Modelled from the spec: `stob::Node::thisOrNext(value).node()`, the first
node of the chain whose value is the given one (null when there is none). -/
def thisOrNext : List Node → String → Option Node
  | [], _ => none
  | n :: rest, v => if n.value = v then some n else thisOrNext rest v

/-- The chain after `dst->setChildren(c)` where `dst` is the node found by
`thisOrNext(v)`: the first node valued `v` gets the children `c`. -/
def setChildrenOfFirst : List Node → String → List Node → List Node
  | [], _, _ => []
  | n :: rest, v, c =>
    if n.value = v then n.setChildren c :: rest else n :: setChildrenOfFirst rest v c

/-- Modelled from the spec: `stob::Node::insertNext(node)` called on the head
of a chain: the node is linked in right after the head. -/
def insertNext : List Node → Node → List Node
  | [], _ => []
  | t :: ts, n => t :: n :: ts

end stob

namespace morda

open stob

/-- The message of the only exception `mergeGUIChain` throws. -/
def excSeveralValues : String :=
  "malformed gui script: property with several values encountered"

mutual
/-- The recursive call `mergeGUIChain(src->child(), vars, to)` of the loop. -/
def mergeGUIChain.ofChild : Node → List String → List Node → Except String (List Node)
  | Node.mk _ cs, vars, to_ =>
    match to_ with
    | [] => .ok cs
    | t :: ts => mergeGUIChain.loop cs vars true [] (t :: ts)
/-- The `for` loop of `mergeGUIChain` (lines 92-122) followed by the re-adding
of the collected children (lines 125-133).  `first` says that `src == from`,
`children` is the reversed chain of the non-property nodes seen so far. -/
def mergeGUIChain.loop :
    List Node → List String → Bool → List Node → List Node → Except String (List Node)
  | [], _, _, children, to_ => .ok (children.reverse ++ to_)
  | src :: next, vars, first, children, to_ =>
    if !src.isProperty then
      mergeGUIChain.loop next vars false (src :: children) to_
    else if src.children.isEmpty || src.value = "@" then
      if !first || !next.isEmpty then .error excSeveralValues else .ok to_
    else
      match thisOrNext to_ src.value with
      | none => mergeGUIChain.loop next vars false children (insertNext to_ src)
      | some dst =>
        if dst.children.isEmpty then
          mergeGUIChain.loop next vars false children to_
        else
          match mergeGUIChain.ofChild src vars dst.children with
          | .error e => .error e
          | .ok merged =>
            mergeGUIChain.loop next vars false children
              (setChildrenOfFirst to_ src.value merged)
end

/-- The function `mergeGUIChain(from, vars, to)` (lines 81-134). -/
def mergeGUIChain (from_ : List Node) (vars : List String) (to_ : List Node) :
    Except String (List Node) :=
  match to_ with
  | [] => .ok from_
  | t :: ts => mergeGUIChain.loop from_ vars true [] (t :: ts)

/-- The message thrown for `@` without a child. -/
def excNoVariableName : String :=
  "malformed GUI definition: error: reference to a variable holds no variable name"

/-- The message thrown for `@` with more than one child. -/
def excSeveralVariableNames : String :=
  "malformed GUI definition: reference to variable holds more than one variable name"

/-- The message thrown for `@{name{...}}`. -/
def excVariableNameHasChildren : String :=
  "malformed GUI definition: variable name has children"

mutual
/-- The recursive call `substituteVars(to->child(), findVar)`. -/
def substituteVars.ofChild (findVar : String → List Node) : Node → Except String (List Node)
  | Node.mk _ cs => substituteVars findVar cs
/-- The function `substituteVars(to, findVar)` (lines 335-369) as the chain it
leaves behind.  `findVar` returns the bound chain, empty for the null pointer;
`to->replace(*var)` puts a copy of the whole chain `var` in the place of the
node `to`, and the walk goes on at the old `next`. -/
def substituteVars (findVar : String → List Node) : List Node → Except String (List Node)
  | [] => .ok []
  | to_ :: next =>
    if to_.value = "@" then
      match to_.children with
      | [] => .error excNoVariableName
      | name :: more =>
        if !more.isEmpty then .error excSeveralVariableNames
        else if !name.children.isEmpty then .error excVariableNameHasChildren
        else
          match findVar name.value with
          | [] =>
            match substituteVars findVar next with
            | .error e => .error e
            | .ok rest => .ok (to_ :: rest)
          | v :: vs =>
            match substituteVars findVar next with
            | .error e => .error e
            | .ok rest => .ok ((v :: vs) ++ rest)
    else
      match substituteVars.ofChild findVar to_ with
      | .error e => .error e
      | .ok cs =>
        match substituteVars findVar next with
        | .error e => .error e
        | .ok rest => .ok (to_.setChildren cs :: rest)
end

/-- A `std::map<std::string, T>` as the list of its entries: `find`. -/
def mapFind {β : Type} : List (String × β) → String → Option β
  | [], _ => none
  | (k, v) :: rest, name => if k = name then some v else mapFind rest name

/-- A `std::map<std::string, T>` as the list of its entries: `insert`, which
leaves the map alone and answers `false` when the key is present. -/
def mapInsert {β : Type} (m : List (String × β)) (name : String) (v : β) :
    List (String × β) × Bool :=
  match mapFind m name with
  | some _ => (m, false)
  | none => (m ++ [(name, v)], true)

/-- The struct `Inflater::Template`: the definition node and the variable names. -/
structure Template where
  t : Node
  vars : List String

/-- The state of an `Inflater`: the factories by widget name, the stack of
template frames and the stack of variable frames (innermost frame first).  `F`
is the type of the registered factories. -/
structure Inflater (F : Type) where
  widgetFactories : List (String × F)
  templates : List (List (String × Template))
  variables_ : List (List (String × List Node))

namespace Inflater

variable {F : Type}

/-- The message of the exception of `addWidgetFactory`. -/
def excAlreadyAdded : String :=
  "Failed registering widget type, widget type with given name is already added"

/-- The message of the exception of `pushVariables`. -/
def excVariableAlreadyDefined : String :=
  "Inflater::pushDefinitions(): failed to add variable, variable with same name is already defined in this variables block"

/-- The method `Inflater::addWidgetFactory` (lines 44-54). -/
def addWidgetFactory (self : Inflater F) (widgetName : String) (factory : F) :
    Except String Unit × Inflater F :=
  let ret := mapInsert self.widgetFactories widgetName factory
  if !ret.2 then (.error excAlreadyAdded, { self with widgetFactories := ret.1 })
  else (.ok (), { self with widgetFactories := ret.1 })

/-- The method `Inflater::findFactory` (lines 137-145). -/
def findFactory (self : Inflater F) (widgetName : String) : Option F :=
  mapFind self.widgetFactories widgetName

/-- The loop of `Inflater::findVariable` over the frames. -/
def findVariable.loop : List (List (String × List Node)) → String → List Node
  | [], _ => []
  | i :: rest, name =>
    match mapFind i name with
    | some r => r
    | none => findVariable.loop rest name

/-- The method `Inflater::findVariable` (lines 316-325): the chain bound in the
innermost frame that has the name; the empty chain stands for the null pointer,
which is returned both when no frame has the name and when the stored pointer
is null. -/
def findVariable (self : Inflater F) (name : String) : List Node :=
  findVariable.loop self.variables_ name

/-- The method `Inflater::popVariables` (lines 329-332); the assertion excludes
the empty stack. -/
def popVariables (self : Inflater F) : Inflater F :=
  { self with variables_ := self.variables_.tail }

/-- The method `Inflater::substituteVariables` (lines 405-412). -/
def substituteVariables (self : Inflater F) (to_ : List Node) : Except String (List Node) :=
  substituteVars (fun name => self.findVariable name) to_

/-- The loop of `Inflater::pushVariables` (lines 375-390) building the frame `m`. -/
def pushVariables.loop (self : Inflater F) :
    List Node → List (String × List Node) → Except String (List (String × List Node))
  | [], m => .ok m
  | n :: next, m =>
    if !n.isProperty then pushVariables.loop self next m
    else
      match self.substituteVariables n.children with
      | .error e => .error e
      | .ok value =>
        let ret := mapInsert m n.value value
        if !ret.2 then .error excVariableAlreadyDefined
        else pushVariables.loop self next ret.1

/-- The method `Inflater::pushVariables` (lines 372-403). -/
def pushVariables (self : Inflater F) (chain : List Node) : Except String Unit × Inflater F :=
  match pushVariables.loop self chain [] with
  | .error e => (.error e, self)
  | .ok m => (.ok (), { self with variables_ := m :: self.variables_ })

end Inflater

end morda

namespace morda

open stob

mutual
/-- The condition of `hasMalformedRef` on the children of a node. -/
def hasMalformedRef.ofChild : Node → Bool
  | Node.mk _ cs => hasMalformedRef cs
/-- The chain contains, at some depth and not inside another `@` node, a node
valued `@` that has no child, or whose first child has a following sibling, or
whose first child has children of its own. -/
def hasMalformedRef : List Node → Bool
  | [] => false
  | n :: rest =>
    (if n.value = "@" then
      match n.children with
      | [] => true
      | name :: more => !more.isEmpty || !name.children.isEmpty
    else hasMalformedRef.ofChild n) || hasMalformedRef rest
end

mutual
/-- The expansion `expandReferences` of the children of a node. -/
def expandReferences.ofChild (bound : String → List Node) : Node → List Node
  | Node.mk _ cs => expandReferences bound cs
/-- One pass of reference expansion as the spec words it: a well-formed `@`
reference (at any depth, not inside another `@` node) whose name is bound to a
non-empty chain is replaced by that chain as it is, every other node keeps its
value and its place, with its children expanded in the same way unless the node
is an `@` node. -/
def expandReferences (bound : String → List Node) : List Node → List Node
  | [] => []
  | n :: rest =>
    (if n.value = "@" then
      match n.children with
      | [Node.mk name []] => if (bound name).isEmpty then [n] else bound name
      | _ => [n]
    else [Node.mk n.value (expandReferences.ofChild bound n)]) ++ expandReferences bound rest
end

mutual
/-- The condition of `refsAllUnbound` on the children of a node. -/
def refsAllUnbound.ofChild (isBound : String → Bool) : Node → Bool
  | Node.mk _ cs => refsAllUnbound isBound cs
/-- Every `@` node of the chain (at any depth, not inside another `@` node) is a
well-formed reference, one childless child, and names a variable that is not
bound. -/
def refsAllUnbound (isBound : String → Bool) : List Node → Bool
  | [] => true
  | n :: rest =>
    (if n.value = "@" then
      match n.children with
      | [Node.mk name []] => !isBound name
      | _ => false
    else refsAllUnbound.ofChild isBound n) && refsAllUnbound isBound rest
end

/-- The chain `r` keeps every reference `@{v}` of the chain `c`: each node
`@{v}` of `c` (at any depth, not inside another `@` node) stands in `r` as it
is, at its place among the nodes that come from its siblings.  Any other `@`
node of `c` may stand in `r` as any chain, and a node that is not an `@` node
keeps its value, its children being related in the same way. -/
inductive refsKept (v : String) : List Node → List Node → Prop
  | nil : refsKept v [] []
  | ref (rest rest2 : List Node) : refsKept v rest rest2 →
      refsKept v (Node.mk "@" [Node.mk v []] :: rest) (Node.mk "@" [Node.mk v []] :: rest2)
  | other (n : Node) (ys rest rest2 : List Node) : n.value = "@" →
      n.children ≠ [Node.mk v []] → refsKept v rest rest2 →
      refsKept v (n :: rest) (ys ++ rest2)
  | node (n : Node) (cs2 rest rest2 : List Node) : n.value ≠ "@" →
      refsKept v n.children cs2 → refsKept v rest rest2 →
      refsKept v (n :: rest) (Node.mk n.value cs2 :: rest2)

/-- Some frame of the variable stack has an entry for the name. -/
def Inflater.isBound {F : Type} (self : Inflater F) (name : String) : Bool :=
  self.variables_.any (fun frame => (mapFind frame name).isSome)

end morda


namespace morda

open stob

/-- The constant `defs_c` (line 76). -/
def defs_c : String := "defs"

/-- A `std::set<std::string>` as the list of its elements: `insert`. -/
def setInsert (s : List String) (v : String) : List String :=
  if v ∈ s then s else s ++ [v]

namespace Inflater

variable {F W : Type}

/-- The message of the exception of `inflate` for a leading property other than `defs`. -/
def excUnknownDeclaration : String :=
  "Inflater::Inflate(): unknown declaration encountered before first widget"

/-- The message of the exception of `inflate` for a missing factory, without
the widget name that follows it. -/
def excNoFactory : String :=
  "Failed to inflate, no matching factory found for requested widget name: "

/-- The message of the exception of `parseTemplate` for a property with children. -/
def excArgumentHasChildren : String :=
  "malformed GUI declaration: template argument name has children"

/-- The message of the exception of `parseTemplate` for a missing definition. -/
def excNoDefinition : String :=
  "malformed GUI declaration: template has no definition"

/-- The message of the exception of `pushTemplates` for a childless template name. -/
def excTemplateNoChildren : String :=
  "Inflater::pushTemplates(): template name has no children, error."

/-- The message of the exception of `pushTemplates` for a repeated template name. -/
def excTemplateAlreadyDefined : String :=
  "Inflater::PushTemplates(): template name is already defined in given templates chain, error."

/-- The loop of `Inflater::findTemplate` over the frames. -/
def findTemplate.loop : List (List (String × Template)) → String → Option Template
  | [], _ => none
  | i :: rest, name =>
    match mapFind i name with
    | some r => some r
    | none => findTemplate.loop rest name

/-- The method `Inflater::findTemplate` (lines 303-312). -/
def findTemplate (self : Inflater F) (name : String) : Option Template :=
  findTemplate.loop self.templates name

/-- The method `Inflater::popTemplates` (lines 296-299); the assertion excludes
the empty stack. -/
def popTemplates (self : Inflater F) : Inflater F :=
  { self with templates := self.templates.tail }

/-- The loop of `Inflater::parseTemplate` (lines 235-249): `t` is `ret.t`, null
until the first non-property node is met, `vars` is `ret.vars`. -/
def parseTemplate.loop :
    List Node → Option Node → List String → Except String (Option Node × List String)
  | [], t, vars => .ok (t, vars)
  | n :: next, t, vars =>
    if n.isProperty then
      if !n.children.isEmpty then .error excArgumentHasChildren
      else parseTemplate.loop next t (setInsert vars n.value)
    else
      match t with
      | some d => parseTemplate.loop next (some d) vars
      | none => parseTemplate.loop next (some n) vars

/-- The method `Inflater::parseTemplate` (lines 232-262).  The `ASSERT` macro
of line 257 is a debug check and is not part of the result. -/
def parseTemplate (self : Inflater F) (chain : List Node) : Except String Template :=
  match parseTemplate.loop chain none [] with
  | .error e => .error e
  | .ok (none, _) => .error excNoDefinition
  | .ok (some d, vars) =>
    match self.findTemplate d.value with
    | none => .ok { t := d, vars := vars }
    | some t =>
      match mergeGUIChain t.t.children t.vars d.children with
      | .error e => .error e
      | .ok c => .ok { t := Node.mk t.t.value c, vars := vars }

/-- The loop of `Inflater::pushTemplates` (lines 267-279) building the frame `m`. -/
def pushTemplates.loop (self : Inflater F) :
    List Node → List (String × Template) → Except String (List (String × Template))
  | [], m => .ok m
  | c :: next, m =>
    if c.isProperty then pushTemplates.loop self next m
    else if c.children.isEmpty then .error excTemplateNoChildren
    else
      match self.parseTemplate c.children with
      | .error e => .error e
      | .ok t =>
        let ret := mapInsert m c.value t
        if !ret.2 then .error excTemplateAlreadyDefined
        else pushTemplates.loop self next ret.1

/-- The method `Inflater::pushTemplates` (lines 264-292). -/
def pushTemplates (self : Inflater F) (chain : List Node) : Except String Unit × Inflater F :=
  match pushTemplates.loop self chain [] with
  | .error e => (.error e, self)
  | .ok m => (.ok (), { self with templates := m :: self.templates })

/-- The loop over the leading declarations of `Inflater::inflate` (lines
154-164): the chain from the node `n` the loop stops at (empty for the null
pointer), and the object after the pushes. -/
def inflate.leading (self : Inflater F) : List Node → Except String (List Node) × Inflater F
  | [] => (.ok [], self)
  | n :: next =>
    if n.isProperty then
      if n.value = defs_c then
        if !n.children.isEmpty then
          match self.pushTemplates n.children with
          | (.error e, s) => (.error e, s)
          | (.ok (), s) =>
            match s.pushVariables n.children with
            | (.error e, s2) => (.error e, s2)
            | (.ok (), s2) => inflate.leading s2 next
        else inflate.leading self next
      else (.error excUnknownDeclaration, self)
    else (.ok (n :: next), self)

/-- The template step of `Inflater::inflate` (lines 170-175): the node `n`
points to afterwards. -/
def inflate.applyTemplate (self : Inflater F) (n : Node) : Except String Node :=
  match self.findTemplate n.value with
  | none => .ok n
  | some t =>
    match mergeGUIChain t.t.children t.vars n.children with
    | .error e => .error e
    | .ok c => .ok (Node.mk t.t.value c)

/-- The push of the local definitions of `Inflater::inflate` (lines 198-205)
with the flags `needPopTemplates` and `needPopVariables` it leaves;
`n->child(defs_c).node()` is the first child of `n` valued `defs`. -/
def inflate.pushLocal (self : Inflater F) (n : Node) :
    Except String Unit × Inflater F × Bool × Bool :=
  match thisOrNext n.children defs_c with
  | none => (.ok (), self, false, false)
  | some v =>
    if !v.children.isEmpty then
      match self.pushTemplates v.children with
      | (.error e, s) => (.error e, s, false, false)
      | (.ok (), s) =>
        match s.pushVariables v.children with
        | (.error e, s2) => (.error e, s2, true, false)
        | (.ok (), s2) => (.ok (), s2, true, true)
    else (.ok (), self, false, false)

/-- The function run by `utki::ScopeExit` when `Inflater::inflate` is left
(lines 189-196). -/
def inflate.scopeExit (self : Inflater F) (needPopTemplates needPopVariables : Bool) :
    Inflater F :=
  let s := if needPopTemplates then self.popTemplates else self
  if needPopVariables then s.popVariables else s

/-- The method `Inflater::inflate(const stob::Node&)` (lines 148-220).  The
class `WidgetFactory` is declared outside `src/`: `create fac chain s` is what
`fac->create(chain)` does when the object is in state `s`, the widget it
returns (`none` for a null pointer) or the exception it throws, and the state
it leaves.  The result of `inflate` is `none` for the null pointer. -/
def inflate (create : F → List Node → Inflater F → Except String (Option W) × Inflater F)
    (self : Inflater F) (chain : List Node) : Except String (Option W) × Inflater F :=
  match inflate.leading self chain with
  | (.error e, s) => (.error e, s)
  | (.ok [], s) => (.ok none, s)
  | (.ok (n0 :: _), s) =>
    match inflate.applyTemplate s n0 with
    | .error e => (.error e, s)
    | .ok n =>
      match s.findFactory n.value with
      | none => (.error (excNoFactory ++ n.value), s)
      | some fac =>
        match inflate.pushLocal s n with
        | (.error e, s2, needPopTemplates, needPopVariables) =>
          (.error e, inflate.scopeExit s2 needPopTemplates needPopVariables)
        | (.ok (), s2, needPopTemplates, needPopVariables) =>
          match s2.substituteVariables n.children with
          | .error e => (.error e, inflate.scopeExit s2 needPopTemplates needPopVariables)
          | .ok cloned =>
            match create fac cloned s2 with
            | (r, s3) => (r, inflate.scopeExit s3 needPopTemplates needPopVariables)

/-- The widget names registered by the constructor `Inflater::Inflater()`
(lines 26-40), in the order of the calls. -/
def defaultWidgetNames : List String :=
  ["Widget", "Container", "HorizontalArea", "VerticalArea", "Frame", "MouseProxy",
    "ScrollArea", "Table", "TableRow", "KeyProxy", "Overlay", "ResizeProxy", "Margins"]

/-- The constructor `Inflater::Inflater()` (lines 26-40): `widget name` is the
factory that `addWidget<T>(name)` hands to `addWidgetFactory`. -/
def new (widget : String → F) : Inflater F :=
  defaultWidgetNames.foldl (fun s name => (s.addWidgetFactory name (widget name)).2)
    { widgetFactories := [], templates := [], variables_ := [] }

/-- A factory that builds, as its widget, the pair of its own name and the
chain it is created from, and leaves the object alone. -/
def createEcho (fac : String) (chain : List Node) (s : Inflater String) :
    Except String (Option (String × List Node)) × Inflater String :=
  (.ok (some (fac, chain)), s)

end Inflater

end morda

namespace morda

open stob

/-- The common shape of the loops of `pushTemplates` and `pushVariables` on the
nodes they do not skip: the entry of each node is computed by `val` and
inserted under the value of the node, and a key that is already in the frame
throws `dup`. -/
def buildFrame {β : Type} (val : Node → Except String β) (dup : String) :
    List Node → List (String × β) → Except String (List (String × β))
  | [], m => .ok m
  | n :: next, m =>
    match val n with
    | .error e => .error e
    | .ok v =>
      let ret := mapInsert m n.value v
      if !ret.2 then .error dup else buildFrame val dup next ret.1

/-- The template that `pushTemplates` stores for a non-property node: the
exception for a childless node, else what `parseTemplate` makes of its
children. -/
def Inflater.templateOf {F : Type} (self : Inflater F) (c : Node) : Except String Template :=
  if c.children.isEmpty then .error Inflater.excTemplateNoChildren
  else self.parseTemplate c.children

end morda

namespace morda

open stob

/-- A node of the result that is not an override either is a node of the base
or has a value that two nodes of the base have. -/
def fromBase (b : List Node) (n : Node) : Prop :=
  n ∈ b ∨ 2 ≤ b.countP (fun m => decide (m.value = n.value))

namespace Inflater

variable {F W : Type}

/-- The condition of the `ASSERT` of line 257 at the moment `parseTemplate`
evaluates it: the definition node of the parent template has children.  It is
`true` when the line is not reached. -/
def parseTemplate.assertion (self : Inflater F) (chain : List Node) : Bool :=
  match parseTemplate.loop chain none [] with
  | .ok (some d, _) =>
    match self.findTemplate d.value with
    | some t => !t.t.children.isEmpty
    | none => true
  | _ => true

/-- The loop over the leading declarations of `Inflater::inflate` (lines
154-164) ends with an exception of `pushVariables` (line 159), thrown after
`pushTemplates` (line 158) has pushed its frame. -/
def inflate.leadingVariablesThrow (self : Inflater F) : List Node → Bool
  | [] => false
  | n :: next =>
    if n.isProperty then
      if n.value = defs_c then
        if !n.children.isEmpty then
          match self.pushTemplates n.children with
          | (.error _, _) => false
          | (.ok (), s) =>
            match s.pushVariables n.children with
            | (.error _, _) => true
            | (.ok (), s2) => inflate.leadingVariablesThrow s2 next
        else inflate.leadingVariablesThrow self next
      else false
    else false

/-- The object after a sequence of calls of `inflate`, one for each chain. -/
def inflateAll (create : F → List Node → Inflater F → Except String (Option W) × Inflater F)
    (self : Inflater F) : List (List Node) → Inflater F
  | [] => self
  | chain :: rest => inflateAll create (inflate create self chain).2 rest

/-- In a sequence of calls of `inflate`, no call ends in its loop over the
leading declarations with an exception of `pushVariables`. -/
def inflateAll.noLeadingVariablesThrow
    (create : F → List Node → Inflater F → Except String (Option W) × Inflater F)
    (self : Inflater F) : List (List Node) → Bool
  | [] => true
  | chain :: rest =>
    !inflate.leadingVariablesThrow self chain &&
      inflateAll.noLeadingVariablesThrow create (inflate create self chain).2 rest

end Inflater

end morda
namespace stob

/-- Induction over a chain and, for each of its nodes, the chain of children. -/
theorem Node.chain_induction {P : List Node → Prop} (nil : P [])
    (cons : ∀ (n : Node) (rest : List Node), P n.children → P rest → P (n :: rest)) :
    ∀ c, P c :=
  @Node.rec_1 (fun n => P n.children) P
    (fun _ _ h => h) nil (fun n rest h1 h2 => cons n rest h1 h2)

theorem Node.setChildren_children (n : Node) : n.setChildren n.children = n := by
  cases n; rfl

theorem setChildrenOfFirst_self {o : List Node} {v : String} {n : Node}
    (h : thisOrNext o v = some n) : setChildrenOfFirst o v n.children = o := by
  induction o with
  | nil => simp [thisOrNext] at h
  | cons a rest ih =>
    simp only [thisOrNext] at h
    simp only [setChildrenOfFirst]
    by_cases hv : a.value = v
    · simp only [hv, if_true, Option.some.injEq] at h
      subst h
      simp [hv, Node.setChildren_children]
    · simp only [hv, if_false] at h
      simp [hv, ih h]

theorem thisOrNext_ne_nil {o : List Node} {v : String} {n : Node}
    (h : thisOrNext o v = some n) : o ≠ [] := by
  intro ho; subst ho; simp [thisOrNext] at h

end stob

namespace morda

open stob

theorem mergeGUIChain_eq_loop (from_ : List Node) (vars : List String) {to_ : List Node}
    (h : to_ ≠ []) : mergeGUIChain from_ vars to_ = mergeGUIChain.loop from_ vars true [] to_ := by
  cases to_ with
  | nil => exact absurd rfl h
  | cons t ts => rfl

theorem mergeGUIChain_ofChild_eq (src : Node) (vars : List String) (to_ : List Node) :
    mergeGUIChain.ofChild src vars to_ = mergeGUIChain src.children vars to_ := by
  cases src; cases to_ <;> rfl

/-- C1: the empty chain is an identity of merge on both sides: merging any base
chain with no overrides returns the base chain itself, and merging the empty
base with any override chain returns the overrides unchanged. -/
theorem mergeGUIChain_empty_identity :
    (∀ (b : List Node) (vs : List String), mergeGUIChain b vs [] = .ok b) ∧
    (∀ (o : List Node) (vs : List String), mergeGUIChain [] vs o = .ok o) := by
  refine ⟨fun b vs => rfl, fun o vs => ?_⟩
  cases o with
  | nil => rfl
  | cons t ts => simp [mergeGUIChain, mergeGUIChain.loop]

/-- C2 (counterexample): base `p{X}` and overrides `p{Y}` satisfy the stated
conditions, yet merge returns `p{X Y}`: the bare value `X` of the base is kept
in the body of `p`, so the override chain is not returned unchanged. -/
theorem mergeGUIChain_override_wins_counterexample :
    (Node.mk "p" [Node.mk "X" []]).isProperty = true ∧
    thisOrNext [Node.mk "p" [Node.mk "Y" []]] "p" = some (Node.mk "p" [Node.mk "Y" []]) ∧
    mergeGUIChain [Node.mk "p" [Node.mk "X" []]] [] [Node.mk "p" [Node.mk "Y" []]]
      = .ok [Node.mk "p" [Node.mk "X" [], Node.mk "Y" []]] ∧
    mergeGUIChain [Node.mk "p" [Node.mk "X" []]] [] [Node.mk "p" [Node.mk "Y" []]]
      ≠ .ok [Node.mk "p" [Node.mk "Y" []]] := by
  refine ⟨rfl, rfl, rfl, ?_⟩
  intro h
  have h2 : mergeGUIChain [Node.mk "p" [Node.mk "X" []]] [] [Node.mk "p" [Node.mk "Y" []]]
      = .ok [Node.mk "p" [Node.mk "X" [], Node.mk "Y" []]] := rfl
  rw [h2] at h
  simp at h

/-- C2 (amended): when the single childless node `x` in the body of the base
property `p` is itself a property node (its value does not start with a capital
letter) and the first node named `p` of the overrides has the body `y`, merge
succeeds and returns the override chain unchanged. -/
theorem mergeGUIChain_override_wins (p x y : String) (o : List Node) (vs : List String)
    (hp : (Node.mk p [Node.mk x []]).isProperty = true)
    (hx : (Node.mk x []).isProperty = true)
    (ho : thisOrNext o p = some (Node.mk p [Node.mk y []])) :
    mergeGUIChain [Node.mk p [Node.mk x []]] vs o = .ok o := by
  rw [mergeGUIChain_eq_loop _ _ (thisOrNext_ne_nil ho)]
  have hset := setChildrenOfFirst_self ho
  simp only [Node.children] at hset
  by_cases hat : p = "@"
  · subst hat
    simp [mergeGUIChain.loop, hp, Node.children, Node.value]
  · simp [mergeGUIChain.loop, mergeGUIChain.ofChild, hp, hx, Node.children, Node.value, hat, ho,
      hset]

theorem mergeGUIChain_override_wins_witness :
    mergeGUIChain [Node.mk "p" [Node.mk "x" []]] []
        [Node.mk "Widget" [], Node.mk "p" [Node.mk "y" []]]
      = .ok [Node.mk "Widget" [], Node.mk "p" [Node.mk "y" []]] :=
  mergeGUIChain_override_wins "p" "x" "y" _ [] rfl rfl rfl

end morda

namespace stob

theorem thisOrNext_eq_none {o : List Node} {v : String}
    (h : ∀ n ∈ o, n.value ≠ v) : thisOrNext o v = none := by
  induction o with
  | nil => rfl
  | cons a rest ih =>
    have ha : a.value ≠ v := h a (List.mem_cons_self _ _)
    simp only [thisOrNext, ha, if_false]
    exact ih (fun n hn => h n (List.mem_cons_of_mem _ hn))

theorem mem_insertNext_self {o : List Node} (n : Node) (h : o ≠ []) : n ∈ insertNext o n := by
  cases o with
  | nil => exact absurd rfl h
  | cons t ts => simp [insertNext]

theorem mem_insertNext_of_mem {o : List Node} {x : Node} (n : Node) (h : x ∈ o) :
    x ∈ insertNext o n := by
  cases o with
  | nil => simp at h
  | cons t ts =>
    simp only [insertNext, List.mem_cons] at h ⊢
    rcases h with h | h
    · exact Or.inl h
    · exact Or.inr (Or.inr h)

theorem mem_insertNext {o : List Node} {x n : Node} (h : x ∈ insertNext o n) :
    x ∈ o ∨ x = n := by
  cases o with
  | nil => simp [insertNext] at h
  | cons t ts =>
    simp only [insertNext, List.mem_cons] at h ⊢
    rcases h with h | h | h
    · exact Or.inl (Or.inl h)
    · exact Or.inr h
    · exact Or.inl (Or.inr h)

theorem insertNext_ne_nil {o : List Node} (n : Node) (h : o ≠ []) : insertNext o n ≠ [] := by
  cases o with
  | nil => exact absurd rfl h
  | cons t ts => simp [insertNext]

theorem setChildrenOfFirst_ne_nil {o : List Node} (v : String) (c : List Node) (h : o ≠ []) :
    setChildrenOfFirst o v c ≠ [] := by
  cases o with
  | nil => exact absurd rfl h
  | cons t ts =>
    simp only [setChildrenOfFirst]
    split <;> simp

theorem mem_setChildrenOfFirst_of_mem {o : List Node} {x : Node} {v : String} (c : List Node)
    (h : x ∈ o) (hx : x.value ≠ v) : x ∈ setChildrenOfFirst o v c := by
  induction o with
  | nil => simp at h
  | cons a rest ih =>
    simp only [setChildrenOfFirst]
    rcases List.mem_cons.1 h with h | h
    · subst h
      simp [hx]
    · split
      · exact List.mem_cons_of_mem _ h
      · exact List.mem_cons_of_mem _ (ih h)

theorem value_of_mem_setChildrenOfFirst {o : List Node} {x : Node} {v : String} {c : List Node}
    (h : x ∈ setChildrenOfFirst o v c) : ∃ m ∈ o, m.value = x.value := by
  induction o with
  | nil => simp [setChildrenOfFirst] at h
  | cons a rest ih =>
    simp only [setChildrenOfFirst] at h
    split at h
    · rcases List.mem_cons.1 h with h | h
      · exact ⟨a, List.mem_cons_self _ _, by subst h; rfl⟩
      · exact ⟨x, List.mem_cons_of_mem _ h, rfl⟩
    · rcases List.mem_cons.1 h with h | h
      · exact ⟨a, List.mem_cons_self _ _, by subst h; rfl⟩
      · obtain ⟨m, hm, hv⟩ := ih h
        exact ⟨m, List.mem_cons_of_mem _ hm, hv⟩

end stob

namespace morda

open stob

/-- Once the property `q` is in the override chain, the rest of the loop keeps
it there as long as no later node of the base has its name. -/
theorem mergeGUIChain_loop_keeps (q : Node) (vs : List String) :
    ∀ (rest : List Node) (first : Bool) (children to_ r : List Node),
      q ∈ to_ → (∀ n ∈ rest, n.value ≠ q.value) →
      mergeGUIChain.loop rest vs first children to_ = .ok r → q ∈ r := by
  intro rest
  induction rest with
  | nil =>
    intro first children to_ r hq _ h
    simp only [mergeGUIChain.loop, Except.ok.injEq] at h
    subst h
    exact List.mem_append_right _ hq
  | cons src next ih =>
    intro first children to_ r hq hne h
    have hsrc : src.value ≠ q.value := hne src (List.mem_cons_self _ _)
    have hnext : ∀ n ∈ next, n.value ≠ q.value := fun n hn => hne n (List.mem_cons_of_mem _ hn)
    rw [mergeGUIChain.loop] at h
    split at h
    · exact ih _ _ _ _ hq hnext h
    · split at h
      · split at h
        · cases h
        · cases h; exact hq
      · split at h
        · exact ih _ _ _ _ (mem_insertNext_of_mem _ hq) hnext h
        · split at h
          · exact ih _ _ _ _ hq hnext h
          · split at h
            · cases h
            · exact ih _ _ _ _ (mem_setChildrenOfFirst_of_mem _ hq (Ne.symm hsrc)) hnext h

/-- Before the loop reaches the property `q`, no node of the override chain
gets the name of `q`; at `q` the node is linked in, and it stays. -/
theorem mergeGUIChain_loop_inherits (q : Node) (vs : List String) (post : List Node)
    (hq : q.isProperty = true) (hbody : q.children ≠ []) (hat : q.value ≠ "@")
    (hpost : ∀ n ∈ post, n.value ≠ q.value) :
    ∀ (pre : List Node) (first : Bool) (children to_ r : List Node),
      to_ ≠ [] → (∀ n ∈ to_, n.value ≠ q.value) → (∀ n ∈ pre, n.value ≠ q.value) →
      mergeGUIChain.loop (pre ++ q :: post) vs first children to_ = .ok r → q ∈ r := by
  intro pre
  induction pre with
  | nil =>
    intro first children to_ r hto hno _ h
    have hb : q.children.isEmpty = false := by
      cases hc : q.children with
      | nil => exact absurd hc hbody
      | cons a l => rfl
    simp only [List.nil_append] at h
    rw [mergeGUIChain.loop] at h
    simp only [hq, hb, hat, thisOrNext_eq_none hno, Bool.not_true, Bool.false_eq_true,
      if_false, decide_False, Bool.or_self] at h
    exact mergeGUIChain_loop_keeps q vs post _ _ _ _ (mem_insertNext_self q hto) hpost h
  | cons src next ih =>
    intro first children to_ r hto hno hpre h
    have hsrc : src.value ≠ q.value := hpre src (List.mem_cons_self _ _)
    have hnext : ∀ n ∈ next, n.value ≠ q.value := fun n hn => hpre n (List.mem_cons_of_mem _ hn)
    rw [List.cons_append, mergeGUIChain.loop] at h
    split at h
    · exact ih _ _ _ _ hto hno hnext h
    · split at h
      · split at h
        · cases h
        · rename_i hcond
          simp at hcond
      · split at h
        · refine ih _ _ _ _ (insertNext_ne_nil _ hto) ?_ hnext h
          intro n hn
          rcases mem_insertNext hn with hn | hn
          · exact hno n hn
          · subst hn; exact hsrc
        · split at h
          · exact ih _ _ _ _ hto hno hnext h
          · split at h
            · cases h
            · refine ih _ _ _ _ (setChildrenOfFirst_ne_nil _ _ hto) ?_ hnext h
              intro n hn
              obtain ⟨m, hm, hv⟩ := value_of_mem_setChildrenOfFirst hn
              rw [← hv]
              exact hno m hm

/-- C3 (counterexample): the base `q{A} q{B}` has two properties named `q`,
absent from the overrides `X`; merge returns `X q{B A}`, which contains neither
`q{A}` nor `q{B}`. -/
theorem mergeGUIChain_inherits_absent_counterexample :
    mergeGUIChain [Node.mk "q" [Node.mk "A" []], Node.mk "q" [Node.mk "B" []]] []
        [Node.mk "X" []]
      = .ok [Node.mk "X" [], Node.mk "q" [Node.mk "B" [], Node.mk "A" []]] ∧
    Node.mk "q" [Node.mk "A" []] ∉
      [Node.mk "X" [], Node.mk "q" [Node.mk "B" [], Node.mk "A" []]] ∧
    Node.mk "q" [Node.mk "B" []] ∉
      [Node.mk "X" [], Node.mk "q" [Node.mk "B" [], Node.mk "A" []]] := by
  refine ⟨rfl, ?_, ?_⟩ <;> simp

/-- C3 (amended): a base property `q` with a non-empty body, not named `@`,
whose name is the value of no node of the non-empty override chain and of no
other node of the base, is a top-level node of the result of a successful
merge, with its whole subtree. -/
theorem mergeGUIChain_inherits_absent (o pre post : List Node) (q : Node) (vs : List String)
    (r : List Node) (ho : o ≠ []) (hq : q.isProperty = true) (hbody : q.children ≠ [])
    (hat : q.value ≠ "@") (hno : ∀ n ∈ o, n.value ≠ q.value)
    (hpre : ∀ n ∈ pre, n.value ≠ q.value) (hpost : ∀ n ∈ post, n.value ≠ q.value)
    (hres : mergeGUIChain (pre ++ q :: post) vs o = .ok r) : q ∈ r := by
  rw [mergeGUIChain_eq_loop _ _ ho] at hres
  exact mergeGUIChain_loop_inherits q vs post hq hbody hat hpost pre _ _ _ _ ho hno hpre hres

theorem mergeGUIChain_inherits_absent_witness :
    Node.mk "q" [Node.mk "A" []] ∈
      [Node.mk "Z" [], Node.mk "X" [], Node.mk "q" [Node.mk "A" []],
        Node.mk "p" [Node.mk "B" [], Node.mk "y" []]] :=
  mergeGUIChain_inherits_absent [Node.mk "X" [], Node.mk "p" [Node.mk "y" []]]
    [Node.mk "Z" []] [Node.mk "p" [Node.mk "B" []]] (Node.mk "q" [Node.mk "A" []]) [] _
    (by simp) rfl (by simp [Node.children]) (by simp [Node.value])
    (by simp [Node.value]) (by simp [Node.value]) (by simp [Node.value]) rfl

end morda

namespace morda

open stob

/-- C4 (counterexample): base `p{x}` and overrides `p` (empty body): merge
returns the overrides `p`, a chain that still contains a node named `p`. -/
theorem mergeGUIChain_deletion_counterexample :
    (Node.mk "p" [Node.mk "x" []]).isProperty = true ∧
    thisOrNext [Node.mk "p" []] "p" = some (Node.mk "p" []) ∧
    mergeGUIChain [Node.mk "p" [Node.mk "x" []]] [] [Node.mk "p" []] = .ok [Node.mk "p" []] ∧
    (∃ n ∈ [Node.mk "p" []], n.value = "p") :=
  ⟨rfl, rfl, rfl, Node.mk "p" [], List.mem_cons_self _ _, rfl⟩

/-- C4 (amended): for a base chain whose only node is a property `p` with a
non-empty body and an override chain whose first node named `p` has an empty
body, merge returns the override chain unchanged: the body of the base is not
inherited and the node named `p` of the overrides keeps its empty body. -/
theorem mergeGUIChain_deletion (p : String) (body o : List Node) (vs : List String) (d : Node)
    (hp : (Node.mk p body).isProperty = true) (hbody : body ≠ [])
    (ho : thisOrNext o p = some d) (hd : d.children = []) :
    mergeGUIChain [Node.mk p body] vs o = .ok o := by
  rw [mergeGUIChain_eq_loop _ _ (thisOrNext_ne_nil ho)]
  cases d with
  | mk dv dc =>
  simp only [Node.children] at hd
  subst hd
  cases body with
  | nil => exact absurd rfl hbody
  | cons b bs =>
    by_cases hat : p = "@"
    · subst hat
      simp [mergeGUIChain.loop, hp, Node.children, Node.value]
    · simp [mergeGUIChain.loop, hp, Node.children, Node.value, hat, ho]

theorem mergeGUIChain_deletion_witness :
    mergeGUIChain [Node.mk "p" [Node.mk "x" []]] [] [Node.mk "Widget" [], Node.mk "p" []]
      = .ok [Node.mk "Widget" [], Node.mk "p" []] :=
  mergeGUIChain_deletion "p" [Node.mk "x" []] _ [] (Node.mk "p" []) rfl (by simp) rfl rfl

theorem mergeGUIChain_error_of_loop {c : List Node}
    (ihc : ∀ (vars : List String) (first : Bool) (children to_ : List Node) (e : String),
      mergeGUIChain.loop c vars first children to_ = .error e → e = excSeveralValues)
    (vars : List String) (to_ : List Node) (e : String)
    (h : mergeGUIChain c vars to_ = .error e) : e = excSeveralValues := by
  cases to_ with
  | nil => cases h
  | cons t ts => exact ihc _ _ _ _ _ h

/-- Every exception of the loop of `mergeGUIChain` carries the same message. -/
theorem mergeGUIChain_loop_error (c : List Node) :
    ∀ (vars : List String) (first : Bool) (children to_ : List Node) (e : String),
      mergeGUIChain.loop c vars first children to_ = .error e → e = excSeveralValues := by
  induction c using Node.chain_induction with
  | nil =>
    intro vars first children to_ e h
    simp [mergeGUIChain.loop] at h
  | cons src next ihc ih =>
    intro vars first children to_ e h
    rw [mergeGUIChain.loop] at h
    split at h
    · exact ih _ _ _ _ _ h
    · split at h
      · split at h
        · cases h; rfl
        · cases h
      · split at h
        · exact ih _ _ _ _ _ h
        · split at h
          · exact ih _ _ _ _ _ h
          · split at h
            · rename_i e2 he
              cases h
              rw [mergeGUIChain_ofChild_eq] at he
              exact mergeGUIChain_error_of_loop ihc _ _ _ he
            · exact ih _ _ _ _ _ h

/-- A leaf property that is not alone in its chain makes the loop throw. -/
theorem mergeGUIChain_loop_leaf (vs : List String) :
    ∀ (b : List Node) (first : Bool) (children to_ : List Node),
      (∃ n ∈ b, n.isProperty = true ∧ (n.children = [] ∨ n.value = "@")) →
      (first = false ∨ 1 < b.length) →
      mergeGUIChain.loop b vs first children to_ = .error excSeveralValues := by
  intro b
  induction b with
  | nil =>
    intro first children to_ h
    simp at h
  | cons src next ih =>
    intro first children to_ hleaf hpos
    rw [mergeGUIChain.loop]
    by_cases hprop : src.isProperty = true
    · by_cases hl : (src.children.isEmpty || decide (src.value = "@")) = true
      · have hthrow : (!first || !next.isEmpty) = true := by
          rcases hpos with hf | hlen
          · simp [hf]
          · cases next with
            | nil => simp at hlen
            | cons a l => simp
        simp [hprop, hl, hthrow]
      · have hnext : ∃ n ∈ next, n.isProperty = true ∧ (n.children = [] ∨ n.value = "@") := by
          obtain ⟨n, hn, hp, hc⟩ := hleaf
          rcases List.mem_cons.1 hn with hn | hn
          · subst hn
            exfalso
            apply hl
            rcases hc with hc | hc
            · simp [hc]
            · simp [hc]
          · exact ⟨n, hn, hp, hc⟩
        simp only [hprop, hl, Bool.not_true, Bool.false_eq_true, if_false]
        split
        · exact ih _ _ _ hnext (Or.inl rfl)
        · split
          · exact ih _ _ _ hnext (Or.inl rfl)
          · split
            · rename_i e he
              rw [mergeGUIChain_ofChild_eq] at he
              rw [mergeGUIChain_error_of_loop (mergeGUIChain_loop_error _) _ _ _ he]
            · exact ih _ _ _ hnext (Or.inl rfl)
    · have hnext : ∃ n ∈ next, n.isProperty = true ∧ (n.children = [] ∨ n.value = "@") := by
        obtain ⟨n, hn, hp, hc⟩ := hleaf
        rcases List.mem_cons.1 hn with hn | hn
        · subst hn; exact absurd hp hprop
        · exact ⟨n, hn, hp, hc⟩
      simp only [hprop, Bool.not_false, if_true]
      exact ih _ _ _ hnext (Or.inl rfl)

/-- C5: leaf-property rule of merge: for a non-empty override chain `o` and a
base chain `b` that contains a property node with an empty body or with value
`@`, merge throws the malformed-script exception when `b` has more than one
node and returns `o` unchanged when that node is the only node of `b`. -/
theorem mergeGUIChain_leaf_property (o b : List Node) (vs : List String) (ho : o ≠ [])
    (hleaf : ∃ n ∈ b, n.isProperty = true ∧ (n.children = [] ∨ n.value = "@")) :
    (1 < b.length → mergeGUIChain b vs o = .error excSeveralValues) ∧
    (b.length = 1 → mergeGUIChain b vs o = .ok o) := by
  rw [mergeGUIChain_eq_loop _ _ ho]
  refine ⟨fun hlen => mergeGUIChain_loop_leaf vs b _ _ _ hleaf (Or.inr hlen), fun hlen => ?_⟩
  match b, hlen, hleaf with
  | [n], _, hleaf =>
    obtain ⟨m, hm, hp, hc⟩ := hleaf
    simp only [List.mem_singleton] at hm
    subst hm
    rw [mergeGUIChain.loop]
    rcases hc with hc | hc <;> simp [hp, hc]

theorem mergeGUIChain_leaf_property_witness :
    (1 < [Node.mk "Widget" [], Node.mk "@" [Node.mk "x" []]].length →
      mergeGUIChain [Node.mk "Widget" [], Node.mk "@" [Node.mk "x" []]] [] [Node.mk "y" []]
        = .error excSeveralValues) ∧
    ([Node.mk "Widget" [], Node.mk "@" [Node.mk "x" []]].length = 1 →
      mergeGUIChain [Node.mk "Widget" [], Node.mk "@" [Node.mk "x" []]] [] [Node.mk "y" []]
        = .ok [Node.mk "y" []]) :=
  mergeGUIChain_leaf_property [Node.mk "y" []] [Node.mk "Widget" [], Node.mk "@" [Node.mk "x" []]]
    [] (by simp) ⟨Node.mk "@" [Node.mk "x" []], by simp, rfl, Or.inr rfl⟩

end morda

namespace morda

open stob

theorem mapFind_append_single {β : Type} (m : List (String × β)) (k : String) (v : β)
    (name : String) :
    mapFind (m ++ [(k, v)]) name =
      match mapFind m name with
      | some x => some x
      | none => if k = name then some v else none := by
  induction m with
  | nil => simp [mapFind]
  | cons a rest ih =>
    obtain ⟨k2, v2⟩ := a
    simp only [List.cons_append, mapFind]
    split
    · rfl
    · exact ih

namespace Inflater

variable {F : Type}

/-- C6: factory registration rejects duplicates: `addWidgetFactory` throws
exactly when a factory is already registered under the name; when it throws the
object is unchanged, and when it returns `findFactory` of the name gives the new
factory while every other name resolves as before. -/
theorem addWidgetFactory_rejects_duplicates (self : Inflater F) (widgetName : String)
    (factory : F) :
    ((∃ e, (self.addWidgetFactory widgetName factory).1 = .error e) ↔
      ∃ f, self.findFactory widgetName = some f) ∧
    ((∃ f, self.findFactory widgetName = some f) →
      (self.addWidgetFactory widgetName factory).1 = .error excAlreadyAdded ∧
      (self.addWidgetFactory widgetName factory).2 = self) ∧
    ((self.findFactory widgetName = none) →
      (self.addWidgetFactory widgetName factory).1 = .ok () ∧
      (self.addWidgetFactory widgetName factory).2.findFactory widgetName = some factory ∧
      (∀ other, other ≠ widgetName →
        (self.addWidgetFactory widgetName factory).2.findFactory other
          = self.findFactory other) ∧
      (self.addWidgetFactory widgetName factory).2.templates = self.templates ∧
      (self.addWidgetFactory widgetName factory).2.variables_ = self.variables_) := by
  cases hfind : mapFind self.widgetFactories widgetName with
  | some f =>
    have h1 : self.addWidgetFactory widgetName factory = (.error excAlreadyAdded, self) := by
      simp [addWidgetFactory, mapInsert, hfind]
    simp [h1, findFactory, hfind]
  | none =>
    have h1 : self.addWidgetFactory widgetName factory =
        (.ok (), { self with
          widgetFactories := self.widgetFactories ++ [(widgetName, factory)] }) := by
      simp [addWidgetFactory, mapInsert, hfind]
    simp only [h1, findFactory, hfind, mapFind_append_single]
    refine ⟨by simp, by simp, fun _ => ⟨trivial, by simp, fun other hne => ?_, trivial, trivial⟩⟩
    cases mapFind self.widgetFactories other with
    | some x => rfl
    | none => simp [Ne.symm hne]

end Inflater

end morda

namespace morda

open stob

theorem substituteVars_ofChild_eq (findVar : String → List Node) (n : Node) :
    substituteVars.ofChild findVar n = substituteVars findVar n.children := by
  cases n; rw [substituteVars.ofChild]; rfl

theorem hasMalformedRef_ofChild_eq (n : Node) :
    hasMalformedRef.ofChild n = hasMalformedRef n.children := by
  cases n; rw [hasMalformedRef.ofChild]; rfl

theorem expandReferences_ofChild_eq (bound : String → List Node) (n : Node) :
    expandReferences.ofChild bound n = expandReferences bound n.children := by
  cases n; rw [expandReferences.ofChild]; rfl

theorem refsAllUnbound_ofChild_eq (isBound : String → Bool) (n : Node) :
    refsAllUnbound.ofChild isBound n = refsAllUnbound isBound n.children := by
  cases n; rw [refsAllUnbound.ofChild]; rfl

/-- The substitution of a non-empty chain, when it succeeds, is non-empty. -/
theorem substituteVars_ne_nil (findVar : String → List Node) {c r : List Node} (hc : c ≠ [])
    (h : substituteVars findVar c = .ok r) : r ≠ [] := by
  cases c with
  | nil => exact absurd rfl hc
  | cons n rest =>
    rw [substituteVars] at h
    split at h
    · split at h
      · cases h
      · split at h
        · cases h
        · split at h
          · cases h
          · split at h
            · split at h
              · cases h
              · cases h; simp
            · split at h
              · cases h
              · cases h; simp
    · split at h
      · cases h
      · split at h
        · cases h
        · cases h; simp

end morda

namespace morda

open stob

namespace Inflater

variable {F : Type}

/-- The loop of `pushVariables` never changes an entry that is already in the
frame it builds. -/
theorem pushVariables_loop_keeps (self : Inflater F) :
    ∀ (chain : List Node) (m m2 : List (String × List Node)) (k : String) (x : List Node),
      pushVariables.loop self chain m = .ok m2 → mapFind m k = some x → mapFind m2 k = some x := by
  intro chain
  induction chain with
  | nil =>
    intro m m2 k x h hk
    simp only [pushVariables.loop, Except.ok.injEq] at h
    subst h
    exact hk
  | cons n next ih =>
    intro m m2 k x h hk
    rw [pushVariables.loop] at h
    split at h
    · exact ih _ _ _ _ h hk
    · split at h
      · cases h
      · rename_i value _
        simp only [mapInsert] at h
        cases hf : mapFind m n.value with
        | some y => simp [hf] at h
        | none =>
          simp only [hf, Bool.not_true, Bool.false_eq_true, if_false] at h
          refine ih _ _ _ _ h ?_
          rw [mapFind_append_single, hk]

/-- After the loop of `pushVariables` the frame binds each property node of the
declarations to its children as substituted against the stack. -/
theorem pushVariables_loop_binds (self : Inflater F) (v : String) (a : List Node)
    (hprop : (Node.mk v a).isProperty = true) :
    ∀ (chain : List Node) (m m2 : List (String × List Node)),
      Node.mk v a ∈ chain → pushVariables.loop self chain m = .ok m2 →
      ∃ a2, self.substituteVariables a = .ok a2 ∧ mapFind m2 v = some a2 := by
  intro chain
  induction chain with
  | nil =>
    intro m m2 hmem _
    simp at hmem
  | cons n next ih =>
    intro m m2 hmem h
    rw [pushVariables.loop] at h
    rcases List.mem_cons.1 hmem with hn | hn
    · subst hn
      simp only [hprop, Bool.not_true, Bool.false_eq_true, if_false, Node.children,
        Node.value] at h
      cases hs : self.substituteVariables a with
      | error e => rw [hs] at h; cases h
      | ok value =>
        rw [hs] at h
        simp only [mapInsert] at h
        cases hf : mapFind m v with
        | some y => simp [hf] at h
        | none =>
          simp only [hf, Bool.not_true, Bool.false_eq_true, if_false] at h
          refine ⟨value, rfl, pushVariables_loop_keeps self _ _ _ _ _ h ?_⟩
          rw [mapFind_append_single, hf]
          simp
    · split at h
      · exact ih _ _ hn h
      · split at h
        · cases h
        · simp only [mapInsert] at h
          cases hf : mapFind m n.value with
          | some y => simp [hf] at h
          | none =>
            simp only [hf, Bool.not_true, Bool.false_eq_true, if_false] at h
            exact ih _ _ hn h

/-- C7 (counterexample): on the stack that binds `x` to `One`, pushing the
declarations `v{ @{x} }`, which bind `v` to the non-empty value `@{x}`,
succeeds, and `findVariable` of `v` then returns `One`, not `@{x}`. -/
theorem pushVariables_shadows_counterexample :
    (pushVariables (F := Unit) ⟨[], [], [[("x", [Node.mk "One" []])]]⟩
        [Node.mk "v" [Node.mk "@" [Node.mk "x" []]]]).1 = .ok () ∧
    (pushVariables (F := Unit) ⟨[], [], [[("x", [Node.mk "One" []])]]⟩
        [Node.mk "v" [Node.mk "@" [Node.mk "x" []]]]).2.findVariable "v" = [Node.mk "One" []] ∧
    (pushVariables (F := Unit) ⟨[], [], [[("x", [Node.mk "One" []])]]⟩
        [Node.mk "v" [Node.mk "@" [Node.mk "x" []]]]).2.findVariable "v"
      ≠ [Node.mk "@" [Node.mk "x" []]] := by
  refine ⟨rfl, rfl, ?_⟩
  intro h
  have h2 : (pushVariables (F := Unit) ⟨[], [], [[("x", [Node.mk "One" []])]]⟩
      [Node.mk "v" [Node.mk "@" [Node.mk "x" []]]]).2.findVariable "v" = [Node.mk "One" []] := rfl
  rw [h2] at h
  simp at h

/-- C7 (amended): variable scope shadowing: when pushing the declarations `D`,
in which the property `v` has the non-empty body `a`, succeeds on the stack of
`self`, the substitution of `a` against that stack returns a non-empty chain,
`findVariable` of `v` returns this chain whatever the stack binds `v` to, and
after the matching `popVariables` the object is `self` again. -/
theorem pushVariables_shadows (self : Inflater F) (D : List Node) (v : String) (a : List Node)
    (hmem : Node.mk v a ∈ D) (hprop : (Node.mk v a).isProperty = true) (ha : a ≠ [])
    (hpush : (self.pushVariables D).1 = .ok ()) :
    ∃ a2, self.substituteVariables a = .ok a2 ∧ a2 ≠ [] ∧
      (self.pushVariables D).2.findVariable v = a2 ∧
      (self.pushVariables D).2.popVariables = self := by
  unfold pushVariables at hpush ⊢
  cases hl : pushVariables.loop self D [] with
  | error e => rw [hl] at hpush; cases hpush
  | ok m =>
    obtain ⟨a2, hs, hf⟩ := pushVariables_loop_binds self v a hprop D [] m hmem hl
    refine ⟨a2, hs, substituteVars_ne_nil _ ha hs, ?_, ?_⟩
    · simp [findVariable, findVariable.loop, hf]
    · cases self
      rfl

theorem pushVariables_shadows_witness :
    ∃ a2, substituteVariables (F := Unit) ⟨[], [], [[("v", [Node.mk "Outer" []])]]⟩
          [Node.mk "Inner" []] = .ok a2 ∧ a2 ≠ [] ∧
      (pushVariables (F := Unit) ⟨[], [], [[("v", [Node.mk "Outer" []])]]⟩
          [Node.mk "v" [Node.mk "Inner" []]]).2.findVariable "v" = a2 ∧
      (pushVariables (F := Unit) ⟨[], [], [[("v", [Node.mk "Outer" []])]]⟩
          [Node.mk "v" [Node.mk "Inner" []]]).2.popVariables
        = ⟨[], [], [[("v", [Node.mk "Outer" []])]]⟩ :=
  pushVariables_shadows _ [Node.mk "v" [Node.mk "Inner" []]] "v" [Node.mk "Inner" []]
    (List.mem_cons_self _ _) rfl (by simp) rfl

end Inflater

end morda

namespace morda

open stob

/-- The substitution either throws, on a chain with a malformed reference, or
returns, on a chain without one. -/
theorem substituteVars_total (findVar : String → List Node) (c : List Node) :
    (hasMalformedRef c = true ∧ ∃ e, substituteVars findVar c = .error e) ∨
    (hasMalformedRef c = false ∧ ∃ r, substituteVars findVar c = .ok r) := by
  induction c using Node.chain_induction with
  | nil => exact Or.inr ⟨rfl, [], rfl⟩
  | cons n rest ihc ih =>
    rw [substituteVars, hasMalformedRef, substituteVars_ofChild_eq, hasMalformedRef_ofChild_eq]
    by_cases hat : n.value = "@"
    · simp only [hat, if_true]
      cases hch : n.children with
      | nil => exact Or.inl ⟨rfl, _, rfl⟩
      | cons name more =>
        by_cases hmore : more.isEmpty = true
        · by_cases hname : name.children.isEmpty = true
          · simp only [hmore, hname, Bool.not_true, Bool.false_eq_true, if_false, Bool.or_self,
              Bool.false_or]
            rcases ih with ⟨hm, e, he⟩ | ⟨hm, r, hr⟩
            · refine Or.inl ⟨hm, ?_⟩
              rw [he]
              cases findVar name.value <;> exact ⟨_, rfl⟩
            · refine Or.inr ⟨hm, ?_⟩
              rw [hr]
              cases findVar name.value <;> exact ⟨_, rfl⟩
          · simp only [hmore, hname, Bool.not_true, Bool.false_eq_true, if_false, Bool.not_false,
              Bool.or_true, Bool.true_or, if_true]
            exact Or.inl ⟨trivial, _, rfl⟩
        · simp only [hmore, Bool.not_false, Bool.true_or, if_true]
          exact Or.inl ⟨trivial, _, rfl⟩
    · simp only [hat, if_false]
      rcases ihc with ⟨hmc, e, he⟩ | ⟨hmc, cs, hcs⟩
      · rw [he, hmc]
        exact Or.inl ⟨rfl, _, rfl⟩
      · rw [hcs, hmc]
        rcases ih with ⟨hm, e, he⟩ | ⟨hm, r, hr⟩
        · rw [he, hm]
          exact Or.inl ⟨rfl, _, rfl⟩
        · rw [hr, hm]
          exact Or.inr ⟨rfl, _, rfl⟩

/-- C8: malformed references are rejected exactly: for every chain and every
way `findVar` of resolving names (bound or not), `substituteVars` throws if and
only if the chain contains, at some depth and not inside another `@` node, an
`@` node without a child, or whose first child has a following sibling, or whose
first child has children. -/
theorem substituteVars_fails_iff_malformed (findVar : String → List Node) (c : List Node) :
    (∃ e, substituteVars findVar c = .error e) ↔ hasMalformedRef c = true := by
  rcases substituteVars_total findVar c with ⟨hm, e, he⟩ | ⟨hm, r, hr⟩
  · exact ⟨fun _ => hm, fun _ => ⟨e, he⟩⟩
  · constructor
    · rintro ⟨e, he⟩
      rw [hr] at he
      cases he
    · intro h
      rw [hm] at h
      cases h

end morda

namespace morda

open stob

/-- What `substituteVars` returns is the one-pass expansion of its input. -/
theorem substituteVars_eq_expandReferences (findVar : String → List Node) (c : List Node) :
    ∀ r, substituteVars findVar c = .ok r → r = expandReferences findVar c := by
  induction c using Node.chain_induction with
  | nil =>
    intro r h
    simp only [substituteVars, Except.ok.injEq] at h
    subst h
    rfl
  | cons n rest ihc ih =>
    intro r h
    rw [substituteVars, substituteVars_ofChild_eq] at h
    rw [expandReferences, expandReferences_ofChild_eq]
    by_cases hat : n.value = "@"
    · simp only [hat, if_true] at h ⊢
      cases hch : n.children with
      | nil => rw [hch] at h; cases h
      | cons name more =>
        rw [hch] at h
        cases more with
        | cons m ms => simp at h
        | nil =>
          cases name with
          | mk nm ncs =>
            cases ncs with
            | cons x xs => simp [Node.children] at h
            | nil =>
              simp only [List.isEmpty_nil, Bool.not_true, Bool.false_eq_true, if_false,
                Node.children, Node.value] at h
              cases hfv : findVar nm with
              | nil =>
                rw [hfv] at h
                cases hrest : substituteVars findVar rest with
                | error e => rw [hrest] at h; cases h
                | ok rr =>
                  rw [hrest] at h
                  cases h
                  rw [ih rr hrest]
                  simp [hfv]
              | cons v vs =>
                rw [hfv] at h
                cases hrest : substituteVars findVar rest with
                | error e => rw [hrest] at h; cases h
                | ok rr =>
                  rw [hrest] at h
                  cases h
                  rw [ih rr hrest]
                  simp [hfv]
    · simp only [hat, if_false] at h ⊢
      cases hcs : substituteVars findVar n.children with
      | error e => rw [hcs] at h; cases h
      | ok cs =>
        rw [hcs] at h
        cases hrest : substituteVars findVar rest with
        | error e => rw [hrest] at h; cases h
        | ok rr =>
          rw [hrest] at h
          cases h
          rw [ih rr hrest, ihc cs hcs]
          rfl

/-- C9: substitution is single-pass: whenever `substituteVars` returns, the
chain it leaves is the one-pass expansion of the input: each well-formed `@`
reference outside other `@` nodes whose name is bound to a non-empty chain is
replaced by a copy of that whole chain, taken as it is (an `@` marker inside
the copy stays unexpanded), and every other node keeps its value and place. -/
theorem substituteVars_single_pass (findVar : String → List Node) (c : List Node) :
    ∀ r, substituteVars findVar c = .ok r → r = expandReferences findVar c :=
  substituteVars_eq_expandReferences findVar c

theorem substituteVars_single_pass_witness :
    [Node.mk "a" [Node.mk "@" [Node.mk "y" []]], Node.mk "@" [Node.mk "z" []]] =
      expandReferences
        (fun name => if name = "x" then [Node.mk "@" [Node.mk "y" []]]
          else if name = "y" then [Node.mk "Z" []] else [])
        [Node.mk "a" [Node.mk "@" [Node.mk "x" []]], Node.mk "@" [Node.mk "z" []]] :=
  substituteVars_single_pass
    (fun name => if name = "x" then [Node.mk "@" [Node.mk "y" []]]
      else if name = "y" then [Node.mk "Z" []] else [])
    [Node.mk "a" [Node.mk "@" [Node.mk "x" []]], Node.mk "@" [Node.mk "z" []]] _ rfl

/-- A chain whose references are all well formed and resolve to the null
pointer is left as it is. -/
theorem substituteVars_unbound (findVar : String → List Node) (isBound : String → Bool)
    (hfv : ∀ name, isBound name = false → findVar name = []) (c : List Node) :
    refsAllUnbound isBound c = true → substituteVars findVar c = .ok c := by
  induction c using Node.chain_induction with
  | nil => intro _; rfl
  | cons n rest ihc ih =>
    intro h
    rw [refsAllUnbound, refsAllUnbound_ofChild_eq, Bool.and_eq_true] at h
    obtain ⟨hn, hrest⟩ := h
    rw [substituteVars, substituteVars_ofChild_eq, ih hrest]
    by_cases hat : n.value = "@"
    · simp only [hat, if_true] at hn ⊢
      cases hch : n.children with
      | nil => rw [hch] at hn; cases hn
      | cons name more =>
        rw [hch] at hn
        cases more with
        | cons m ms => simp at hn
        | nil =>
          cases name with
          | mk nm ncs =>
            cases ncs with
            | cons x xs => simp at hn
            | nil =>
              simp only [Bool.not_eq_true'] at hn
              simp [Node.children, Node.value, hfv nm hn]
    · simp only [hat, if_false] at hn ⊢
      rw [ihc hn]
      simp [Node.setChildren_children]

namespace Inflater

variable {F : Type}

theorem findVariable_loop_of_not_bound (frames : List (List (String × List Node)))
    (name : String) (h : frames.any (fun frame => (mapFind frame name).isSome) = false) :
    findVariable.loop frames name = [] := by
  induction frames with
  | nil => rfl
  | cons i rest ih =>
    simp only [List.any_cons, Bool.or_eq_false_iff] at h
    rw [findVariable.loop]
    cases hi : mapFind i name with
    | some r => rw [hi] at h; simp at h
    | none => exact ih h.2

/-- C10: a missing variable is tolerated: on a chain in which every `@`
reference (outside other `@` nodes) is well formed and names a variable that no
frame of the stack binds, the substitution returns and leaves the chain as it
was. -/
theorem substituteVariables_missing_tolerated (self : Inflater F) (c : List Node)
    (h : refsAllUnbound self.isBound c = true) : self.substituteVariables c = .ok c :=
  substituteVars_unbound _ self.isBound
    (fun name hb => findVariable_loop_of_not_bound self.variables_ name hb) c h

theorem substituteVariables_missing_tolerated_witness :
    substituteVariables (F := Unit) ⟨[], [], [[("x", [Node.mk "One" []])]]⟩
        [Node.mk "text" [Node.mk "@" [Node.mk "greeting" []]], Node.mk "@" [Node.mk "y" []]]
      = .ok [Node.mk "text" [Node.mk "@" [Node.mk "greeting" []]], Node.mk "@" [Node.mk "y" []]] :=
  substituteVariables_missing_tolerated _ _ rfl

end Inflater

end morda

namespace morda

open stob

namespace Inflater

variable {F W : Type}

/-- On a chain of `defs` properties the loop over the leading declarations
either throws, when a push throws, or consumes the whole chain. -/
theorem inflate_leading_of_defs :
    ∀ (pre : List Node) (self : Inflater F),
      (∀ m ∈ pre, m.isProperty = true ∧ m.value = defs_c) →
      (∃ r, (inflate.leading self pre).1 = .ok r) → (inflate.leading self pre).1 = .ok [] := by
  intro pre
  induction pre with
  | nil => intro self _ _; rfl
  | cons n next ih =>
    intro self hdefs hpush
    have hn := hdefs n (List.mem_cons_self _ _)
    have hnext : ∀ m ∈ next, m.isProperty = true ∧ m.value = defs_c :=
      fun m hm => hdefs m (List.mem_cons_of_mem _ hm)
    rw [inflate.leading] at hpush ⊢
    simp only [hn.1, hn.2, if_true] at hpush ⊢
    cases hc : n.children.isEmpty with
    | true =>
      simp only [hc, Bool.not_true, Bool.false_eq_true, if_false] at hpush ⊢
      exact ih _ hnext hpush
    | false =>
      simp only [hc, Bool.not_false, if_true] at hpush ⊢
      cases hpt : self.pushTemplates n.children with
      | mk r1 s1 =>
        rw [hpt] at hpush
        cases r1 with
        | error e => simp at hpush
        | ok u =>
          simp only at hpush ⊢
          cases hpv : s1.pushVariables n.children with
          | mk r2 s2 =>
            rw [hpv] at hpush
            cases r2 with
            | error e => simp at hpush
            | ok u2 =>
              simp only at hpush ⊢
              exact ih _ hnext hpush

/-- The loop over the leading declarations goes on, after a chain it has
consumed, with the rest of the chain in the state it has reached. -/
theorem inflate_leading_append (rest : List Node) :
    ∀ (pre : List Node) (self : Inflater F),
      (inflate.leading self pre).1 = .ok [] →
      inflate.leading self (pre ++ rest) = inflate.leading (inflate.leading self pre).2 rest := by
  intro pre
  induction pre with
  | nil => intro self _; rfl
  | cons n next ih =>
    intro self h
    rw [List.cons_append]
    rw [inflate.leading] at h
    rw [inflate.leading]
    conv => rhs; rw [inflate.leading]
    cases hp : n.isProperty with
    | false => simp [hp] at h
    | true =>
      simp only [hp, if_true] at h ⊢
      by_cases hv : n.value = defs_c
      · simp only [hv, if_true] at h ⊢
        cases hc : n.children.isEmpty with
        | true =>
          simp only [hc, Bool.not_true, Bool.false_eq_true, if_false] at h ⊢
          exact ih _ h
        | false =>
          simp only [hc, Bool.not_false, if_true] at h ⊢
          cases hpt : self.pushTemplates n.children with
          | mk r1 s1 =>
            rw [hpt] at h
            cases r1 with
            | error e => simp at h
            | ok u =>
              simp only at h ⊢
              cases hpv : s1.pushVariables n.children with
              | mk r2 s2 =>
                rw [hpv] at h
                cases r2 with
                | error e => simp at h
                | ok u2 =>
                  simp only at h ⊢
                  exact ih _ h
      · simp [hv] at h

/-- C11: unknown leading declaration: when the nodes before a property node
that is not valued `defs` are `defs` properties whose blocks push without an
exception, `inflate` throws the unknown-declaration exception and leaves the
object as those pushes left it, whatever `create` does: no factory is run. -/
theorem inflate_unknown_declaration
    (create : F → List Node → Inflater F → Except String (Option W) × Inflater F)
    (self : Inflater F) (pre post : List Node) (bad : Node)
    (hdefs : ∀ m ∈ pre, m.isProperty = true ∧ m.value = defs_c)
    (hpush : ∃ r, (inflate.leading self pre).1 = .ok r)
    (hbad : bad.isProperty = true) (hval : bad.value ≠ defs_c) :
    inflate create self (pre ++ bad :: post)
      = (.error excUnknownDeclaration, (inflate.leading self pre).2) := by
  have h := inflate_leading_of_defs pre self hdefs hpush
  have hl : inflate.leading self (pre ++ bad :: post)
      = (.error excUnknownDeclaration, (inflate.leading self pre).2) := by
    rw [inflate_leading_append _ _ _ h, inflate.leading]
    simp [hbad, hval]
  rw [inflate, hl]

theorem inflate_unknown_declaration_witness :
    inflate createEcho (Inflater.new id)
        ([Node.mk "defs" [Node.mk "greeting" [Node.mk "hi" []]]] ++
          Node.mk "foo" [] :: [Node.mk "Widget" []])
      = (.error excUnknownDeclaration,
        (inflate.leading (Inflater.new id)
          [Node.mk "defs" [Node.mk "greeting" [Node.mk "hi" []]]]).2) :=
  inflate_unknown_declaration createEcho (Inflater.new id)
    [Node.mk "defs" [Node.mk "greeting" [Node.mk "hi" []]]] [Node.mk "Widget" []]
    (Node.mk "foo" []) (by simp [Node.isProperty, Node.isCapital, Node.value, defs_c])
    ⟨[], rfl⟩ rfl (by simp [Node.value, defs_c])

/-- C14: nothing to inflate: on a chain that consists only of `defs` properties
whose blocks push without an exception (a childless `defs` pushes nothing),
`inflate` returns the null pointer and leaves the object as the pushes left it,
whatever `create` does: no factory is run. -/
theorem inflate_nothing_to_inflate
    (create : F → List Node → Inflater F → Except String (Option W) × Inflater F)
    (self : Inflater F) (chain : List Node)
    (hdefs : ∀ m ∈ chain, m.isProperty = true ∧ m.value = defs_c)
    (hpush : ∃ r, (inflate.leading self chain).1 = .ok r) :
    inflate create self chain = (.ok none, (inflate.leading self chain).2) := by
  have h := inflate_leading_of_defs chain self hdefs hpush
  rw [inflate]
  cases hl : inflate.leading self chain with
  | mk r s =>
    rw [hl] at h
    simp only at h
    subst h
    rfl

theorem inflate_nothing_to_inflate_witness :
    inflate createEcho (Inflater.new id)
        [Node.mk "defs" [], Node.mk "defs" [Node.mk "greeting" [Node.mk "hi" []]]]
      = (.ok none,
        (inflate.leading (Inflater.new id)
          [Node.mk "defs" [], Node.mk "defs" [Node.mk "greeting" [Node.mk "hi" []]]]).2) :=
  inflate_nothing_to_inflate createEcho (Inflater.new id) _
    (by simp [Node.isProperty, Node.isCapital, Node.value, defs_c]) ⟨[], rfl⟩

end Inflater

end morda

namespace morda

open stob

namespace Inflater

variable {F W : Type}

/-- C12 (counterexample): with the default factories, the first non-property
node of `foo Unknown` is `Unknown`, no template and no factory has that name,
and `inflate` throws the unknown-declaration exception; in
`defs{ Btn{ Nope{ x y } } } Btn{ Z }` the template `Btn` resolves to `Nope`,
which has no factory, and `inflate` throws the exception of the merge.  Neither
is the no-matching-factory exception. -/
theorem inflate_unknown_type_counterexample :
    (findFactory (Inflater.new id) "Unknown" = none ∧
      inflate createEcho (Inflater.new id) [Node.mk "foo" [], Node.mk "Unknown" []]
        = (.error excUnknownDeclaration, Inflater.new id) ∧
      excUnknownDeclaration ≠ excNoFactory ++ "Unknown") ∧
    (findFactory (Inflater.new id) "Nope" = none ∧
      (inflate createEcho (Inflater.new id)
        [Node.mk "defs" [Node.mk "Btn" [Node.mk "Nope" [Node.mk "x" [], Node.mk "y" []]]],
          Node.mk "Btn" [Node.mk "Z" []]]).1 = .error excSeveralValues ∧
      excSeveralValues ≠ excNoFactory ++ "Nope") := by
  refine ⟨⟨rfl, rfl, by decide⟩, ⟨rfl, rfl, by decide⟩⟩

/-- C12 (amended): unknown type: when the nodes before the first non-property
node `n` are `defs` properties whose blocks push without an exception, the
merge with the innermost template named as `n`, if there is one, returns the
node `n2`, and no factory is registered under the value of `n2` (the
definition value of that template, or the value of `n` without a template),
`inflate` throws the no-matching-factory exception naming that value and leaves
the object as the leading pushes left it, whatever `create` does: no factory
is run and no local frame is pushed. -/
theorem inflate_unknown_type
    (create : F → List Node → Inflater F → Except String (Option W) × Inflater F)
    (self : Inflater F) (pre post : List Node) (n n2 : Node)
    (hdefs : ∀ m ∈ pre, m.isProperty = true ∧ m.value = defs_c)
    (hpush : ∃ r, (inflate.leading self pre).1 = .ok r)
    (hn : n.isProperty = false)
    (hmerge : inflate.applyTemplate (inflate.leading self pre).2 n = .ok n2)
    (hfac : (inflate.leading self pre).2.findFactory n2.value = none) :
    n2.value =
        (match (inflate.leading self pre).2.findTemplate n.value with
          | some t => t.t.value
          | none => n.value) ∧
      inflate create self (pre ++ n :: post)
        = (.error (excNoFactory ++ n2.value), (inflate.leading self pre).2) := by
  have h := inflate_leading_of_defs pre self hdefs hpush
  have hl : inflate.leading self (pre ++ n :: post)
      = (.ok (n :: post), (inflate.leading self pre).2) := by
    rw [inflate_leading_append _ _ _ h, inflate.leading]
    simp [hn]
  constructor
  · unfold inflate.applyTemplate at hmerge
    cases ht : (inflate.leading self pre).2.findTemplate n.value with
    | none =>
      rw [ht] at hmerge
      cases hmerge
      rfl
    | some t =>
      rw [ht] at hmerge
      simp only at hmerge
      cases hm : mergeGUIChain t.t.children t.vars n.children with
      | error e => rw [hm] at hmerge; cases hmerge
      | ok c =>
        rw [hm] at hmerge
        cases hmerge
        rfl
  · rw [inflate, hl]
    simp only [hmerge, hfac]

theorem inflate_unknown_type_witness :
    (Node.mk "Nope" [Node.mk "Z" [], Node.mk "x" [Node.mk "a" []]]).value =
        (match (inflate.leading (Inflater.new id)
            [Node.mk "defs" [Node.mk "Btn" [Node.mk "Nope" [Node.mk "x" [Node.mk "a" []]]]]]).2.findTemplate
              (Node.mk "Btn" [Node.mk "Z" []]).value with
          | some t => t.t.value
          | none => (Node.mk "Btn" [Node.mk "Z" []]).value) ∧
      inflate createEcho (Inflater.new id)
          ([Node.mk "defs" [Node.mk "Btn" [Node.mk "Nope" [Node.mk "x" [Node.mk "a" []]]]]] ++
            Node.mk "Btn" [Node.mk "Z" []] :: [])
        = (.error (excNoFactory ++
            (Node.mk "Nope" [Node.mk "Z" [], Node.mk "x" [Node.mk "a" []]]).value),
          (inflate.leading (Inflater.new id)
            [Node.mk "defs" [Node.mk "Btn" [Node.mk "Nope" [Node.mk "x" [Node.mk "a" []]]]]]).2) :=
  inflate_unknown_type createEcho (Inflater.new id)
    [Node.mk "defs" [Node.mk "Btn" [Node.mk "Nope" [Node.mk "x" [Node.mk "a" []]]]]] []
    (Node.mk "Btn" [Node.mk "Z" []]) (Node.mk "Nope" [Node.mk "Z" [], Node.mk "x" [Node.mk "a" []]])
    (by simp [Node.isProperty, Node.isCapital, Node.value, defs_c]) ⟨[], rfl⟩ rfl rfl rfl

/-- A call of `pushTemplates` either throws and leaves the object alone or
returns and has pushed one frame on the template stack. -/
theorem pushTemplates_cases (self : Inflater F) (chain : List Node) :
    (∃ e, self.pushTemplates chain = (.error e, self)) ∨
    (∃ m, self.pushTemplates chain = (.ok (), { self with templates := m :: self.templates })) := by
  unfold pushTemplates
  cases pushTemplates.loop self chain [] with
  | error e => exact Or.inl ⟨e, rfl⟩
  | ok m => exact Or.inr ⟨m, rfl⟩

/-- A call of `pushVariables` either throws and leaves the object alone or
returns and has pushed one frame on the variable stack. -/
theorem pushVariables_cases (self : Inflater F) (chain : List Node) :
    (∃ e, self.pushVariables chain = (.error e, self)) ∨
    (∃ m, self.pushVariables chain
      = (.ok (), { self with variables_ := m :: self.variables_ })) := by
  unfold pushVariables
  cases pushVariables.loop self chain [] with
  | error e => exact Or.inl ⟨e, rfl⟩
  | ok m => exact Or.inr ⟨m, rfl⟩

/-- The pops of the scope exit undo the pushes of the local definitions on
every state that has the stacks those pushes left. -/
theorem inflate_scopeExit_pushLocal (s : Inflater F) (n : Node) (s3 : Inflater F)
    (ht : s3.templates = (inflate.pushLocal s n).2.1.templates)
    (hv : s3.variables_ = (inflate.pushLocal s n).2.1.variables_) :
    (inflate.scopeExit s3 (inflate.pushLocal s n).2.2.1 (inflate.pushLocal s n).2.2.2).templates
        = s.templates ∧
      (inflate.scopeExit s3 (inflate.pushLocal s n).2.2.1
        (inflate.pushLocal s n).2.2.2).variables_ = s.variables_ := by
  unfold inflate.pushLocal at ht hv ⊢
  cases hd : thisOrNext n.children defs_c with
  | none =>
    simp only [hd] at ht hv ⊢
    simp [inflate.scopeExit, ht, hv]
  | some v =>
    simp only [hd] at ht hv ⊢
    cases hc : v.children.isEmpty with
    | true =>
      simp only [hc, Bool.not_true, Bool.false_eq_true, if_false] at ht hv ⊢
      simp [inflate.scopeExit, ht, hv]
    | false =>
      simp only [hc, Bool.not_false, if_true] at ht hv ⊢
      rcases pushTemplates_cases s v.children with ⟨e, hpt⟩ | ⟨m, hpt⟩
      · simp only [hpt] at ht hv ⊢
        simp [inflate.scopeExit, ht, hv]
      · simp only [hpt] at ht hv ⊢
        rcases pushVariables_cases { s with templates := m :: s.templates } v.children
          with ⟨e, hpv⟩ | ⟨mv, hpv⟩
        · simp only [hpv] at ht hv ⊢
          simp [inflate.scopeExit, popTemplates, ht, hv]
        · simp only [hpv] at ht hv ⊢
          simp [inflate.scopeExit, popTemplates, popVariables, ht, hv]

/-- C13: local defs are popped on every exit path: for a chain without leading
property nodes and a `create` that, returning or throwing, leaves both scope
stacks as it found them, the template stack and the variable stack after
`inflate` are the stacks before the call, whether it returns or throws, also
when the push of the local variables throws after the local templates were
pushed. -/
theorem inflate_pops_local_defs
    (create : F → List Node → Inflater F → Except String (Option W) × Inflater F)
    (hcreate : ∀ fac chain s, (create fac chain s).2.templates = s.templates ∧
      (create fac chain s).2.variables_ = s.variables_)
    (self : Inflater F) (chain : List Node)
    (hlead : ∀ n rest, chain = n :: rest → n.isProperty = false) :
    (inflate create self chain).2.templates = self.templates ∧
      (inflate create self chain).2.variables_ = self.variables_ := by
  cases chain with
  | nil => exact ⟨rfl, rfl⟩
  | cons n0 rest =>
    have hn := hlead n0 rest rfl
    have hl : inflate.leading self (n0 :: rest) = (.ok (n0 :: rest), self) := by
      rw [inflate.leading]
      simp [hn]
    rw [inflate, hl]
    simp only
    cases inflate.applyTemplate self n0 with
    | error e => exact ⟨rfl, rfl⟩
    | ok n =>
      simp only
      cases self.findFactory n.value with
      | none => exact ⟨rfl, rfl⟩
      | some fac =>
        simp only
        have hexit := inflate_scopeExit_pushLocal self n
        cases hpl : inflate.pushLocal self n with
        | mk r rest1 =>
          obtain ⟨s2, needPopTemplates, needPopVariables⟩ := rest1
          rw [hpl] at hexit
          simp only at hexit
          cases r with
          | error e => exact hexit s2 rfl rfl
          | ok u =>
            simp only
            cases s2.substituteVariables n.children with
            | error e => exact hexit s2 rfl rfl
            | ok cloned =>
              simp only
              exact hexit _ (hcreate fac cloned s2).1 (hcreate fac cloned s2).2

theorem inflate_pops_local_defs_witness :
    (inflate createEcho (Inflater.new id)
        [Node.mk "Widget" [Node.mk "defs" [Node.mk "a" [Node.mk "x" []],
          Node.mk "a" [Node.mk "y" []]]]]).2.templates = (Inflater.new id).templates ∧
      (inflate createEcho (Inflater.new id)
        [Node.mk "Widget" [Node.mk "defs" [Node.mk "a" [Node.mk "x" []],
          Node.mk "a" [Node.mk "y" []]]]]).2.variables_ = (Inflater.new id).variables_ :=
  inflate_pops_local_defs createEcho (fun _ _ _ => ⟨rfl, rfl⟩) (Inflater.new id) _
    (fun n rest h => by cases h; rfl)

end Inflater

end morda

namespace morda

open stob

namespace Inflater

variable {F W : Type}

/-- The state the constructor leaves: the default factories and empty stacks. -/
theorem new_eq (widget : String → F) :
    Inflater.new widget =
      { widgetFactories := defaultWidgetNames.map (fun name => (name, widget name)),
        templates := [], variables_ := [] } := by
  simp [Inflater.new, defaultWidgetNames, addWidgetFactory, mapInsert, mapFind]

/-- When every step before the factory succeeds, `inflate` runs the factory on
the substituted children and then the scope exit. -/
theorem inflate_eq_create
    (create : F → List Node → Inflater F → Except String (Option W) × Inflater F)
    (self s s2 : Inflater F) (chain rest cloned : List Node) (n0 n : Node) (fac : F)
    (needPopTemplates needPopVariables : Bool)
    (hl : inflate.leading self chain = (.ok (n0 :: rest), s))
    (ht : inflate.applyTemplate s n0 = .ok n)
    (hf : s.findFactory n.value = some fac)
    (hp : inflate.pushLocal s n = (.ok (), s2, needPopTemplates, needPopVariables))
    (hs : s2.substituteVariables n.children = .ok cloned) :
    inflate create self chain
      = ((create fac cloned s2).1,
        inflate.scopeExit (create fac cloned s2).2 needPopTemplates needPopVariables) := by
  rw [inflate, hl]
  simp only [ht, hf, hp, hs]

/-- C15 (counterexample): with the leading `defs{ greeting{ hi } }`, the target
`Widget{ defs{ greeting{ bye } } text{ @{greeting} } }` hands `text{ bye }` to
the factory, not `text{ hi }`; with the leading `defs{ greeting }`, which binds
`greeting` to an empty value, the target `Widget{ text{ @{greeting} } }` hands
over the reference as it was. -/
theorem inflate_resolves_variables_counterexample :
    (inflate createEcho (Inflater.new id)
        [Node.mk "defs" [Node.mk "greeting" [Node.mk "hi" []]],
          Node.mk "Widget" [Node.mk "defs" [Node.mk "greeting" [Node.mk "bye" []]],
            Node.mk "text" [Node.mk "@" [Node.mk "greeting" []]]]]).1
      = .ok (some ("Widget", [Node.mk "defs" [Node.mk "greeting" [Node.mk "bye" []]],
          Node.mk "text" [Node.mk "bye" []]])) ∧
    (inflate createEcho (Inflater.new id)
        [Node.mk "defs" [Node.mk "greeting" []],
          Node.mk "Widget" [Node.mk "text" [Node.mk "@" [Node.mk "greeting" []]]]]).1
      = .ok (some ("Widget", [Node.mk "text" [Node.mk "@" [Node.mk "greeting" []]]])) :=
  ⟨rfl, rfl⟩

/-- C15 (amended): end-to-end variable resolution: from the state the
constructor leaves, inflating `defs{ greeting{ hi } } Widget{ text{ @{greeting} } }`
runs the factory registered under `Widget` on the chain `text{ hi }`; in
general, for a target node `n` after leading `defs` blocks that push without an
exception, with no template, no `defs` child, no malformed reference and a
registered factory, the factory is run on the one-pass expansion of the
children of `n` against the variable stack the leading pushes left: a
well-formed reference whose innermost binding is a non-empty value is replaced
by that value, every other reference stays as it is. -/
theorem inflate_resolves_variables
    (create : F → List Node → Inflater F → Except String (Option W) × Inflater F) :
    (∀ widget : String → F,
      inflate create (Inflater.new widget)
          [Node.mk "defs" [Node.mk "greeting" [Node.mk "hi" []]],
            Node.mk "Widget" [Node.mk "text" [Node.mk "@" [Node.mk "greeting" []]]]]
        = create (widget "Widget") [Node.mk "text" [Node.mk "hi" []]]
            (inflate.leading (Inflater.new widget)
              [Node.mk "defs" [Node.mk "greeting" [Node.mk "hi" []]]]).2) ∧
    (∀ (self : Inflater F) (pre post : List Node) (n : Node) (fac : F),
      (∀ m ∈ pre, m.isProperty = true ∧ m.value = defs_c) →
      (∃ r, (inflate.leading self pre).1 = .ok r) →
      n.isProperty = false →
      (inflate.leading self pre).2.findTemplate n.value = none →
      (inflate.leading self pre).2.findFactory n.value = some fac →
      thisOrNext n.children defs_c = none →
      hasMalformedRef n.children = false →
      inflate create self (pre ++ n :: post)
        = create fac
            (expandReferences (fun name => (inflate.leading self pre).2.findVariable name)
              n.children)
            (inflate.leading self pre).2) := by
  have hgen : ∀ (self : Inflater F) (pre post : List Node) (n : Node) (fac : F),
      (∀ m ∈ pre, m.isProperty = true ∧ m.value = defs_c) →
      (∃ r, (inflate.leading self pre).1 = .ok r) →
      n.isProperty = false →
      (inflate.leading self pre).2.findTemplate n.value = none →
      (inflate.leading self pre).2.findFactory n.value = some fac →
      thisOrNext n.children defs_c = none →
      hasMalformedRef n.children = false →
      inflate create self (pre ++ n :: post)
        = create fac
            (expandReferences (fun name => (inflate.leading self pre).2.findVariable name)
              n.children)
            (inflate.leading self pre).2 := by
    intro self pre post n fac hdefs hpush hn htempl hfac hlocal hmal
    have h := inflate_leading_of_defs pre self hdefs hpush
    have hl : inflate.leading self (pre ++ n :: post)
        = (.ok (n :: post), (inflate.leading self pre).2) := by
      rw [inflate_leading_append _ _ _ h, inflate.leading]
      simp [hn]
    have hsub : (inflate.leading self pre).2.substituteVariables n.children
        = .ok (expandReferences (fun name => (inflate.leading self pre).2.findVariable name)
            n.children) := by
      unfold substituteVariables
      rcases substituteVars_total
        (fun name => (inflate.leading self pre).2.findVariable name) n.children
        with ⟨hm, _⟩ | ⟨_, r, hr⟩
      · rw [hmal] at hm
        cases hm
      · rw [hr, substituteVars_eq_expandReferences _ _ r hr]
    have happly : inflate.applyTemplate (inflate.leading self pre).2 n = .ok n := by
      simp only [inflate.applyTemplate, htempl]
    have hpl : inflate.pushLocal (inflate.leading self pre).2 n
        = (.ok (), (inflate.leading self pre).2, false, false) := by
      simp only [inflate.pushLocal, hlocal]
    rw [inflate_eq_create create self _ _ _ post _ n n fac false false hl happly hfac hpl hsub]
    rfl
  refine ⟨fun widget => ?_, hgen⟩
  rw [new_eq]
  exact hgen _ [Node.mk "defs" [Node.mk "greeting" [Node.mk "hi" []]]] []
    (Node.mk "Widget" [Node.mk "text" [Node.mk "@" [Node.mk "greeting" []]]]) (widget "Widget")
    (by simp [Node.isProperty, Node.isCapital, Node.value, defs_c]) ⟨[], rfl⟩ rfl rfl rfl rfl rfl

theorem inflate_resolves_variables_witness :
    inflate createEcho (Inflater.new id)
        ([Node.mk "defs" [Node.mk "a" [Node.mk "x" []]]] ++
          Node.mk "Frame" [Node.mk "@" [Node.mk "a" []], Node.mk "@" [Node.mk "b" []]] :: [])
      = createEcho "Frame"
          (expandReferences
            (fun name => (inflate.leading (Inflater.new id)
              [Node.mk "defs" [Node.mk "a" [Node.mk "x" []]]]).2.findVariable name)
            (Node.mk "Frame" [Node.mk "@" [Node.mk "a" []], Node.mk "@" [Node.mk "b" []]]).children)
          (inflate.leading (Inflater.new id) [Node.mk "defs" [Node.mk "a" [Node.mk "x" []]]]).2 :=
  (inflate_resolves_variables createEcho).2 (Inflater.new id)
    [Node.mk "defs" [Node.mk "a" [Node.mk "x" []]]] []
    (Node.mk "Frame" [Node.mk "@" [Node.mk "a" []], Node.mk "@" [Node.mk "b" []]]) "Frame"
    (by simp [Node.isProperty, Node.isCapital, Node.value, defs_c]) ⟨[], rfl⟩ rfl rfl rfl rfl rfl

/-- C16 (counterexample): from the state the constructor leaves, inflating
`defs{ Btn{ label Widget{ caption{ @{label} } } } } Btn{ OK }` runs the factory
of `Widget` on `OK caption{ @{label} }`: the body of `caption` is the reference
`@{label}`, not the value `OK`. -/
theorem inflate_template_binding_counterexample :
    (inflate createEcho (Inflater.new id)
        [Node.mk "defs" [Node.mk "Btn" [Node.mk "label" [],
          Node.mk "Widget" [Node.mk "caption" [Node.mk "@" [Node.mk "label" []]]]]],
          Node.mk "Btn" [Node.mk "OK" []]]).1
      = .ok (some ("Widget",
          [Node.mk "OK" [], Node.mk "caption" [Node.mk "@" [Node.mk "label" []]]])) ∧
    thisOrNext [Node.mk "OK" [], Node.mk "caption" [Node.mk "@" [Node.mk "label" []]]] "caption"
      = some (Node.mk "caption" [Node.mk "@" [Node.mk "label" []]]) ∧
    [Node.mk "@" [Node.mk "label" []]] ≠ [Node.mk "OK" []] := by
  refine ⟨rfl, rfl, ?_⟩
  simp

/-- C16 (amended): end-to-end template instantiation: from the state the
constructor leaves, for the leading `defs` that define the template `Btn` with
the variable name `label` and the definition `Widget{ caption{ @{label} } }`,
followed by `Btn{ OK }`, `inflate` runs the factory registered under `Widget` on
the chain `OK caption{ @{label} }`: the value `OK` of the site comes first, the
inherited `caption` keeps the reference `@{label}`, and nothing binds `label`. -/
theorem inflate_template_binding
    (create : F → List Node → Inflater F → Except String (Option W) × Inflater F)
    (widget : String → F) :
    inflate create (Inflater.new widget)
        [Node.mk "defs" [Node.mk "Btn" [Node.mk "label" [],
          Node.mk "Widget" [Node.mk "caption" [Node.mk "@" [Node.mk "label" []]]]]],
          Node.mk "Btn" [Node.mk "OK" []]]
      = create (widget "Widget")
          [Node.mk "OK" [], Node.mk "caption" [Node.mk "@" [Node.mk "label" []]]]
          (inflate.leading (Inflater.new widget)
            [Node.mk "defs" [Node.mk "Btn" [Node.mk "label" [],
              Node.mk "Widget" [Node.mk "caption" [Node.mk "@" [Node.mk "label" []]]]]]]).2 ∧
      (inflate.leading (Inflater.new widget)
        [Node.mk "defs" [Node.mk "Btn" [Node.mk "label" [],
          Node.mk "Widget" [Node.mk "caption" [Node.mk "@" [Node.mk "label" []]]]]]]).2.findVariable
            "label" = [] := by
  rw [new_eq]
  refine ⟨?_, rfl⟩
  refine Eq.trans (inflate_eq_create create _ _ _ _ [] _ (Node.mk "Btn" [Node.mk "OK" []])
    (Node.mk "Widget" [Node.mk "OK" [], Node.mk "caption" [Node.mk "@" [Node.mk "label" []]]])
    (widget "Widget") false false rfl rfl rfl rfl rfl) ?_
  rfl

end Inflater

end morda

namespace morda

open stob

theorem mapFind_eq_none_iff {β : Type} (m : List (String × β)) (k : String) :
    mapFind m k = none ↔ k ∉ m.map Prod.fst := by
  induction m with
  | nil => simp [mapFind]
  | cons a rest ih =>
    obtain ⟨k2, v2⟩ := a
    simp only [mapFind, List.map_cons, List.mem_cons, not_or]
    by_cases h : k2 = k
    · simp [h]
    · simp [h, ih, Ne.symm h]

/-- When `buildFrame` returns, every node has its entry in the frame, the keys
of the frame are the old keys followed by the values of the nodes, which are
pairwise distinct and were not in the frame, and the old entries are kept. -/
theorem buildFrame_ok {β : Type} (val : Node → Except String β) (dup : String) :
    ∀ (nodes : List Node) (m m2 : List (String × β)),
      buildFrame val dup nodes m = .ok m2 →
      (∀ n ∈ nodes, ∃ v, val n = .ok v ∧ mapFind m2 n.value = some v) ∧
      m2.map Prod.fst = m.map Prod.fst ++ nodes.map Node.value ∧
      (nodes.map Node.value).Nodup ∧
      (∀ n ∈ nodes, mapFind m n.value = none) ∧
      (∀ k x, mapFind m k = some x → mapFind m2 k = some x) := by
  intro nodes
  induction nodes with
  | nil =>
    intro m m2 h
    simp only [buildFrame, Except.ok.injEq] at h
    subst h
    simp
  | cons n next ih =>
    intro m m2 h
    rw [buildFrame] at h
    cases hv : val n with
    | error e => rw [hv] at h; cases h
    | ok v =>
      rw [hv] at h
      simp only [mapInsert] at h
      cases hf : mapFind m n.value with
      | some y => simp [hf] at h
      | none =>
        simp only [hf, Bool.not_true, Bool.false_eq_true, if_false] at h
        obtain ⟨ha, hb, hc, hd, he⟩ := ih _ _ h
        have hkeep : ∀ k x, mapFind m k = some x → mapFind m2 k = some x := by
          intro k x hk
          apply he
          rw [mapFind_append_single, hk]
        have hne : ∀ n2 ∈ next, n2.value ≠ n.value ∧ mapFind m n2.value = none := by
          intro n2 hn2
          have h1 := hd n2 hn2
          rw [mapFind_append_single] at h1
          cases hm : mapFind m n2.value with
          | some z => rw [hm] at h1; cases h1
          | none =>
            rw [hm] at h1
            refine ⟨fun heq => ?_, rfl⟩
            simp [heq] at h1
        refine ⟨?_, ?_, ?_, ?_, hkeep⟩
        · intro n2 hn2
          rcases List.mem_cons.1 hn2 with h2 | h2
          · subst h2
            refine ⟨v, hv, he _ _ ?_⟩
            rw [mapFind_append_single, hf]
            simp
          · exact ha n2 h2
        · rw [hb]
          simp
        · rw [List.map_cons, List.nodup_cons]
          refine ⟨?_, hc⟩
          intro hmem
          obtain ⟨n2, hn2, hval⟩ := List.mem_map.1 hmem
          exact (hne n2 hn2).1 hval
        · intro n2 hn2
          rcases List.mem_cons.1 hn2 with h2 | h2
          · subst h2; exact hf
          · exact (hne n2 h2).2

/-- When `buildFrame` throws, the entry of some node cannot be computed, or two
nodes have the same value, or the value of a node was a key of the frame. -/
theorem buildFrame_error {β : Type} (val : Node → Except String β) (dup : String) :
    ∀ (nodes : List Node) (m : List (String × β)) (e : String),
      buildFrame val dup nodes m = .error e →
      (∃ n ∈ nodes, ∃ e2, val n = .error e2) ∨ ¬ (nodes.map Node.value).Nodup ∨
      (∃ n ∈ nodes, mapFind m n.value ≠ none) := by
  intro nodes
  induction nodes with
  | nil =>
    intro m e h
    simp [buildFrame] at h
  | cons n next ih =>
    intro m e h
    rw [buildFrame] at h
    cases hv : val n with
    | error e2 => exact Or.inl ⟨n, List.mem_cons_self _ _, e2, hv⟩
    | ok v =>
      rw [hv] at h
      simp only [mapInsert] at h
      cases hf : mapFind m n.value with
      | some y =>
        exact Or.inr (Or.inr ⟨n, List.mem_cons_self _ _, by rw [hf]; simp⟩)
      | none =>
        simp only [hf, Bool.not_true, Bool.false_eq_true, if_false] at h
        rcases ih _ _ h with ⟨n2, hn2, e2, he2⟩ | hnd | ⟨n2, hn2, hk⟩
        · exact Or.inl ⟨n2, List.mem_cons_of_mem _ hn2, e2, he2⟩
        · refine Or.inr (Or.inl ?_)
          intro hnodup
          rw [List.map_cons, List.nodup_cons] at hnodup
          exact hnd hnodup.2
        · rw [mapFind_append_single] at hk
          cases hm : mapFind m n2.value with
          | some z =>
            exact Or.inr (Or.inr ⟨n2, List.mem_cons_of_mem _ hn2, by rw [hm]; simp⟩)
          | none =>
            rw [hm] at hk
            refine Or.inr (Or.inl ?_)
            intro hnodup
            rw [List.map_cons, List.nodup_cons] at hnodup
            apply hnodup.1
            by_cases heq : n.value = n2.value
            · rw [heq]
              exact List.mem_map.2 ⟨n2, hn2, rfl⟩
            · simp [heq] at hk

namespace Inflater

variable {F W : Type}

/-- The loop of `pushTemplates` is `buildFrame` on the non-property nodes. -/
theorem pushTemplates_loop_eq (self : Inflater F) :
    ∀ (chain : List Node) (m : List (String × Template)),
      pushTemplates.loop self chain m
        = buildFrame self.templateOf excTemplateAlreadyDefined
            (chain.filter (fun n => !n.isProperty)) m := by
  intro chain
  induction chain with
  | nil => intro m; rfl
  | cons c next ih =>
    intro m
    rw [pushTemplates.loop]
    cases hp : c.isProperty with
    | true =>
      simp only [if_true, List.filter_cons, hp, Bool.not_true, Bool.false_eq_true, if_false]
      exact ih m
    | false =>
      simp only [Bool.false_eq_true, if_false, List.filter_cons, hp, Bool.not_false, if_true]
      rw [buildFrame, templateOf]
      cases hc : c.children.isEmpty with
      | true => simp
      | false =>
        simp only [Bool.false_eq_true, if_false]
        cases self.parseTemplate c.children with
        | error e => rfl
        | ok t =>
          simp only
          split
          · rfl
          · exact ih _

/-- The loop of `pushVariables` is `buildFrame` on the property nodes. -/
theorem pushVariables_loop_eq (self : Inflater F) :
    ∀ (chain : List Node) (m : List (String × List Node)),
      pushVariables.loop self chain m
        = buildFrame (fun n => self.substituteVariables n.children) excVariableAlreadyDefined
            (chain.filter (fun n => n.isProperty)) m := by
  intro chain
  induction chain with
  | nil => intro m; rfl
  | cons n next ih =>
    intro m
    rw [pushVariables.loop]
    cases hp : n.isProperty with
    | false =>
      simp only [Bool.not_false, if_true, List.filter_cons, hp, Bool.false_eq_true, if_false]
      exact ih m
    | true =>
      simp only [Bool.not_true, Bool.false_eq_true, if_false, List.filter_cons, hp, if_true]
      rw [buildFrame]
      cases self.substituteVariables n.children with
      | error e => rfl
      | ok t =>
        simp only
        split
        · rfl
        · exact ih _

end Inflater

end morda

namespace morda

open stob

namespace Inflater

variable {F W : Type}

/-- C19: `pushTemplates` validates its declarations: it throws if and only if
some non-property node of the chain has no children, or two non-property nodes
have the same value, or `parseTemplate` throws on the children of some
non-property node; when it throws the object is unchanged, and when it returns
one frame is pushed whose keys are the values of the non-property nodes, each
bound to the template parsed from the children of its node. -/
theorem pushTemplates_validates (self : Inflater F) (chain : List Node) :
    ((∃ e, (self.pushTemplates chain).1 = .error e) ↔
      ((∃ n ∈ chain, n.isProperty = false ∧ n.children = []) ∨
        ¬ ((chain.filter (fun n => !n.isProperty)).map Node.value).Nodup ∨
        (∃ n ∈ chain, n.isProperty = false ∧ ∃ e, self.parseTemplate n.children = .error e))) ∧
    ((∃ e, (self.pushTemplates chain).1 = .error e) → (self.pushTemplates chain).2 = self) ∧
    ((self.pushTemplates chain).1 = .ok () →
      ∃ m, (self.pushTemplates chain).2 = { self with templates := m :: self.templates } ∧
        m.map Prod.fst = (chain.filter (fun n => !n.isProperty)).map Node.value ∧
        ∀ n ∈ chain, n.isProperty = false →
          ∃ t, self.parseTemplate n.children = .ok t ∧ mapFind m n.value = some t) := by
  unfold pushTemplates
  rw [pushTemplates_loop_eq]
  cases h : buildFrame self.templateOf excTemplateAlreadyDefined
      (chain.filter (fun n => !n.isProperty)) [] with
  | error e =>
    refine ⟨⟨fun _ => ?_, fun _ => ⟨e, rfl⟩⟩, fun _ => rfl, fun hok => by cases hok⟩
    rcases buildFrame_error _ _ _ _ _ h with ⟨n, hn, e2, he2⟩ | hnd | ⟨n, _, hk⟩
    · obtain ⟨hmem, hp⟩ := List.mem_filter.1 hn
      have hp2 : n.isProperty = false := by simpa using hp
      unfold templateOf at he2
      cases hc : n.children.isEmpty with
      | true => exact Or.inl ⟨n, hmem, hp2, List.isEmpty_iff.1 hc⟩
      | false =>
        simp only [hc, Bool.false_eq_true, if_false] at he2
        exact Or.inr (Or.inr ⟨n, hmem, hp2, e2, he2⟩)
    · exact Or.inr (Or.inl hnd)
    · exact absurd rfl hk
  | ok m =>
    obtain ⟨ha, hb, hc, _, _⟩ := buildFrame_ok _ _ _ _ _ h
    have hall : ∀ n ∈ chain, n.isProperty = false →
        n.children.isEmpty = false ∧
          ∃ t, self.parseTemplate n.children = .ok t ∧ mapFind m n.value = some t := by
      intro n hmem hp
      obtain ⟨t, ht, hf⟩ := ha n (List.mem_filter.2 ⟨hmem, by simp [hp]⟩)
      unfold templateOf at ht
      cases hce : n.children.isEmpty with
      | true => simp [hce] at ht
      | false =>
        simp only [hce, Bool.false_eq_true, if_false] at ht
        exact ⟨rfl, t, ht, hf⟩
    refine ⟨⟨fun hex => ?_, fun hbad => ?_⟩, fun hex => ?_, fun _ => ⟨m, rfl, ?_, ?_⟩⟩
    · obtain ⟨e, he⟩ := hex
      cases he
    · exfalso
      rcases hbad with ⟨n, hmem, hp, hch⟩ | hnd | ⟨n, hmem, hp, e, he⟩
      · have h1 := (hall n hmem hp).1
        rw [hch] at h1
        cases h1
      · exact hnd hc
      · obtain ⟨_, t, ht, _⟩ := hall n hmem hp
        rw [ht] at he
        cases he
    · obtain ⟨e, he⟩ := hex
      cases he
    · simpa using hb
    · intro n hmem hp
      exact (hall n hmem hp).2

theorem pushTemplates_validates_witness :
    (∃ e, ((Inflater.new id).pushTemplates
        [Node.mk "Btn" [Node.mk "Widget" []], Node.mk "Empty" []]).1 = .error e) ∧
    (∃ m, ((Inflater.new id).pushTemplates
          [Node.mk "Btn" [Node.mk "label" [], Node.mk "Widget" [Node.mk "x" []]],
            Node.mk "skipped" []]).2
          = { Inflater.new id with templates := m :: (Inflater.new id).templates } ∧
        m.map Prod.fst = ([Node.mk "Btn" [Node.mk "label" [], Node.mk "Widget" [Node.mk "x" []]],
          Node.mk "skipped" []].filter (fun n => !n.isProperty)).map Node.value ∧
        ∀ n ∈ [Node.mk "Btn" [Node.mk "label" [], Node.mk "Widget" [Node.mk "x" []]],
          Node.mk "skipped" []], n.isProperty = false →
            ∃ t, (Inflater.new id).parseTemplate n.children = .ok t ∧
              mapFind m n.value = some t) :=
  ⟨(pushTemplates_validates (Inflater.new id)
      [Node.mk "Btn" [Node.mk "Widget" []], Node.mk "Empty" []]).1.2
      (Or.inl ⟨Node.mk "Empty" [], by simp, rfl, rfl⟩),
    (pushTemplates_validates (Inflater.new id)
      [Node.mk "Btn" [Node.mk "label" [], Node.mk "Widget" [Node.mk "x" []]],
        Node.mk "skipped" []]).2.2 rfl⟩

/-- C20: `pushVariables` rejects duplicate names atomically: on a chain in
which two property nodes have the same value it throws and leaves the object
unchanged; on a chain whose property nodes have pairwise distinct values and
bodies without a malformed reference it returns and has pushed one frame whose
keys are the values of the property nodes, each bound to the children of its
node as substituted against the stack before the push. -/
theorem pushVariables_atomic (self : Inflater F) (chain : List Node) :
    (¬ ((chain.filter (fun n => n.isProperty)).map Node.value).Nodup →
      (∃ e, (self.pushVariables chain).1 = .error e) ∧ (self.pushVariables chain).2 = self) ∧
    (((chain.filter (fun n => n.isProperty)).map Node.value).Nodup →
      (∀ n ∈ chain, n.isProperty = true → hasMalformedRef n.children = false) →
      (self.pushVariables chain).1 = .ok () ∧
      ∃ m, (self.pushVariables chain).2 = { self with variables_ := m :: self.variables_ } ∧
        m.map Prod.fst = (chain.filter (fun n => n.isProperty)).map Node.value ∧
        ∀ n ∈ chain, n.isProperty = true →
          ∃ v, self.substituteVariables n.children = .ok v ∧ mapFind m n.value = some v) := by
  unfold pushVariables
  rw [pushVariables_loop_eq]
  cases h : buildFrame (fun n => self.substituteVariables n.children) excVariableAlreadyDefined
      (chain.filter (fun n => n.isProperty)) [] with
  | error e =>
    refine ⟨fun _ => ⟨⟨e, rfl⟩, rfl⟩, fun hnodup hmal => ?_⟩
    exfalso
    rcases buildFrame_error _ _ _ _ _ h with ⟨n, hn, e2, he2⟩ | hnd | ⟨n, _, hk⟩
    · obtain ⟨hmem, hp⟩ := List.mem_filter.1 hn
      rcases substituteVars_total (fun name => self.findVariable name) n.children
        with ⟨hm, _⟩ | ⟨_, r, hr⟩
      · rw [hmal n hmem hp] at hm
        cases hm
      · simp only [substituteVariables] at he2
        rw [hr] at he2
        cases he2
    · exact hnd hnodup
    · exact absurd rfl hk
  | ok m =>
    obtain ⟨ha, hb, hc, _, _⟩ := buildFrame_ok _ _ _ _ _ h
    refine ⟨fun hnd => absurd hc hnd, fun _ _ => ⟨rfl, m, rfl, by simpa using hb, ?_⟩⟩
    intro n hmem hp
    exact ha n (List.mem_filter.2 ⟨hmem, hp⟩)

theorem pushVariables_atomic_witness :
    ((∃ e, ((Inflater.new id).pushVariables
        [Node.mk "a" [Node.mk "x" []], Node.mk "a" [Node.mk "y" []]]).1 = .error e) ∧
      ((Inflater.new id).pushVariables
        [Node.mk "a" [Node.mk "x" []], Node.mk "a" [Node.mk "y" []]]).2 = Inflater.new id) ∧
    (((Inflater.new id).pushVariables [Node.mk "a" [Node.mk "x" []], Node.mk "Skipped" [],
        Node.mk "b" [Node.mk "@" [Node.mk "a" []]]]).1 = .ok () ∧
      ∃ m, ((Inflater.new id).pushVariables [Node.mk "a" [Node.mk "x" []], Node.mk "Skipped" [],
          Node.mk "b" [Node.mk "@" [Node.mk "a" []]]]).2
            = { Inflater.new id with variables_ := m :: (Inflater.new id).variables_ } ∧
        m.map Prod.fst = ([Node.mk "a" [Node.mk "x" []], Node.mk "Skipped" [],
          Node.mk "b" [Node.mk "@" [Node.mk "a" []]]].filter
            (fun n => n.isProperty)).map Node.value ∧
        ∀ n ∈ [Node.mk "a" [Node.mk "x" []], Node.mk "Skipped" [],
          Node.mk "b" [Node.mk "@" [Node.mk "a" []]]], n.isProperty = true →
            ∃ v, (Inflater.new id).substituteVariables n.children = .ok v ∧
              mapFind m n.value = some v) :=
  ⟨(pushVariables_atomic (Inflater.new id)
      [Node.mk "a" [Node.mk "x" []], Node.mk "a" [Node.mk "y" []]]).1 (by decide),
    (pushVariables_atomic (Inflater.new id) [Node.mk "a" [Node.mk "x" []], Node.mk "Skipped" [],
      Node.mk "b" [Node.mk "@" [Node.mk "a" []]]]).2 (by decide)
      (by
        intro n hn _
        simp only [List.mem_cons, List.mem_singleton, List.not_mem_nil, or_false] at hn
        rcases hn with h | h | h <;> subst h <;> rfl)⟩

end Inflater

end morda

namespace morda

open stob

namespace Inflater

variable {F W : Type}

/-- Once the definition node is found, the loop of `parseTemplate` keeps it
over nodes whose properties are childless. -/
theorem parseTemplate_loop_after (d : Node) :
    ∀ (post : List Node) (vars : List String),
      (∀ n ∈ post, n.isProperty = true → n.children = []) →
      ∃ vars2, parseTemplate.loop post (some d) vars = .ok (some d, vars2) := by
  intro post
  induction post with
  | nil => intro vars _; exact ⟨vars, rfl⟩
  | cons n next ih =>
    intro vars h
    have hnext : ∀ m ∈ next, m.isProperty = true → m.children = [] :=
      fun m hm => h m (List.mem_cons_of_mem _ hm)
    rw [parseTemplate.loop]
    cases hp : n.isProperty with
    | true =>
      have hc := h n (List.mem_cons_self _ _) hp
      simp only [hc, if_true, List.isEmpty_nil, Bool.not_true, Bool.false_eq_true, if_false]
      exact ih _ hnext
    | false =>
      simp only [Bool.false_eq_true, if_false]
      exact ih _ hnext

/-- Over childless properties followed by the non-property node `d`, the loop
of `parseTemplate` finds `d` as the definition. -/
theorem parseTemplate_loop_finds (d : Node) (post : List Node) (hd : d.isProperty = false)
    (hpost : ∀ n ∈ post, n.isProperty = true → n.children = []) :
    ∀ (pre : List Node) (vars : List String),
      (∀ n ∈ pre, n.isProperty = true ∧ n.children = []) →
      ∃ vars2, parseTemplate.loop (pre ++ d :: post) none vars = .ok (some d, vars2) := by
  intro pre
  induction pre with
  | nil =>
    intro vars _
    rw [List.nil_append, parseTemplate.loop]
    simp only [hd, Bool.false_eq_true, if_false]
    exact parseTemplate_loop_after d post vars hpost
  | cons n next ih =>
    intro vars h
    have hn := h n (List.mem_cons_self _ _)
    rw [List.cons_append, parseTemplate.loop]
    simp only [hn.1, hn.2, if_true, List.isEmpty_nil, Bool.not_true, Bool.false_eq_true, if_false]
    exact ih _ (fun m hm => h m (List.mem_cons_of_mem _ hm))

/-- C17 (counterexample): with the template `A` defined as `Widget{ p{ 1 } }`,
the body `x{ y } A{ p{ 2 } }`, whose first non-property node names `A`, makes
`parseTemplate` throw for the property with children; with `A` defined as
`Widget{ x y }`, the body `A{ Z }` makes it throw the exception of the merge. -/
theorem parseTemplate_inherits_counterexample :
    (((Inflater.new id).pushTemplates
        [Node.mk "A" [Node.mk "Widget" [Node.mk "p" [Node.mk "1" []]]]]).2.findTemplate "A"
      = some { t := Node.mk "Widget" [Node.mk "p" [Node.mk "1" []]], vars := [] } ∧
    ((Inflater.new id).pushTemplates
        [Node.mk "A" [Node.mk "Widget" [Node.mk "p" [Node.mk "1" []]]]]).2.parseTemplate
          [Node.mk "x" [Node.mk "y" []], Node.mk "A" [Node.mk "p" [Node.mk "2" []]]]
      = .error excArgumentHasChildren) ∧
    (((Inflater.new id).pushTemplates
        [Node.mk "A" [Node.mk "Widget" [Node.mk "x" [], Node.mk "y" []]]]).2.findTemplate "A"
      = some { t := Node.mk "Widget" [Node.mk "x" [], Node.mk "y" []], vars := [] } ∧
    ((Inflater.new id).pushTemplates
        [Node.mk "A" [Node.mk "Widget" [Node.mk "x" [], Node.mk "y" []]]]).2.parseTemplate
          [Node.mk "A" [Node.mk "Z" []]]
      = .error excSeveralValues) :=
  ⟨⟨rfl, rfl⟩, ⟨rfl, rfl⟩⟩

/-- C17 (amended): template inheritance is resolved at parse time: for a body
whose properties are childless and whose first non-property node `d` names the
template `T` (innermost match), `parseTemplate` returns, when the merge of the
body of `T` with the body of `d` returns `c`, a template whose definition has
the definition value of `T` and the children `c`, and throws what the merge
throws; the merge of `p{ 1 }` with `p{ 2 }` is `p{ 2 }`; and a later
`pushTemplates` that returns leaves the frames that were there below the new
one. -/
theorem parseTemplate_inherits (self : Inflater F) :
    (∀ (pre post : List Node) (d : Node) (T : Template),
      (∀ n ∈ pre, n.isProperty = true) → d.isProperty = false →
      (∀ n ∈ pre ++ post, n.isProperty = true → n.children = []) →
      self.findTemplate d.value = some T →
      (∀ c, mergeGUIChain T.t.children T.vars d.children = .ok c →
        ∃ vars, self.parseTemplate (pre ++ d :: post)
          = .ok { t := Node.mk T.t.value c, vars := vars }) ∧
      (∀ e, mergeGUIChain T.t.children T.vars d.children = .error e →
        self.parseTemplate (pre ++ d :: post) = .error e)) ∧
    (∀ vs, mergeGUIChain [Node.mk "p" [Node.mk "1" []]] vs [Node.mk "p" [Node.mk "2" []]]
      = .ok [Node.mk "p" [Node.mk "2" []]]) ∧
    (∀ chain, (self.pushTemplates chain).1 = .ok () →
      ∃ m, (self.pushTemplates chain).2.templates = m :: self.templates) := by
  refine ⟨?_, fun _ => rfl, ?_⟩
  · intro pre post d T hpre hd hchild hT
    obtain ⟨vars2, hloop⟩ := parseTemplate_loop_finds d post hd
      (fun n hn => hchild n (List.mem_append_right _ hn)) pre []
      (fun n hn => ⟨hpre n hn, hchild n (List.mem_append_left _ hn) (hpre n hn)⟩)
    constructor
    · intro c hc
      refine ⟨vars2, ?_⟩
      simp only [parseTemplate, hloop, hT, hc]
    · intro e he
      simp only [parseTemplate, hloop, hT, he]
  · intro chain hok
    rcases pushTemplates_cases self chain with ⟨e, h⟩ | ⟨m, h⟩
    · rw [h] at hok
      cases hok
    · exact ⟨m, by rw [h]⟩

theorem parseTemplate_inherits_witness :
    ∃ vars, ((Inflater.new id).pushTemplates
        [Node.mk "A" [Node.mk "Widget" [Node.mk "p" [Node.mk "1" []]]]]).2.parseTemplate
          ([Node.mk "label" []] ++ Node.mk "A" [Node.mk "p" [Node.mk "2" []]] :: [])
      = .ok (Template.mk (Node.mk "Widget" [Node.mk "p" [Node.mk "2" []]]) vars) :=
  ((parseTemplate_inherits ((Inflater.new id).pushTemplates
      [Node.mk "A" [Node.mk "Widget" [Node.mk "p" [Node.mk "1" []]]]]).2).1
    [Node.mk "label" []] [] (Node.mk "A" [Node.mk "p" [Node.mk "2" []]])
    (Template.mk (Node.mk "Widget" [Node.mk "p" [Node.mk "1" []]]) [])
    (by simp [Node.isProperty, Node.isCapital, Node.value]) rfl
    (by simp [Node.children]) rfl).1 [Node.mk "p" [Node.mk "2" []]] rfl

/-- C18 (counterexample): on the empty stack, pushing `a{ x } b{ @{a} }`
returns and stores `@{a}` for `b`: the reference is not replaced by the value
`x` stored for `a` in the same block. -/
theorem pushVariables_same_block_counterexample :
    ((Inflater.new id).pushVariables
        [Node.mk "a" [Node.mk "x" []], Node.mk "b" [Node.mk "@" [Node.mk "a" []]]]).1 = .ok () ∧
    ((Inflater.new id).pushVariables
        [Node.mk "a" [Node.mk "x" []], Node.mk "b" [Node.mk "@" [Node.mk "a" []]]]).2.variables_
      = [[("a", [Node.mk "x" []]), ("b", [Node.mk "@" [Node.mk "a" []]])]] ∧
    [Node.mk "@" [Node.mk "a" []]] ≠ [Node.mk "x" []] := by
  refine ⟨rfl, rfl, ?_⟩
  simp

/-- C18 (amended): the definitions of a block are resolved against the stack
as it was before the push: when `pushVariables` of a chain that holds the
property `b` with the body `y` returns, the value stored for `b` in the new
frame is the one-pass expansion of `y` against the variable stack of `self`, so
a reference `@{a}` in `y` is replaced by the outer binding of `a` when that is
non-empty and is left as it is otherwise, whatever the same block declares for
`a`. -/
theorem pushVariables_same_block (self : Inflater F) (D : List Node) (b : String)
    (y : List Node) (hmem : Node.mk b y ∈ D) (hprop : (Node.mk b y).isProperty = true)
    (hpush : (self.pushVariables D).1 = .ok ()) :
    ∃ m, (self.pushVariables D).2.variables_ = m :: self.variables_ ∧
      mapFind m b = some (expandReferences (fun name => self.findVariable name) y) := by
  unfold pushVariables at hpush ⊢
  cases hl : pushVariables.loop self D [] with
  | error e => rw [hl] at hpush; cases hpush
  | ok m =>
    obtain ⟨y2, hs, hf⟩ := pushVariables_loop_binds self b y hprop D [] m hmem hl
    refine ⟨m, rfl, ?_⟩
    rw [hf, substituteVars_eq_expandReferences _ _ y2 hs]

theorem pushVariables_same_block_witness :
    ∃ m, ((Inflater.new id).pushVariables
        [Node.mk "a" [Node.mk "x" []], Node.mk "b" [Node.mk "@" [Node.mk "a" []]]]).2.variables_
        = m :: (Inflater.new id).variables_ ∧
      mapFind m "b" = some (expandReferences (fun name => (Inflater.new id).findVariable name)
        [Node.mk "@" [Node.mk "a" []]]) :=
  pushVariables_same_block (Inflater.new id)
    [Node.mk "a" [Node.mk "x" []], Node.mk "b" [Node.mk "@" [Node.mk "a" []]]] "b"
    [Node.mk "@" [Node.mk "a" []]] (by simp) rfl rfl

end Inflater

end morda

namespace morda

open stob

theorem mem_setInsert (s : List String) (v x : String) :
    x ∈ setInsert s v ↔ x ∈ s ∨ x = v := by
  unfold setInsert
  by_cases h : v ∈ s
  · simp only [h, if_true]
    constructor
    · exact Or.inl
    · rintro (hx | hx)
      · exact hx
      · rw [hx]; exact h
  · simp [h]

theorem nodup_setInsert (s : List String) (v : String) (h : s.Nodup) : (setInsert s v).Nodup := by
  unfold setInsert
  by_cases hv : v ∈ s
  · simp [hv, h]
  · simp only [hv, if_false]
    exact List.Nodup.append h (List.nodup_singleton v) (by simpa using hv)

namespace Inflater

variable {F W : Type}

/-- The search of `findVariable` stops at the first frame that has the name. -/
theorem findVariable_loop_append (inner outer : List (List (String × List Node)))
    (frame : List (String × List Node)) (v : String) (r : List Node)
    (hinner : ∀ f ∈ inner, mapFind f v = none) (hframe : mapFind frame v = some r) :
    findVariable.loop (inner ++ frame :: outer) v = r := by
  induction inner with
  | nil => simp [findVariable.loop, hframe]
  | cons f rest ih =>
    rw [List.cons_append, findVariable.loop, hinner f (List.mem_cons_self _ _)]
    exact ih (fun g hg => hinner g (List.mem_cons_of_mem _ hg))

/-- When `findVar` resolves the name `v` to the null pointer, what
`substituteVars` returns keeps every reference `@{v}` of its input, whatever
else the input holds. -/
theorem substituteVars_refsKept (findVar : String → List Node) (v : String)
    (hv : findVar v = []) (c : List Node) :
    ∀ r, substituteVars findVar c = .ok r → refsKept v c r := by
  induction c using Node.chain_induction with
  | nil =>
    intro r h
    simp only [substituteVars, Except.ok.injEq] at h
    subst h
    exact refsKept.nil
  | cons n rest ihc ih =>
    intro r h
    rw [substituteVars, substituteVars_ofChild_eq] at h
    by_cases hat : n.value = "@"
    · simp only [hat, if_true] at h
      cases n with
      | mk val ch =>
        have hval : val = "@" := hat
        subst hval
        simp only [Node.children] at h
        cases ch with
        | nil => cases h
        | cons name more =>
          cases more with
          | cons m ms => simp at h
          | nil =>
            cases name with
            | mk nm ncs =>
              cases ncs with
              | cons x xs => simp [Node.children] at h
              | nil =>
                simp only [List.isEmpty_nil, Bool.not_true, Bool.false_eq_true, if_false,
                  Node.children, Node.value] at h
                cases hrest : substituteVars findVar rest with
                | error e =>
                  rw [hrest] at h
                  cases hfv : findVar nm <;> rw [hfv] at h <;> cases h
                | ok rr =>
                  rw [hrest] at h
                  have hr := ih rr hrest
                  by_cases hnm : nm = v
                  · subst hnm
                    rw [hv] at h
                    cases h
                    exact refsKept.ref rest rr hr
                  · have hne : (Node.mk "@" [Node.mk nm []]).children ≠ [Node.mk v []] := by
                      simp [Node.children, hnm]
                    cases hfv : findVar nm with
                    | nil =>
                      rw [hfv] at h
                      cases h
                      exact refsKept.other _ [Node.mk "@" [Node.mk nm []]] rest rr rfl hne hr
                    | cons w ws =>
                      rw [hfv] at h
                      cases h
                      exact refsKept.other _ (w :: ws) rest rr rfl hne hr
    · simp only [hat, if_false] at h
      cases hcs : substituteVars findVar n.children with
      | error e => rw [hcs] at h; cases h
      | ok cs =>
        rw [hcs] at h
        cases hrest : substituteVars findVar rest with
        | error e => rw [hrest] at h; cases h
        | ok rr =>
          rw [hrest] at h
          cases h
          exact refsKept.node n cs rest rr hat (ihc cs hcs) (ih rr hrest)

/-- C27: a variable declared with an empty body is treated as unbound and hides
the outer bindings: when the innermost frame that has the name `v` binds it to
the empty chain, `findVariable` returns the null pointer whatever the outer
frames hold, and whenever the substitution of a chain returns, whatever other
references the chain holds, the result is the one-pass expansion in which `v`
is not bound, and it keeps every reference `@{v}` of the chain (at any depth,
outside other `@` nodes) as it is and at its place; in particular a chain whose
`@` nodes are all well-formed references to `v` is returned unchanged. -/
theorem findVariable_empty_hides (self : Inflater F)
    (inner outer : List (List (String × List Node))) (frame : List (String × List Node))
    (v : String) (hstack : self.variables_ = inner ++ frame :: outer)
    (hinner : ∀ f ∈ inner, mapFind f v = none) (hframe : mapFind frame v = some []) :
    self.findVariable v = [] ∧
      (∀ c r, self.substituteVariables c = .ok r →
        r = expandReferences (fun name => if name = v then [] else self.findVariable name) c ∧
          refsKept v c r) ∧
      ∀ c, refsAllUnbound (fun k => decide (k ≠ v)) c = true →
        self.substituteVariables c = .ok c := by
  have hfind : self.findVariable v = [] := by
    unfold findVariable
    rw [hstack]
    exact findVariable_loop_append inner outer frame v [] hinner hframe
  refine ⟨hfind, fun c r hr => ⟨?_, ?_⟩, fun c hc => ?_⟩
  · have hfun : (fun name => if name = v then [] else self.findVariable name)
        = fun name => self.findVariable name := by
      funext name
      by_cases hn : name = v
      · rw [if_pos hn, hn, hfind]
      · rw [if_neg hn]
    rw [hfun]
    exact substituteVars_eq_expandReferences _ c r hr
  · exact substituteVars_refsKept (fun name => self.findVariable name) v hfind c r hr
  · refine substituteVars_unbound _ (fun k => decide (k ≠ v)) (fun name hname => ?_) c hc
    have hv : name = v := by simpa using hname
    rw [hv]
    exact hfind

theorem findVariable_empty_hides_witness :
    findVariable (F := Unit) ⟨[], [], [[("u", [Node.mk "One" []])], [("v", [])],
        [("v", [Node.mk "Outer" []])]]⟩ "v" = [] ∧
      refsKept "v"
        [Node.mk "@" [Node.mk "u" []], Node.mk "Box" [Node.mk "@" [Node.mk "v" []],
          Node.mk "@" [Node.mk "q" []]], Node.mk "@" [Node.mk "v" []]]
        [Node.mk "One" [], Node.mk "Box" [Node.mk "@" [Node.mk "v" []],
          Node.mk "@" [Node.mk "q" []]], Node.mk "@" [Node.mk "v" []]] :=
  ⟨(findVariable_empty_hides (F := Unit) ⟨[], [], [[("u", [Node.mk "One" []])], [("v", [])],
        [("v", [Node.mk "Outer" []])]]⟩ [[("u", [Node.mk "One" []])]]
      [[("v", [Node.mk "Outer" []])]] [("v", [])] "v" rfl (by simp [mapFind]) rfl).1,
    ((findVariable_empty_hides (F := Unit) ⟨[], [], [[("u", [Node.mk "One" []])], [("v", [])],
        [("v", [Node.mk "Outer" []])]]⟩ [[("u", [Node.mk "One" []])]]
      [[("v", [Node.mk "Outer" []])]] [("v", [])] "v" rfl (by simp [mapFind]) rfl).2.1
        [Node.mk "@" [Node.mk "u" []], Node.mk "Box" [Node.mk "@" [Node.mk "v" []],
          Node.mk "@" [Node.mk "q" []]], Node.mk "@" [Node.mk "v" []]] _ rfl).2⟩

/-- A property with children makes the loop of `parseTemplate` throw. -/
theorem parseTemplate_loop_error :
    ∀ (chain : List Node) (t : Option Node) (vars : List String),
      (∃ n ∈ chain, n.isProperty = true ∧ n.children ≠ []) →
      parseTemplate.loop chain t vars = .error excArgumentHasChildren := by
  intro chain
  induction chain with
  | nil => intro t vars h; simp at h
  | cons n next ih =>
    intro t vars h
    have hstep : parseTemplate.loop (n :: next) t vars =
        if n.isProperty then
          if !n.children.isEmpty then .error excArgumentHasChildren
          else parseTemplate.loop next t (setInsert vars n.value)
        else parseTemplate.loop next (match t with
          | some d => some d
          | none => some n) vars := by
      cases t <;> rw [parseTemplate.loop]
    rw [hstep]
    cases hp : n.isProperty with
    | true =>
      simp only [if_true]
      cases hc : n.children.isEmpty with
      | false => simp
      | true =>
        simp only [Bool.not_true, Bool.false_eq_true, if_false]
        apply ih
        obtain ⟨m, hm, hmp, hmc⟩ := h
        rcases List.mem_cons.1 hm with h1 | h1
        · subst h1
          exact absurd (List.isEmpty_iff.1 hc) hmc
        · exact ⟨m, h1, hmp, hmc⟩
    | false =>
      simp only [Bool.false_eq_true, if_false]
      have hnext : ∃ m ∈ next, m.isProperty = true ∧ m.children ≠ [] := by
        obtain ⟨m, hm, hmp, hmc⟩ := h
        rcases List.mem_cons.1 hm with h1 | h1
        · subst h1
          rw [hp] at hmp
          cases hmp
        · exact ⟨m, h1, hmp, hmc⟩
      exact ih _ _ hnext

/-- Over childless properties the loop of `parseTemplate` returns the first
non-property node, unless it has one already, and the values of the
properties. -/
theorem parseTemplate_loop_ok :
    ∀ (chain : List Node) (t : Option Node) (vars : List String),
      (∀ n ∈ chain, n.isProperty = true → n.children = []) →
      ∃ vars2, parseTemplate.loop chain t vars
          = .ok ((match t with
              | some d => some d
              | none => chain.find? (fun n => !n.isProperty)), vars2) ∧
        (∀ v, v ∈ vars2 ↔ v ∈ vars ∨ ∃ n ∈ chain, n.isProperty = true ∧ n.value = v) ∧
        (vars.Nodup → vars2.Nodup) := by
  intro chain
  induction chain with
  | nil =>
    intro t vars _
    refine ⟨vars, ?_, by simp, id⟩
    cases t <;> rfl
  | cons n next ih =>
    intro t vars h
    have hnext : ∀ m ∈ next, m.isProperty = true → m.children = [] :=
      fun m hm => h m (List.mem_cons_of_mem _ hm)
    have hstep : parseTemplate.loop (n :: next) t vars =
        if n.isProperty then
          if !n.children.isEmpty then .error excArgumentHasChildren
          else parseTemplate.loop next t (setInsert vars n.value)
        else parseTemplate.loop next (match t with
          | some d => some d
          | none => some n) vars := by
      cases t <;> rw [parseTemplate.loop]
    rw [hstep]
    cases hp : n.isProperty with
    | true =>
      have hc := h n (List.mem_cons_self _ _) hp
      simp only [hc, if_true, List.isEmpty_nil, Bool.not_true, Bool.false_eq_true, if_false]
      obtain ⟨vars2, hl, hv, hnd⟩ := ih t (setInsert vars n.value) hnext
      refine ⟨vars2, ?_, ?_, fun hn => hnd (nodup_setInsert _ _ hn)⟩
      · rw [hl]
        cases t with
        | some d => rfl
        | none => simp [List.find?_cons, hp]
      · intro v
        rw [hv v, mem_setInsert]
        constructor
        · rintro ((h1 | h1) | ⟨m, hm, hmp, hmv⟩)
          · exact Or.inl h1
          · exact Or.inr ⟨n, List.mem_cons_self _ _, hp, h1.symm⟩
          · exact Or.inr ⟨m, List.mem_cons_of_mem _ hm, hmp, hmv⟩
        · rintro (h1 | ⟨m, hm, hmp, hmv⟩)
          · exact Or.inl (Or.inl h1)
          · rcases List.mem_cons.1 hm with h2 | h2
            · subst h2
              exact Or.inl (Or.inr hmv.symm)
            · exact Or.inr ⟨m, h2, hmp, hmv⟩
    | false =>
      simp only [Bool.false_eq_true, if_false]
      have hmem : ∀ v, (∃ m ∈ next, m.isProperty = true ∧ m.value = v) ↔
          ∃ m ∈ n :: next, m.isProperty = true ∧ m.value = v := by
        intro v
        constructor
        · rintro ⟨m, hm, hmp, hmv⟩
          exact ⟨m, List.mem_cons_of_mem _ hm, hmp, hmv⟩
        · rintro ⟨m, hm, hmp, hmv⟩
          rcases List.mem_cons.1 hm with h2 | h2
          · subst h2
            rw [hp] at hmp
            cases hmp
          · exact ⟨m, h2, hmp, hmv⟩
      cases t with
      | some d =>
        obtain ⟨vars2, hl, hv, hnd⟩ := ih (some d) vars hnext
        exact ⟨vars2, hl, fun v => by rw [hv v, hmem v], hnd⟩
      | none =>
        obtain ⟨vars2, hl, hv, hnd⟩ := ih (some n) vars hnext
        refine ⟨vars2, ?_, fun v => by rw [hv v, hmem v], hnd⟩
        rw [hl]
        simp [List.find?_cons, hp]

/-- C25: template parsing: for a body whose first non-property node, if there
is one, names no existing template, `parseTemplate` throws if and only if some
property node of the body has children or the body has no non-property node;
otherwise its definition is the first non-property node with its subtree, the
later ones being passed over, and its variable names are, without repetition,
the values of the property nodes of the body. -/
theorem parseTemplate_spec (self : Inflater F) (chain : List Node)
    (hnew : ∀ d, chain.find? (fun n => !n.isProperty) = some d →
      self.findTemplate d.value = none) :
    ((∃ e, self.parseTemplate chain = .error e) ↔
      ((∃ n ∈ chain, n.isProperty = true ∧ n.children ≠ []) ∨
        chain.find? (fun n => !n.isProperty) = none)) ∧
    (∀ t, self.parseTemplate chain = .ok t →
      chain.find? (fun n => !n.isProperty) = some t.t ∧ t.vars.Nodup ∧
      ∀ v, v ∈ t.vars ↔ ∃ n ∈ chain, n.isProperty = true ∧ n.value = v) := by
  by_cases hbad : ∃ n ∈ chain, n.isProperty = true ∧ n.children ≠ []
  · have hl := parseTemplate_loop_error chain none [] hbad
    have he : self.parseTemplate chain = .error excArgumentHasChildren := by
      simp only [parseTemplate, hl]
    rw [he]
    refine ⟨⟨fun _ => Or.inl hbad, fun _ => ⟨_, rfl⟩⟩, fun t ht => by cases ht⟩
  · have hgood : ∀ n ∈ chain, n.isProperty = true → n.children = [] := by
      intro n hn hp
      by_contra hc
      exact hbad ⟨n, hn, hp, hc⟩
    obtain ⟨vars2, hl, hv, hnd⟩ := parseTemplate_loop_ok chain none [] hgood
    simp only at hl
    cases hd : chain.find? (fun n => !n.isProperty) with
    | none =>
      rw [hd] at hl
      have he : self.parseTemplate chain = .error excNoDefinition := by
        simp only [parseTemplate, hl]
      rw [he]
      refine ⟨⟨fun _ => Or.inr rfl, fun _ => ⟨_, rfl⟩⟩, fun t ht => by cases ht⟩
    | some d =>
      rw [hd] at hl
      have hok : self.parseTemplate chain = .ok { t := d, vars := vars2 } := by
        simp only [parseTemplate, hl, hnew d hd]
      rw [hok]
      refine ⟨⟨fun h => ?_, fun h => ?_⟩, fun t ht => ?_⟩
      · obtain ⟨e, he⟩ := h
        cases he
      · rcases h with h | h
        · exact absurd h hbad
        · cases h
      · cases ht
        refine ⟨rfl, hnd List.nodup_nil, fun v => ?_⟩
        rw [hv v]
        simp

theorem parseTemplate_spec_witness :
    ((∃ e, (Inflater.new id).parseTemplate
        [Node.mk "label" [], Node.mk "Widget" [Node.mk "x" []], Node.mk "label" [],
          Node.mk "Other" []] = .error e) ↔
      ((∃ n ∈ [Node.mk "label" [], Node.mk "Widget" [Node.mk "x" []], Node.mk "label" [],
          Node.mk "Other" []], n.isProperty = true ∧ n.children ≠ []) ∨
        [Node.mk "label" [], Node.mk "Widget" [Node.mk "x" []], Node.mk "label" [],
          Node.mk "Other" []].find? (fun n => !n.isProperty) = none)) ∧
    (∀ t, (Inflater.new id).parseTemplate
        [Node.mk "label" [], Node.mk "Widget" [Node.mk "x" []], Node.mk "label" [],
          Node.mk "Other" []] = .ok t →
      [Node.mk "label" [], Node.mk "Widget" [Node.mk "x" []], Node.mk "label" [],
          Node.mk "Other" []].find? (fun n => !n.isProperty) = some t.t ∧ t.vars.Nodup ∧
      ∀ v, v ∈ t.vars ↔ ∃ n ∈ [Node.mk "label" [], Node.mk "Widget" [Node.mk "x" []],
          Node.mk "label" [], Node.mk "Other" []], n.isProperty = true ∧ n.value = v) :=
  parseTemplate_spec (Inflater.new id)
    [Node.mk "label" [], Node.mk "Widget" [Node.mk "x" []], Node.mk "label" [],
      Node.mk "Other" []]
    (fun d hd => by
      have h : d = Node.mk "Widget" [Node.mk "x" []] := by
        have h2 : [Node.mk "label" [], Node.mk "Widget" [Node.mk "x" []], Node.mk "label" [],
            Node.mk "Other" []].find? (fun n => !n.isProperty)
              = some (Node.mk "Widget" [Node.mk "x" []]) := rfl
        rw [h2] at hd
        exact (Option.some.inj hd).symm
      rw [h]
      rfl)

/-- C28 (failing input): from the state the constructor leaves, `pushTemplates`
of `Btn{ Widget }` returns and stores for `Btn` a template whose definition
node `Widget` has no children; when a later body `Btn{ x{ y } }` names it as
parent, the condition of the `ASSERT` of line 257 is false. -/
theorem parseTemplate_assertion_fails :
    ((Inflater.new id).pushTemplates [Node.mk "Btn" [Node.mk "Widget" []]]).1 = .ok () ∧
    ((Inflater.new id).pushTemplates [Node.mk "Btn" [Node.mk "Widget" []]]).2.templates
      = [[("Btn", Template.mk (Node.mk "Widget" []) [])]] ∧
    (Template.mk (Node.mk "Widget" []) []).t.children = [] ∧
    parseTemplate.assertion
      ((Inflater.new id).pushTemplates [Node.mk "Btn" [Node.mk "Widget" []]]).2
      [Node.mk "Btn" [Node.mk "x" [Node.mk "y" []]]] = false :=
  ⟨rfl, rfl, rfl, rfl⟩

end Inflater

end morda

namespace morda

open stob

/-- C21 (counterexample): merging `q{ A }` into `X Y` gives `X q{ A } Y`, the
inherited property between the nodes of the overrides; merging `q{ A } r{ B }`
into `X` gives `X r{ B } q{ A }`, the inherited properties in reverse order;
and merging `w{ A } w{ B }` into `Z` gives `Z w{ B A }`, one node for the two
base properties. -/
theorem mergeGUIChain_appends_defaults_counterexample :
    (mergeGUIChain [Node.mk "q" [Node.mk "A" []]] [] [Node.mk "X" [], Node.mk "Y" []]
        = .ok [Node.mk "X" [], Node.mk "q" [Node.mk "A" []], Node.mk "Y" []] ∧
      [Node.mk "X" [], Node.mk "q" [Node.mk "A" []], Node.mk "Y" []]
        ≠ [Node.mk "X" [], Node.mk "Y" []] ++ [Node.mk "q" [Node.mk "A" []]]) ∧
    (mergeGUIChain [Node.mk "q" [Node.mk "A" []], Node.mk "r" [Node.mk "B" []]] []
          [Node.mk "X" []]
        = .ok [Node.mk "X" [], Node.mk "r" [Node.mk "B" []], Node.mk "q" [Node.mk "A" []]] ∧
      [Node.mk "X" [], Node.mk "r" [Node.mk "B" []], Node.mk "q" [Node.mk "A" []]]
        ≠ [Node.mk "X" []] ++ [Node.mk "q" [Node.mk "A" []], Node.mk "r" [Node.mk "B" []]]) ∧
    (mergeGUIChain [Node.mk "w" [Node.mk "A" []], Node.mk "w" [Node.mk "B" []]] []
          [Node.mk "Z" []]
        = .ok [Node.mk "Z" [], Node.mk "w" [Node.mk "B" [], Node.mk "A" []]] ∧
      [Node.mk "Z" [], Node.mk "w" [Node.mk "B" [], Node.mk "A" []]]
        ≠ [Node.mk "Z" []] ++ [Node.mk "w" [Node.mk "A" []], Node.mk "w" [Node.mk "B" []]]) := by
  refine ⟨⟨rfl, ?_⟩, ⟨rfl, ?_⟩, ⟨rfl, ?_⟩⟩ <;> simp

/-- The loop links each base property that the overrides do not name right
after the head of the overrides, in front of those linked before. -/
theorem mergeGUIChain_loop_inserts (t : Node) (ts : List Node) (vs : List String) :
    ∀ (b : List Node) (first : Bool) (acc : List Node),
      (∀ n ∈ b, n.isProperty = true ∧ n.children ≠ [] ∧ n.value ≠ "@" ∧
        ∀ m ∈ t :: acc ++ ts, m.value ≠ n.value) →
      (b.map Node.value).Nodup →
      mergeGUIChain.loop b vs first [] (t :: acc ++ ts) = .ok (t :: b.reverse ++ acc ++ ts) := by
  intro b
  induction b with
  | nil => intro first acc _ _; simp [mergeGUIChain.loop]
  | cons src next ih =>
    intro first acc hb hnd
    obtain ⟨hp, hc, hat, habs⟩ := hb src (List.mem_cons_self _ _)
    rw [List.map_cons, List.nodup_cons] at hnd
    have hce : src.children.isEmpty = false := by
      cases hch : src.children with
      | nil => exact absurd hch hc
      | cons a l => rfl
    rw [mergeGUIChain.loop]
    simp only [hp, hce, hat, thisOrNext_eq_none habs, Bool.not_true, Bool.false_eq_true,
      if_false, decide_False, Bool.or_self]
    have hins : insertNext (t :: acc ++ ts) src = t :: (src :: acc) ++ ts := rfl
    rw [hins, ih false (src :: acc) ?_ hnd.2]
    · simp
    · intro n hn
      obtain ⟨hp2, hc2, hat2, habs2⟩ := hb n (List.mem_cons_of_mem _ hn)
      refine ⟨hp2, hc2, hat2, ?_⟩
      intro m hm
      simp only [List.cons_append, List.mem_cons] at hm
      rcases hm with h1 | h1 | h1
      · exact habs2 m (by simp [h1])
      · subst h1
        intro heq
        exact hnd.1 (List.mem_map.2 ⟨n, hn, heq.symm⟩)
      · exact habs2 m (by
          simp only [List.cons_append, List.mem_cons]
          exact Or.inr h1)

/-- C21 (amended): inherited defaults are linked in after the first override:
for an override chain with the first node `t` and the rest `ts`, and a base
chain `b` made only of property nodes with non-empty bodies, not named `@`,
with pairwise distinct names that occur nowhere in the overrides, the merge is
`t`, then the nodes of `b` in reverse order, then `ts`. -/
theorem mergeGUIChain_inserts_defaults (t : Node) (ts b : List Node) (vs : List String)
    (hb : ∀ n ∈ b, n.isProperty = true ∧ n.children ≠ [] ∧ n.value ≠ "@" ∧
      ∀ m ∈ t :: ts, m.value ≠ n.value)
    (hnd : (b.map Node.value).Nodup) :
    mergeGUIChain b vs (t :: ts) = .ok (t :: b.reverse ++ ts) := by
  have h := mergeGUIChain_loop_inserts t ts vs b true [] (by simpa using hb) hnd
  simpa [mergeGUIChain] using h

theorem mergeGUIChain_inserts_defaults_witness :
    mergeGUIChain [Node.mk "q" [Node.mk "A" []], Node.mk "r" [Node.mk "B" []]] []
        (Node.mk "X" [] :: [Node.mk "y" []])
      = .ok (Node.mk "X" [] ::
          [Node.mk "q" [Node.mk "A" []], Node.mk "r" [Node.mk "B" []]].reverse ++
            [Node.mk "y" []]) :=
  mergeGUIChain_inserts_defaults (Node.mk "X" []) [Node.mk "y" []]
    [Node.mk "q" [Node.mk "A" []], Node.mk "r" [Node.mk "B" []]] []
    (by simp [Node.isProperty, Node.isCapital, Node.value, Node.children]) (by decide)

/-- Without a leaf property in the base, the loop on the whole base and the
loop on its property nodes change the overrides in the same way, and the
non-property nodes are put in front in their order. -/
theorem mergeGUIChain_loop_split (vs : List String) :
    ∀ (b : List Node) (first first2 : Bool) (children to_ r : List Node),
      (∀ n ∈ b, n.isProperty = true →
        (n.children.isEmpty || decide (n.value = "@")) = false) →
      mergeGUIChain.loop b vs first children to_ = .ok r →
      ∃ r2, mergeGUIChain.loop (b.filter (fun n => n.isProperty)) vs first2 [] to_ = .ok r2 ∧
        r = children.reverse ++ b.filter (fun n => !n.isProperty) ++ r2 := by
  intro b
  induction b with
  | nil =>
    intro first first2 children to_ r _ h
    simp only [mergeGUIChain.loop, Except.ok.injEq] at h
    subst h
    exact ⟨to_, by simp [mergeGUIChain.loop], by simp⟩
  | cons src next ih =>
    intro first first2 children to_ r hno h
    have hnext : ∀ n ∈ next, n.isProperty = true →
        (n.children.isEmpty || decide (n.value = "@")) = false :=
      fun n hn => hno n (List.mem_cons_of_mem _ hn)
    rw [mergeGUIChain.loop] at h
    cases hp : src.isProperty with
    | false =>
      simp only [hp, Bool.not_false, if_true] at h
      obtain ⟨r2, h2, hr⟩ := ih false first2 (src :: children) to_ r hnext h
      refine ⟨r2, ?_, ?_⟩
      · simpa [List.filter_cons, hp] using h2
      · rw [hr]
        simp [List.filter_cons, hp]
    | true =>
      have hl := hno src (List.mem_cons_self _ _) hp
      simp only [hp, hl, Bool.not_true, Bool.false_eq_true, if_false] at h
      have hfilter : (src :: next).filter (fun n => n.isProperty)
          = src :: next.filter (fun n => n.isProperty) := by
        simp [List.filter_cons, hp]
      have hfilter2 : (src :: next).filter (fun n => !n.isProperty)
          = next.filter (fun n => !n.isProperty) := by
        simp [List.filter_cons, hp]
      rw [hfilter, hfilter2, mergeGUIChain.loop]
      simp only [hp, hl, Bool.not_true, Bool.false_eq_true, if_false]
      cases hd : thisOrNext to_ src.value with
      | none =>
        rw [hd] at h
        exact ih false false children _ r hnext h
      | some dst =>
        rw [hd] at h
        simp only at h ⊢
        cases hdc : dst.children.isEmpty with
        | true =>
          simp only [hdc, if_true] at h ⊢
          exact ih false false children _ r hnext h
        | false =>
          simp only [hdc, Bool.false_eq_true, if_false] at h ⊢
          cases hm : mergeGUIChain.ofChild src vs dst.children with
          | error e => rw [hm] at h; cases h
          | ok merged =>
            rw [hm] at h
            simp only at h ⊢
            exact ih false false children _ r hnext h

/-- C22: bare values of the template are prepended in their order: when the
merge of the base `b` into the non-empty overrides `o` returns without taking
the leaf-property exit (`b` is not a single leaf property), the result is the
non-property nodes of `b`, in their order and with their subtrees, followed by
the merge of the property nodes of `b` into `o`, which returns as well. -/
theorem mergeGUIChain_prepends_values (o b : List Node) (vs : List String) (r : List Node)
    (ho : o ≠ [])
    (hexit : ¬ ∃ n, b = [n] ∧ n.isProperty = true ∧ (n.children = [] ∨ n.value = "@"))
    (hres : mergeGUIChain b vs o = .ok r) :
    ∃ r2, mergeGUIChain (b.filter (fun n => n.isProperty)) vs o = .ok r2 ∧
      r = b.filter (fun n => !n.isProperty) ++ r2 := by
  rw [mergeGUIChain_eq_loop _ _ ho] at hres ⊢
  have hno : ∀ n ∈ b, n.isProperty = true →
      (n.children.isEmpty || decide (n.value = "@")) = false := by
    intro n hn hp
    by_contra hleaf
    have hleaf2 : n.children = [] ∨ n.value = "@" := by
      cases hc : n.children.isEmpty with
      | true => exact Or.inl (List.isEmpty_iff.1 hc)
      | false =>
        right
        simpa [hc] using hleaf
    by_cases hlen : 1 < b.length
    · rw [mergeGUIChain_loop_leaf vs b true [] o ⟨n, hn, hp, hleaf2⟩ (Or.inr hlen)] at hres
      cases hres
    · apply hexit
      match b, hn, hlen with
      | [m], hn, _ =>
        simp only [List.mem_singleton] at hn
        subst hn
        exact ⟨n, rfl, hp, hleaf2⟩
      | _ :: _ :: _, _, hlen => simp at hlen
  obtain ⟨r2, h2, hr⟩ := mergeGUIChain_loop_split vs b true true [] o r hno hres
  exact ⟨r2, h2, by simpa using hr⟩

theorem mergeGUIChain_prepends_values_witness :
    ∃ r2, mergeGUIChain ([Node.mk "A" [], Node.mk "p" [Node.mk "B" []], Node.mk "C" [],
        Node.mk "q" [Node.mk "x" []]].filter (fun n => n.isProperty)) []
        [Node.mk "Y" [], Node.mk "p" [Node.mk "z" []]] = .ok r2 ∧
      [Node.mk "A" [], Node.mk "C" [], Node.mk "Y" [], Node.mk "q" [Node.mk "x" []],
          Node.mk "p" [Node.mk "B" [], Node.mk "z" []]]
        = [Node.mk "A" [], Node.mk "p" [Node.mk "B" []], Node.mk "C" [],
          Node.mk "q" [Node.mk "x" []]].filter (fun n => !n.isProperty) ++ r2 :=
  mergeGUIChain_prepends_values [Node.mk "Y" [], Node.mk "p" [Node.mk "z" []]]
    [Node.mk "A" [], Node.mk "p" [Node.mk "B" []], Node.mk "C" [], Node.mk "q" [Node.mk "x" []]]
    [] _ (by simp) (by simp) rfl

end morda

namespace stob

theorem setChildrenOfFirst_map_value (l : List Node) (v : String) (c : List Node) :
    (setChildrenOfFirst l v c).map Node.value = l.map Node.value := by
  induction l with
  | nil => rfl
  | cons a rest ih =>
    simp only [setChildrenOfFirst]
    split
    · simp [Node.setChildren, Node.value]
    · simp [ih]

theorem setChildrenOfFirst_append_left {l1 : List Node} (l2 : List Node) {v : String}
    (c : List Node) {n : Node} (h : thisOrNext l1 v = some n) :
    setChildrenOfFirst (l1 ++ l2) v c = setChildrenOfFirst l1 v c ++ l2 := by
  induction l1 with
  | nil => simp [thisOrNext] at h
  | cons a rest ih =>
    simp only [thisOrNext] at h
    simp only [List.cons_append, setChildrenOfFirst]
    by_cases ha : a.value = v
    · simp [ha]
    · simp only [ha, if_false] at h ⊢
      have ih2 := ih h
      simp only [List.append_eq] at ih2 ⊢
      rw [ih2]
      rfl

theorem setChildrenOfFirst_append_right {l1 : List Node} (l2 : List Node) {v : String}
    (c : List Node) (h : thisOrNext l1 v = none) :
    setChildrenOfFirst (l1 ++ l2) v c = l1 ++ setChildrenOfFirst l2 v c := by
  induction l1 with
  | nil => rfl
  | cons a rest ih =>
    simp only [thisOrNext] at h
    simp only [List.cons_append, setChildrenOfFirst]
    by_cases ha : a.value = v
    · simp [ha] at h
    · simp only [ha, if_false] at h ⊢
      have ih2 := ih h
      simp only [List.append_eq] at ih2 ⊢
      rw [ih2]

theorem mem_setChildrenOfFirst {l : List Node} {v : String} {c : List Node} {x : Node}
    (h : x ∈ setChildrenOfFirst l v c) : x ∈ l ∨ (x.value = v ∧ ∃ m ∈ l, m.value = v) := by
  induction l with
  | nil => simp [setChildrenOfFirst] at h
  | cons a rest ih =>
    simp only [setChildrenOfFirst] at h
    by_cases ha : a.value = v
    · simp only [ha, if_true] at h
      rcases List.mem_cons.1 h with h1 | h1
      · right
        refine ⟨?_, a, List.mem_cons_self _ _, ha⟩
        rw [h1]
        exact ha
      · exact Or.inl (List.mem_cons_of_mem _ h1)
    · simp only [ha, if_false] at h
      rcases List.mem_cons.1 h with h1 | h1
      · exact Or.inl (by rw [h1]; exact List.mem_cons_self _ _)
      · rcases ih h1 with h2 | ⟨h2, m, hm, hmv⟩
        · exact Or.inl (List.mem_cons_of_mem _ h2)
        · exact Or.inr ⟨h2, m, List.mem_cons_of_mem _ hm, hmv⟩

end stob

namespace morda

open stob

theorem fromBase_append (b : List Node) (extra : List Node) {n : Node} (h : fromBase b n) :
    fromBase (b ++ extra) n := by
  rcases h with h | h
  · exact Or.inl (List.mem_append_left _ h)
  · right
    rw [List.countP_append]
    omega

theorem fromBase_value {b : List Node} {n : Node} (h : fromBase b n) :
    ∃ m ∈ b, m.value = n.value := by
  rcases h with h | h
  · exact ⟨n, h, rfl⟩
  · have hpos : 0 < b.countP (fun m => decide (m.value = n.value)) := by omega
    obtain ⟨m, hm, hv⟩ := List.countP_pos_iff.1 hpos
    exact ⟨m, hm, by simpa using hv⟩

/-- The loop keeps the override chain in the shape: first override, base
properties linked in, other overrides; it changes no value of an override, and
a node it links in stays a node of the base unless a later base node of the
same value is merged into it. -/
theorem mergeGUIChain_loop_shape (vs : List String) :
    ∀ (rest done : List Node) (first : Bool) (children : List Node) (t : Node)
      (acc ts r : List Node),
      (∀ n ∈ children, n ∈ done) → (∀ n ∈ acc, fromBase done n) →
      mergeGUIChain.loop rest vs first children (t :: acc ++ ts) = .ok r →
      ∃ pre t2 acc2 ts2, r = pre ++ t2 :: acc2 ++ ts2 ∧
        (t2 :: ts2).map Node.value = (t :: ts).map Node.value ∧
        (∀ n ∈ pre, n ∈ done ++ rest) ∧ (∀ n ∈ acc2, fromBase (done ++ rest) n) := by
  intro rest
  induction rest with
  | nil =>
    intro done first children t acc ts r hch hacc h
    simp only [mergeGUIChain.loop, Except.ok.injEq] at h
    subst h
    refine ⟨children.reverse, t, acc, ts, by simp, rfl, ?_, ?_⟩
    · intro n hn
      simpa using hch n (List.mem_reverse.1 hn)
    · intro n hn
      simpa using hacc n hn
  | cons src next ih =>
    intro done first children t acc ts r hch hacc h
    have hdone : done ++ src :: next = (done ++ [src]) ++ next := by simp
    have hacc2 : ∀ n ∈ acc, fromBase (done ++ [src]) n :=
      fun n hn => fromBase_append _ _ (hacc n hn)
    have hch2 : ∀ n ∈ children, n ∈ done ++ [src] :=
      fun n hn => List.mem_append_left _ (hch n hn)
    rw [hdone]
    rw [mergeGUIChain.loop] at h
    split at h
    · refine ih (done ++ [src]) false (src :: children) t acc ts r ?_ hacc2 h
      intro n hn
      rcases List.mem_cons.1 hn with h1 | h1
      · rw [h1]; simp
      · exact hch2 n h1
    · split at h
      · split at h
        · cases h
        · cases h
          refine ⟨[], t, acc, ts, by simp, rfl, by simp, ?_⟩
          intro n hn
          exact fromBase_append _ _ (hacc2 n hn)
      · split at h
        · have hins : insertNext (t :: acc ++ ts) src = t :: (src :: acc) ++ ts := rfl
          rw [hins] at h
          refine ih (done ++ [src]) false children t (src :: acc) ts r hch2 ?_ h
          intro n hn
          rcases List.mem_cons.1 hn with h1 | h1
          · rw [h1]
            exact Or.inl (by simp)
          · exact hacc2 n h1
        · rename_i dst hdst
          split at h
          · exact ih (done ++ [src]) false children t acc ts r hch2 hacc2 h
          · split at h
            · cases h
            · rename_i merged _
              by_cases ht : t.value = src.value
              · have hset : setChildrenOfFirst (t :: acc ++ ts) src.value merged
                    = t.setChildren merged :: acc ++ ts := by
                  simp [setChildrenOfFirst, ht]
                rw [hset] at h
                obtain ⟨pre, t2, acc2, ts2, hr, hval, hpre, hacc3⟩ :=
                  ih (done ++ [src]) false children (t.setChildren merged) acc ts r hch2 hacc2 h
                exact ⟨pre, t2, acc2, ts2, hr, by simpa [Node.setChildren, Node.value] using hval,
                  hpre, hacc3⟩
              · have hcons : setChildrenOfFirst (t :: acc ++ ts) src.value merged
                    = t :: setChildrenOfFirst (acc ++ ts) src.value merged := by
                  simp [setChildrenOfFirst, ht]
                rw [hcons] at h
                cases hfind : thisOrNext acc src.value with
                | some found =>
                  rw [setChildrenOfFirst_append_left ts merged hfind] at h
                  refine ih (done ++ [src]) false children t _ ts r hch2 ?_ h
                  intro n hn
                  rcases mem_setChildrenOfFirst hn with h1 | ⟨h1, m, hm, hmv⟩
                  · exact hacc2 n h1
                  · right
                    obtain ⟨m2, hm2, hmv2⟩ := fromBase_value (hacc m hm)
                    have hpos : 0 < done.countP (fun k => decide (k.value = n.value)) := by
                      apply List.countP_pos_iff.2
                      exact ⟨m2, hm2, by simp [hmv2, hmv, h1]⟩
                    rw [List.countP_append]
                    have hone : [src].countP (fun k => decide (k.value = n.value)) = 1 := by
                      simp [List.countP_cons, h1]
                    omega
                | none =>
                  rw [setChildrenOfFirst_append_right _ merged hfind] at h
                  obtain ⟨pre, t2, acc2, ts2, hr, hval, hpre, hacc3⟩ :=
                    ih (done ++ [src]) false children t acc _ r hch2 hacc2 h
                  refine ⟨pre, t2, acc2, ts2, hr, ?_, hpre, hacc3⟩
                  rw [hval]
                  simp [setChildrenOfFirst_map_value]

/-- C30 (counterexample): merging the base `v{ A } v{ B }` into the overrides
`Y` returns `Y v{ B A }`; the node `v{ B A }` is not an override and is not a
copy of a node of the base. -/
theorem mergeGUIChain_keeps_overrides_counterexample :
    mergeGUIChain [Node.mk "v" [Node.mk "A" []], Node.mk "v" [Node.mk "B" []]] []
        [Node.mk "Y" []]
      = .ok [Node.mk "Y" [], Node.mk "v" [Node.mk "B" [], Node.mk "A" []]] ∧
    Node.mk "v" [Node.mk "B" [], Node.mk "A" []] ∉
      [Node.mk "v" [Node.mk "A" []], Node.mk "v" [Node.mk "B" []]] ∧
    Node.mk "v" [Node.mk "B" [], Node.mk "A" []] ∉ [Node.mk "Y" []] := by
  refine ⟨rfl, ?_, ?_⟩ <;> simp

/-- C30 (amended): merge never drops or reorders an override node: when the
merge of the base `b` into the non-empty overrides `o` returns, the result is
some nodes, then a first override, then some nodes, then the other overrides,
where the overrides have the values of the nodes of `o` in their order; every
other node has the value of a node of `b`, and is that node of `b` with its
whole subtree unless two nodes of `b` have that value. -/
theorem mergeGUIChain_keeps_overrides (b o : List Node) (vs : List String) (r : List Node)
    (ho : o ≠ []) (hres : mergeGUIChain b vs o = .ok r) :
    ∃ pre t2 ins ts2, r = pre ++ t2 :: ins ++ ts2 ∧
      (t2 :: ts2).map Node.value = o.map Node.value ∧
      (∀ n ∈ pre ++ ins, ∃ m ∈ b, m.value = n.value) ∧
      (∀ n ∈ pre ++ ins,
        n ∈ b ∨ 2 ≤ b.countP (fun m => decide (m.value = n.value))) := by
  rw [mergeGUIChain_eq_loop _ _ ho] at hres
  cases o with
  | nil => exact absurd rfl ho
  | cons t ts =>
    obtain ⟨pre, t2, acc2, ts2, hr, hval, hpre, hacc⟩ :=
      mergeGUIChain_loop_shape vs b [] true [] t [] ts r (by simp) (by simp)
        (by simpa using hres)
    have hall : ∀ n ∈ pre ++ acc2, fromBase b n := by
      intro n hn
      rcases List.mem_append.1 hn with h1 | h1
      · exact Or.inl (by simpa using hpre n h1)
      · simpa using hacc n h1
    exact ⟨pre, t2, acc2, ts2, hr, hval, fun n hn => fromBase_value (hall n hn), hall⟩

theorem mergeGUIChain_keeps_overrides_witness :
    ∃ pre t2 ins ts2,
      [Node.mk "A" [], Node.mk "Y" [], Node.mk "q" [Node.mk "x" []],
          Node.mk "p" [Node.mk "B" [], Node.mk "z" []]] = pre ++ t2 :: ins ++ ts2 ∧
      (t2 :: ts2).map Node.value
        = [Node.mk "Y" [], Node.mk "p" [Node.mk "z" []]].map Node.value ∧
      (∀ n ∈ pre ++ ins, ∃ m ∈ [Node.mk "A" [], Node.mk "p" [Node.mk "B" []],
          Node.mk "q" [Node.mk "x" []]], m.value = n.value) ∧
      (∀ n ∈ pre ++ ins,
        n ∈ [Node.mk "A" [], Node.mk "p" [Node.mk "B" []], Node.mk "q" [Node.mk "x" []]] ∨
          2 ≤ [Node.mk "A" [], Node.mk "p" [Node.mk "B" []],
            Node.mk "q" [Node.mk "x" []]].countP (fun m => decide (m.value = n.value))) :=
  mergeGUIChain_keeps_overrides
    [Node.mk "A" [], Node.mk "p" [Node.mk "B" []], Node.mk "q" [Node.mk "x" []]]
    [Node.mk "Y" [], Node.mk "p" [Node.mk "z" []]] [] _ (by simp) rfl

end morda

namespace morda

open stob

namespace Inflater

variable {F W : Type}

/-- A call of `pushTemplates` that returns has pushed a frame whose keys are
the values of the non-property nodes. -/
theorem pushTemplates_ok_frame (self s : Inflater F) (chain : List Node)
    (h : self.pushTemplates chain = (.ok (), s)) :
    ∃ m, s = { self with templates := m :: self.templates } ∧
      m.map Prod.fst = (chain.filter (fun n => !n.isProperty)).map Node.value := by
  unfold pushTemplates at h
  rw [pushTemplates_loop_eq] at h
  cases hb : buildFrame self.templateOf excTemplateAlreadyDefined
      (chain.filter (fun n => !n.isProperty)) [] with
  | error e => rw [hb] at h; cases h
  | ok m =>
    rw [hb] at h
    obtain ⟨_, hkeys, _⟩ := buildFrame_ok _ _ _ _ _ hb
    refine ⟨m, ?_, by simpa using hkeys⟩
    cases h
    rfl

/-- A call of `pushVariables` that returns has pushed a frame whose keys are
the values of the property nodes. -/
theorem pushVariables_ok_frame (self s : Inflater F) (chain : List Node)
    (h : self.pushVariables chain = (.ok (), s)) :
    ∃ m, s = { self with variables_ := m :: self.variables_ } ∧
      m.map Prod.fst = (chain.filter (fun n => n.isProperty)).map Node.value := by
  unfold pushVariables at h
  rw [pushVariables_loop_eq] at h
  cases hb : buildFrame (fun n => self.substituteVariables n.children)
      excVariableAlreadyDefined (chain.filter (fun n => n.isProperty)) [] with
  | error e => rw [hb] at h; cases h
  | ok m =>
    rw [hb] at h
    obtain ⟨_, hkeys, _⟩ := buildFrame_ok _ _ _ _ _ hb
    refine ⟨m, ?_, by simpa using hkeys⟩
    cases h
    rfl

/-- When the loop over the leading declarations returns, the leading
properties are `defs` nodes and the stacks have grown by one frame for each of
them that has children, the frame of the last one on top. -/
theorem inflate_leading_frames :
    ∀ (chain : List Node) (self s : Inflater F) (r : List Node),
      inflate.leading self chain = (.ok r, s) →
      (∀ n ∈ chain.takeWhile (fun n => n.isProperty), n.value = defs_c) ∧
      ∃ (tfs : List (List (String × Template))) (vfs : List (List (String × List Node))),
        s.templates = tfs.reverse ++ self.templates ∧
        s.variables_ = vfs.reverse ++ self.variables_ ∧
        List.Forall₂
          (fun n f => f.map Prod.fst = (n.children.filter (fun c => !c.isProperty)).map Node.value)
          ((chain.takeWhile (fun n => n.isProperty)).filter (fun n => !n.children.isEmpty)) tfs ∧
        List.Forall₂
          (fun n f => f.map Prod.fst = (n.children.filter (fun c => c.isProperty)).map Node.value)
          ((chain.takeWhile (fun n => n.isProperty)).filter (fun n => !n.children.isEmpty)) vfs := by
  intro chain
  induction chain with
  | nil =>
    intro self s r h
    simp only [inflate.leading, Prod.mk.injEq] at h
    obtain ⟨_, hs⟩ := h
    subst hs
    exact ⟨by simp, [], [], by simp, by simp, by simp, by simp⟩
  | cons n next ih =>
    intro self s r h
    rw [inflate.leading] at h
    cases hp : n.isProperty with
    | false =>
      simp only [hp, Bool.false_eq_true, if_false, Prod.mk.injEq] at h
      obtain ⟨_, hs⟩ := h
      subst hs
      exact ⟨by simp [List.takeWhile_cons, hp], [], [],
        by simp, by simp, by simp [List.takeWhile_cons, hp], by simp [List.takeWhile_cons, hp]⟩
    | true =>
      simp only [hp, if_true] at h
      by_cases hv : n.value = defs_c
      · simp only [hv, if_true] at h
        have htake : (n :: next).takeWhile (fun n => n.isProperty)
            = n :: next.takeWhile (fun n => n.isProperty) := by
          simp [List.takeWhile_cons, hp]
        rw [htake]
        cases hc : n.children.isEmpty with
        | true =>
          simp only [hc, Bool.not_true, Bool.false_eq_true, if_false] at h
          obtain ⟨hdefs, tfs, vfs, ht, hvs, hft, hfv⟩ := ih self s r h
          refine ⟨?_, tfs, vfs, ht, hvs, ?_, ?_⟩
          · intro m hm
            rcases List.mem_cons.1 hm with h1 | h1
            · rw [h1]; exact hv
            · exact hdefs m h1
          · simpa [List.filter_cons, hc] using hft
          · simpa [List.filter_cons, hc] using hfv
        | false =>
          simp only [hc, Bool.not_false, if_true] at h
          cases hpt : self.pushTemplates n.children with
          | mk r1 s1 =>
            rw [hpt] at h
            cases r1 with
            | error e => simp at h
            | ok u =>
              simp only at h
              cases hpv : s1.pushVariables n.children with
              | mk r2 s2 =>
                rw [hpv] at h
                cases r2 with
                | error e => simp at h
                | ok u2 =>
                  simp only at h
                  obtain ⟨mt, hs1, hkt⟩ := pushTemplates_ok_frame self s1 n.children hpt
                  obtain ⟨mv, hs2, hkv⟩ := pushVariables_ok_frame s1 s2 n.children hpv
                  obtain ⟨hdefs, tfs, vfs, ht, hvs, hft, hfv⟩ := ih s2 s r h
                  refine ⟨?_, mt :: tfs, mv :: vfs, ?_, ?_, ?_, ?_⟩
                  · intro m hm
                    rcases List.mem_cons.1 hm with h1 | h1
                    · rw [h1]; exact hv
                    · exact hdefs m h1
                  · rw [ht, hs2, hs1]
                    simp
                  · rw [hvs, hs2, hs1]
                    simp
                  · simp only [List.filter_cons, hc, Bool.not_false, if_true]
                    exact List.Forall₂.cons hkt hft
                  · simp only [List.filter_cons, hc, Bool.not_false, if_true]
                    exact List.Forall₂.cons hkv hfv
      · simp [hv] at h

/-- After the loop over the leading declarations has returned, whatever
`inflate` does next leaves both stacks as that loop left them, when `create`
leaves them as it finds them. -/
theorem inflate_stacks_of_leading
    (create : F → List Node → Inflater F → Except String (Option W) × Inflater F)
    (hcreate : ∀ fac chain s, (create fac chain s).2.templates = s.templates ∧
      (create fac chain s).2.variables_ = s.variables_)
    (self s : Inflater F) (chain r : List Node)
    (hl : inflate.leading self chain = (.ok r, s)) :
    (inflate create self chain).2.templates = s.templates ∧
      (inflate create self chain).2.variables_ = s.variables_ := by
  rw [inflate, hl]
  cases r with
  | nil => exact ⟨rfl, rfl⟩
  | cons n0 rest =>
    simp only
    cases inflate.applyTemplate s n0 with
    | error e => exact ⟨rfl, rfl⟩
    | ok n =>
      simp only
      cases s.findFactory n.value with
      | none => exact ⟨rfl, rfl⟩
      | some fac =>
        simp only
        have hexit := inflate_scopeExit_pushLocal s n
        cases hpl : inflate.pushLocal s n with
        | mk r1 rest1 =>
          obtain ⟨s2, needPopTemplates, needPopVariables⟩ := rest1
          rw [hpl] at hexit
          simp only at hexit
          cases r1 with
          | error e => exact hexit s2 rfl rfl
          | ok u =>
            simp only
            cases s2.substituteVariables n.children with
            | error e => exact hexit s2 rfl rfl
            | ok cloned =>
              simp only
              exact hexit _ (hcreate fac cloned s2).1 (hcreate fac cloned s2).2

/-- When the loop over the leading declarations throws, so does `inflate`, and
the object is left as the loop left it. -/
theorem inflate_of_leading_error
    (create : F → List Node → Inflater F → Except String (Option W) × Inflater F)
    (self s : Inflater F) (chain : List Node) (e : String)
    (hl : inflate.leading self chain = (.error e, s)) :
    inflate create self chain = (.error e, s) := by
  rw [inflate, hl]

/-- C24: leading defs persist after the call: when `inflate` returns and
`create` leaves both stacks as it finds them, the leading properties of the
chain are `defs` nodes, and the template stack and the variable stack after
the call are the stacks before it under one new frame for each leading `defs`
node that has children, the frame of the last such node on top, each frame
keyed by the declarations of its node; a leading `defs` without children adds
no frame. -/
theorem inflate_leading_defs_persist
    (create : F → List Node → Inflater F → Except String (Option W) × Inflater F)
    (hcreate : ∀ fac chain s, (create fac chain s).2.templates = s.templates ∧
      (create fac chain s).2.variables_ = s.variables_)
    (self : Inflater F) (chain : List Node) (w : Option W)
    (hret : (inflate create self chain).1 = .ok w) :
    (∀ n ∈ chain.takeWhile (fun n => n.isProperty), n.value = defs_c) ∧
    ∃ (tfs : List (List (String × Template))) (vfs : List (List (String × List Node))),
      (inflate create self chain).2.templates = tfs.reverse ++ self.templates ∧
      (inflate create self chain).2.variables_ = vfs.reverse ++ self.variables_ ∧
      List.Forall₂
        (fun n f => f.map Prod.fst = (n.children.filter (fun c => !c.isProperty)).map Node.value)
        ((chain.takeWhile (fun n => n.isProperty)).filter (fun n => !n.children.isEmpty)) tfs ∧
      List.Forall₂
        (fun n f => f.map Prod.fst = (n.children.filter (fun c => c.isProperty)).map Node.value)
        ((chain.takeWhile (fun n => n.isProperty)).filter (fun n => !n.children.isEmpty)) vfs := by
  cases hl : inflate.leading self chain with
  | mk r1 s =>
    cases r1 with
    | error e =>
      rw [inflate_of_leading_error create self s chain e hl] at hret
      cases hret
    | ok r =>
      obtain ⟨hdefs, tfs, vfs, ht, hv, hft, hfv⟩ := inflate_leading_frames chain self s r hl
      obtain ⟨h1, h2⟩ := inflate_stacks_of_leading create hcreate self s chain r hl
      exact ⟨hdefs, tfs, vfs, by rw [h1, ht], by rw [h2, hv], hft, hfv⟩

theorem inflate_leading_defs_persist_witness :
    (∀ n ∈ [Node.mk "defs" [Node.mk "a" [Node.mk "x" []]], Node.mk "defs" [],
        Node.mk "defs" [Node.mk "Btn" [Node.mk "Widget" []]],
        Node.mk "Widget" [Node.mk "defs" [Node.mk "b" [Node.mk "y" []]]]].takeWhile
          (fun n => n.isProperty), n.value = defs_c) ∧
    ∃ (tfs : List (List (String × Template))) (vfs : List (List (String × List Node))),
      (inflate createEcho (Inflater.new id)
        [Node.mk "defs" [Node.mk "a" [Node.mk "x" []]], Node.mk "defs" [],
          Node.mk "defs" [Node.mk "Btn" [Node.mk "Widget" []]],
          Node.mk "Widget" [Node.mk "defs" [Node.mk "b" [Node.mk "y" []]]]]).2.templates
        = tfs.reverse ++ (Inflater.new id).templates ∧
      (inflate createEcho (Inflater.new id)
        [Node.mk "defs" [Node.mk "a" [Node.mk "x" []]], Node.mk "defs" [],
          Node.mk "defs" [Node.mk "Btn" [Node.mk "Widget" []]],
          Node.mk "Widget" [Node.mk "defs" [Node.mk "b" [Node.mk "y" []]]]]).2.variables_
        = vfs.reverse ++ (Inflater.new id).variables_ ∧
      List.Forall₂
        (fun n f => f.map Prod.fst = (n.children.filter (fun c => !c.isProperty)).map Node.value)
        (([Node.mk "defs" [Node.mk "a" [Node.mk "x" []]], Node.mk "defs" [],
          Node.mk "defs" [Node.mk "Btn" [Node.mk "Widget" []]],
          Node.mk "Widget" [Node.mk "defs" [Node.mk "b" [Node.mk "y" []]]]].takeWhile
            (fun n => n.isProperty)).filter (fun n => !n.children.isEmpty)) tfs ∧
      List.Forall₂
        (fun n f => f.map Prod.fst = (n.children.filter (fun c => c.isProperty)).map Node.value)
        (([Node.mk "defs" [Node.mk "a" [Node.mk "x" []]], Node.mk "defs" [],
          Node.mk "defs" [Node.mk "Btn" [Node.mk "Widget" []]],
          Node.mk "Widget" [Node.mk "defs" [Node.mk "b" [Node.mk "y" []]]]].takeWhile
            (fun n => n.isProperty)).filter (fun n => !n.children.isEmpty)) vfs :=
  inflate_leading_defs_persist createEcho (fun _ _ _ => ⟨rfl, rfl⟩) (Inflater.new id) _
    (some ("Widget", [Node.mk "defs" [Node.mk "b" [Node.mk "y" []]]])) rfl

end Inflater

end morda

namespace morda

open stob

namespace Inflater

variable {F W : Type}

/-- Unless it ends with an exception of `pushVariables`, the loop over the
leading declarations adds as many frames to one stack as to the other. -/
theorem inflate_leading_in_step :
    ∀ (chain : List Node) (self : Inflater F),
      inflate.leadingVariablesThrow self chain = false →
      (inflate.leading self chain).2.templates.length + self.variables_.length
        = (inflate.leading self chain).2.variables_.length + self.templates.length := by
  intro chain
  induction chain with
  | nil => intro self _; simp [inflate.leading, Nat.add_comm]
  | cons n next ih =>
    intro self h
    rw [inflate.leadingVariablesThrow] at h
    rw [inflate.leading]
    cases hp : n.isProperty with
    | false => simp [Nat.add_comm]
    | true =>
      simp only [hp, if_true] at h ⊢
      by_cases hv : n.value = defs_c
      · simp only [hv, if_true] at h ⊢
        cases hc : n.children.isEmpty with
        | true =>
          simp only [hc, Bool.not_true, Bool.false_eq_true, if_false] at h ⊢
          exact ih self h
        | false =>
          simp only [hc, Bool.not_false, if_true] at h ⊢
          rcases pushTemplates_cases self n.children with ⟨e, hpt⟩ | ⟨mt, hpt⟩
          · rw [hpt]
            simp [Nat.add_comm]
          · rw [hpt] at h ⊢
            simp only at h ⊢
            rcases pushVariables_cases { self with templates := mt :: self.templates } n.children
              with ⟨e, hpv⟩ | ⟨mv, hpv⟩
            · rw [hpv] at h
              simp at h
            · rw [hpv] at h ⊢
              simp only at h ⊢
              have h2 := ih _ h
              simp only [List.length_cons] at h2
              omega
      · simp [hv, Nat.add_comm]

/-- Unless its loop over the leading declarations ends with an exception of
`pushVariables`, a call of `inflate` adds as many frames to one stack as to the
other, when `create` leaves the stacks as it finds them. -/
theorem inflate_in_step
    (create : F → List Node → Inflater F → Except String (Option W) × Inflater F)
    (hcreate : ∀ fac chain s, (create fac chain s).2.templates = s.templates ∧
      (create fac chain s).2.variables_ = s.variables_)
    (self : Inflater F) (chain : List Node)
    (h : inflate.leadingVariablesThrow self chain = false) :
    (inflate create self chain).2.templates.length + self.variables_.length
      = (inflate create self chain).2.variables_.length + self.templates.length := by
  have hstep := inflate_leading_in_step chain self h
  cases hl : inflate.leading self chain with
  | mk r1 s =>
    rw [hl] at hstep
    cases r1 with
    | error e =>
      rw [inflate_of_leading_error create self s chain e hl]
      exact hstep
    | ok r =>
      obtain ⟨h1, h2⟩ := inflate_stacks_of_leading create hcreate self s chain r hl
      rw [h1, h2]
      exact hstep

/-- C29 (counterexample): from the state the constructor leaves, with two
empty stacks, the call of `inflate` on `defs{ a{ x } a{ y } }` throws in
`pushVariables` after `pushTemplates` has pushed its frame: the template stack
holds one frame and the variable stack none. -/
theorem inflateAll_stacks_in_step_counterexample :
    (Inflater.new id).templates.length = 0 ∧ (Inflater.new id).variables_.length = 0 ∧
    (inflate createEcho (Inflater.new id)
      [Node.mk "defs" [Node.mk "a" [Node.mk "x" []], Node.mk "a" [Node.mk "y" []]]]).1
        = .error excVariableAlreadyDefined ∧
    (inflateAll createEcho (Inflater.new id)
      [[Node.mk "defs" [Node.mk "a" [Node.mk "x" []],
        Node.mk "a" [Node.mk "y" []]]]]).templates.length = 1 ∧
    (inflateAll createEcho (Inflater.new id)
      [[Node.mk "defs" [Node.mk "a" [Node.mk "x" []],
        Node.mk "a" [Node.mk "y" []]]]]).variables_.length = 0 :=
  ⟨rfl, rfl, rfl, rfl, rfl⟩

/-- C29 (amended): the two scope stacks stay in step: starting from stacks
with the same number of frames, after every sequence of calls of `inflate`,
each returning or throwing, in which `create` leaves the stacks as it finds
them and no call ends its loop over the leading declarations with an exception
of `pushVariables`, the template stack and the variable stack hold the same
number of frames. -/
theorem inflateAll_stacks_in_step
    (create : F → List Node → Inflater F → Except String (Option W) × Inflater F)
    (hcreate : ∀ fac chain s, (create fac chain s).2.templates = s.templates ∧
      (create fac chain s).2.variables_ = s.variables_)
    (chains : List (List Node)) :
    ∀ (self : Inflater F), self.templates.length = self.variables_.length →
      inflateAll.noLeadingVariablesThrow create self chains = true →
      (inflateAll create self chains).templates.length
        = (inflateAll create self chains).variables_.length := by
  induction chains with
  | nil => intro self h _; exact h
  | cons chain rest ih =>
    intro self hstart hno
    rw [inflateAll.noLeadingVariablesThrow, Bool.and_eq_true] at hno
    have h1 : inflate.leadingVariablesThrow self chain = false := by simpa using hno.1
    have hstep := inflate_in_step create hcreate self chain h1
    rw [inflateAll]
    exact ih _ (by omega) hno.2

theorem inflateAll_stacks_in_step_witness :
    (inflateAll createEcho (Inflater.new id)
      [[Node.mk "defs" [Node.mk "a" [Node.mk "x" []]], Node.mk "foo" []],
        [Node.mk "Widget" [Node.mk "defs" [Node.mk "b" [Node.mk "y" []],
          Node.mk "b" [Node.mk "z" []]]]],
        [Node.mk "defs" [Node.mk "Btn" [Node.mk "Widget" []]], Node.mk "Btn" []]]).templates.length
      = (inflateAll createEcho (Inflater.new id)
      [[Node.mk "defs" [Node.mk "a" [Node.mk "x" []]], Node.mk "foo" []],
        [Node.mk "Widget" [Node.mk "defs" [Node.mk "b" [Node.mk "y" []],
          Node.mk "b" [Node.mk "z" []]]]],
        [Node.mk "defs" [Node.mk "Btn" [Node.mk "Widget" []]],
          Node.mk "Btn" []]]).variables_.length :=
  inflateAll_stacks_in_step createEcho (fun _ _ _ => ⟨rfl, rfl⟩) _ (Inflater.new id) rfl rfl

end Inflater

end morda

namespace morda

open stob

theorem refsAllUnbound_append (isBound : String → Bool) (l1 l2 : List Node) :
    refsAllUnbound isBound (l1 ++ l2)
      = (refsAllUnbound isBound l1 && refsAllUnbound isBound l2) := by
  induction l1 with
  | nil => simp [refsAllUnbound]
  | cons a rest ih =>
    rw [List.cons_append, refsAllUnbound, refsAllUnbound, ih, Bool.and_assoc]

/-- When no value that `findVar` returns holds a reference to a name with a
non-empty value, neither does what `substituteVars` returns. -/
theorem substituteVars_clean (findVar : String → List Node)
    (hclean : ∀ name, refsAllUnbound (fun k => !(findVar k).isEmpty) (findVar name) = true)
    (c : List Node) :
    ∀ r, substituteVars findVar c = .ok r →
      refsAllUnbound (fun k => !(findVar k).isEmpty) r = true := by
  induction c using Node.chain_induction with
  | nil =>
    intro r h
    simp only [substituteVars, Except.ok.injEq] at h
    subst h
    rfl
  | cons n rest ihc ih =>
    intro r h
    rw [substituteVars, substituteVars_ofChild_eq] at h
    by_cases hat : n.value = "@"
    · simp only [hat, if_true] at h
      cases hch : n.children with
      | nil => rw [hch] at h; cases h
      | cons name more =>
        rw [hch] at h
        cases more with
        | cons m ms => simp at h
        | nil =>
          cases name with
          | mk nm ncs =>
            cases ncs with
            | cons x xs => simp [Node.children] at h
            | nil =>
              simp only [List.isEmpty_nil, Bool.not_true, Bool.false_eq_true, if_false,
                Node.children, Node.value] at h
              cases hrest : substituteVars findVar rest with
              | error e =>
                rw [hrest] at h
                cases hfv : findVar nm <;> rw [hfv] at h <;> cases h
              | ok rr =>
                rw [hrest] at h
                have hr := ih rr hrest
                cases hfv : findVar nm with
                | nil =>
                  rw [hfv] at h
                  cases h
                  rw [refsAllUnbound, hr]
                  simp [hat, hch, hfv]
                | cons v vs =>
                  rw [hfv] at h
                  cases h
                  rw [refsAllUnbound_append, hr, ← hfv, hclean nm]
                  rfl
    · simp only [hat, if_false] at h
      cases hcs : substituteVars findVar n.children with
      | error e => rw [hcs] at h; cases h
      | ok cs =>
        rw [hcs] at h
        cases hrest : substituteVars findVar rest with
        | error e => rw [hrest] at h; cases h
        | ok rr =>
          rw [hrest] at h
          cases h
          rw [refsAllUnbound, refsAllUnbound_ofChild_eq, ih rr hrest]
          have hv : (n.setChildren cs).value = n.value := rfl
          have hc : (n.setChildren cs).children = cs := rfl
          simp only [hv, hat, if_false, hc, ihc cs hcs, Bool.and_self]

namespace Inflater

variable {F W : Type}

/-- C26 (counterexample): from the empty stack, pushing `y{ Z } x{ @{y} }` and
then `w{ @{x} }` returns twice; the value stored for `w` is `@{y}`, a
well-formed reference to `y`, which the stack bound to `Z` when `w` was pushed,
and substituting again against that stack changes it to `Z`. -/
theorem pushVariables_stored_substituted_counterexample :
    (((Inflater.new id).pushVariables
        [Node.mk "y" [Node.mk "Z" []], Node.mk "x" [Node.mk "@" [Node.mk "y" []]]]).2.pushVariables
          [Node.mk "w" [Node.mk "@" [Node.mk "x" []]]]).2.variables_
      = [[("w", [Node.mk "@" [Node.mk "y" []]])],
          [("y", [Node.mk "Z" []]), ("x", [Node.mk "@" [Node.mk "y" []]])]] ∧
    ((Inflater.new id).pushVariables
        [Node.mk "y" [Node.mk "Z" []], Node.mk "x" [Node.mk "@" [Node.mk "y" []]]]).2.findVariable
          "y" = [Node.mk "Z" []] ∧
    ((Inflater.new id).pushVariables
        [Node.mk "y" [Node.mk "Z" []],
          Node.mk "x" [Node.mk "@" [Node.mk "y" []]]]).2.substituteVariables
          [Node.mk "@" [Node.mk "y" []]] = .ok [Node.mk "Z" []] ∧
    [Node.mk "Z" []] ≠ [Node.mk "@" [Node.mk "y" []]] := by
  refine ⟨rfl, rfl, rfl, ?_⟩
  simp

/-- C26 (amended): stored variable values are substituted once: the value that a
returning `pushVariables` stores for a property `b{ y }` of its chain is what
the substitution of the declared body `y` against the stack of `self` returns,
the one-pass expansion of `y`; and when no value bound on the stack of `self`
holds (outside `@` nodes) a malformed reference or a reference to a name that
this stack binds to a non-empty value, the stored value holds no such reference
either, and substituting it again against the stack of `self` leaves it
unchanged. -/
theorem pushVariables_stored_substituted (self : Inflater F) (D : List Node) (b : String)
    (y : List Node) (hmem : Node.mk b y ∈ D) (hprop : (Node.mk b y).isProperty = true)
    (hpush : (self.pushVariables D).1 = .ok ())
    (hclean : ∀ name,
      refsAllUnbound (fun k => !(self.findVariable k).isEmpty) (self.findVariable name) = true) :
    ∃ m val, (self.pushVariables D).2.variables_ = m :: self.variables_ ∧
      mapFind m b = some val ∧
      self.substituteVariables y = .ok val ∧
      val = expandReferences (fun name => self.findVariable name) y ∧
      refsAllUnbound (fun k => !(self.findVariable k).isEmpty) val = true ∧
      self.substituteVariables val = .ok val := by
  unfold pushVariables at hpush ⊢
  cases hl : pushVariables.loop self D [] with
  | error e => rw [hl] at hpush; cases hpush
  | ok m =>
    obtain ⟨val, hs, hf⟩ := pushVariables_loop_binds self b y hprop D [] m hmem hl
    have hval := substituteVars_clean (fun name => self.findVariable name) hclean y val hs
    refine ⟨m, val, rfl, hf, hs, substituteVars_eq_expandReferences _ y val hs, hval, ?_⟩
    refine substituteVars_unbound _ (fun k => !(self.findVariable k).isEmpty) ?_ val hval
    intro name hname
    simpa using hname

theorem pushVariables_stored_substituted_witness :
    ∃ m val, (((Inflater.new id).pushVariables [Node.mk "y" [Node.mk "Z" []]]).2.pushVariables
        [Node.mk "w" [Node.mk "@" [Node.mk "y" []], Node.mk "@" [Node.mk "u" []]]]).2.variables_
        = m :: ((Inflater.new id).pushVariables [Node.mk "y" [Node.mk "Z" []]]).2.variables_ ∧
      mapFind m "w" = some val ∧
      ((Inflater.new id).pushVariables [Node.mk "y" [Node.mk "Z" []]]).2.substituteVariables
        [Node.mk "@" [Node.mk "y" []], Node.mk "@" [Node.mk "u" []]] = .ok val ∧
      val = expandReferences
        (fun name => ((Inflater.new id).pushVariables
          [Node.mk "y" [Node.mk "Z" []]]).2.findVariable name)
        [Node.mk "@" [Node.mk "y" []], Node.mk "@" [Node.mk "u" []]] ∧
      refsAllUnbound
        (fun k => !(((Inflater.new id).pushVariables
          [Node.mk "y" [Node.mk "Z" []]]).2.findVariable k).isEmpty) val = true ∧
      ((Inflater.new id).pushVariables [Node.mk "y" [Node.mk "Z" []]]).2.substituteVariables val
        = .ok val :=
  pushVariables_stored_substituted
    ((Inflater.new id).pushVariables [Node.mk "y" [Node.mk "Z" []]]).2
    [Node.mk "w" [Node.mk "@" [Node.mk "y" []], Node.mk "@" [Node.mk "u" []]]] "w"
    [Node.mk "@" [Node.mk "y" []], Node.mk "@" [Node.mk "u" []]] (by simp) rfl rfl
    (by
      have key : ∀ name, ((Inflater.new id).pushVariables
          [Node.mk "y" [Node.mk "Z" []]]).2.findVariable name
            = if "y" = name then [Node.mk "Z" []] else [] := by
        intro name
        have hs : ((Inflater.new id).pushVariables [Node.mk "y" [Node.mk "Z" []]]).2.variables_
            = [[("y", [Node.mk "Z" []])]] := rfl
        unfold findVariable
        rw [hs]
        by_cases hn : "y" = name
        · simp [findVariable.loop, mapFind, hn]
        · simp [findVariable.loop, mapFind, hn]
      intro name
      simp only [key]
      by_cases hn : "y" = name
      · simp [hn, refsAllUnbound, refsAllUnbound.ofChild, Node.value]
      · simp [hn, refsAllUnbound])

/-- C23 (counterexample): with the template `Btn` defined as
`Widget{ defs{ v{ hi } } text{ @{v} } }`, the site `Btn{ Z }` has no `defs`
child, and still `inflate` pushes the local frames of the `defs` of the
template: the push of the local definitions sets both flags and the factory
receives `text{ hi }`. -/
theorem inflate_local_defs_counterexample :
    thisOrNext (Node.mk "Btn" [Node.mk "Z" []]).children defs_c = none ∧
    (inflate.pushLocal
      (inflate.leading (Inflater.new id)
        [Node.mk "defs" [Node.mk "Btn" [Node.mk "Widget" [Node.mk "defs" [Node.mk "v"
          [Node.mk "hi" []]], Node.mk "text" [Node.mk "@" [Node.mk "v" []]]]]]]).2
      (Node.mk "Widget" [Node.mk "Z" [], Node.mk "text" [Node.mk "@" [Node.mk "v" []]],
        Node.mk "defs" [Node.mk "v" [Node.mk "hi" []]]])).2.2 = (true, true) ∧
    (inflate createEcho (Inflater.new id)
      [Node.mk "defs" [Node.mk "Btn" [Node.mk "Widget" [Node.mk "defs" [Node.mk "v"
        [Node.mk "hi" []]], Node.mk "text" [Node.mk "@" [Node.mk "v" []]]]]],
        Node.mk "Btn" [Node.mk "Z" []]]).1
      = .ok (some ("Widget", [Node.mk "Z" [], Node.mk "text" [Node.mk "hi" []],
          Node.mk "defs" [Node.mk "v" [Node.mk "hi" []]]])) :=
  ⟨rfl, rfl, rfl⟩

/-- C23 (amended): the local defs block is taken from the merged node: when
the value of the target node `n0` names the template `T`, the merge of the body
of `T` with the children of `n0` returns `c`, a factory is registered under the
definition value of `T` and the later steps succeed, the frames pushed for the
construction are those of the first child valued `defs` of the merged chain
`c`, if it has children, and none otherwise, whatever `defs` child the site
`n0` has; `create` is run in the state with these frames, and the scope exit
pops them. -/
theorem inflate_local_defs_of_merged
    (create : F → List Node → Inflater F → Except String (Option W) × Inflater F)
    (self s2 : Inflater F) (n0 : Node) (rest c cloned : List Node) (T : Template) (fac : F)
    (needPopTemplates needPopVariables : Bool)
    (hn0 : n0.isProperty = false)
    (hT : self.findTemplate n0.value = some T)
    (hc : mergeGUIChain T.t.children T.vars n0.children = .ok c)
    (hf : self.findFactory T.t.value = some fac)
    (hp : inflate.pushLocal self (Node.mk T.t.value c)
      = (.ok (), s2, needPopTemplates, needPopVariables))
    (hs : s2.substituteVariables c = .ok cloned) :
    inflate create self (n0 :: rest)
        = ((create fac cloned s2).1,
          inflate.scopeExit (create fac cloned s2).2 needPopTemplates needPopVariables) ∧
      (thisOrNext c defs_c = none →
        s2 = self ∧ needPopTemplates = false ∧ needPopVariables = false) ∧
      (∀ v, thisOrNext c defs_c = some v → v.children ≠ [] →
        ∃ s1, self.pushTemplates v.children = (.ok (), s1) ∧
          s1.pushVariables v.children = (.ok (), s2) ∧
          needPopTemplates = true ∧ needPopVariables = true) := by
  have hl : inflate.leading self (n0 :: rest) = (.ok (n0 :: rest), self) := by
    rw [inflate.leading]
    simp [hn0]
  have ha : inflate.applyTemplate self n0 = .ok (Node.mk T.t.value c) := by
    simp only [inflate.applyTemplate, hT, hc]
  refine ⟨inflate_eq_create create self self s2 _ rest cloned n0 (Node.mk T.t.value c) fac
    needPopTemplates needPopVariables hl ha hf hp hs, ?_, ?_⟩
  · intro hnone
    have hch : (Node.mk T.t.value c).children = c := rfl
    simp only [inflate.pushLocal, hch, hnone, Prod.mk.injEq] at hp
    exact ⟨hp.2.1.symm, hp.2.2.1.symm, hp.2.2.2.symm⟩
  · intro v hv hvc
    have hch : (Node.mk T.t.value c).children = c := rfl
    have hve : v.children.isEmpty = false := by
      cases hvch : v.children with
      | nil => exact absurd hvch hvc
      | cons a l => rfl
    simp only [inflate.pushLocal, hch, hv, hve, Bool.not_false, if_true] at hp
    cases hpt : self.pushTemplates v.children with
    | mk r1 s1 =>
      rw [hpt] at hp
      cases r1 with
      | error e => simp at hp
      | ok u =>
        simp only at hp
        cases hpv : s1.pushVariables v.children with
        | mk r2 s3 =>
          rw [hpv] at hp
          cases r2 with
          | error e => simp at hp
          | ok u2 =>
            simp only [Prod.mk.injEq, true_and] at hp
            obtain ⟨h1, h2, h3⟩ := hp
            subst h1
            exact ⟨s1, rfl, hpv, h2.symm, h3.symm⟩

theorem inflate_local_defs_of_merged_witness :
    inflate createEcho
        ⟨[("Widget", "Widget")],
          [[("Btn", Template.mk (Node.mk "Widget" [Node.mk "defs" [Node.mk "v" [Node.mk "hi" []]],
            Node.mk "text" [Node.mk "@" [Node.mk "v" []]]]) [])]], []⟩
        (Node.mk "Btn" [Node.mk "Z" []] :: [])
      = ((createEcho "Widget"
            [Node.mk "Z" [], Node.mk "text" [Node.mk "hi" []],
              Node.mk "defs" [Node.mk "v" [Node.mk "hi" []]]]
            ⟨[("Widget", "Widget")],
              [[], [("Btn", Template.mk (Node.mk "Widget"
                [Node.mk "defs" [Node.mk "v" [Node.mk "hi" []]],
                  Node.mk "text" [Node.mk "@" [Node.mk "v" []]]]) [])]],
              [[("v", [Node.mk "hi" []])]]⟩).1,
          inflate.scopeExit (createEcho "Widget"
            [Node.mk "Z" [], Node.mk "text" [Node.mk "hi" []],
              Node.mk "defs" [Node.mk "v" [Node.mk "hi" []]]]
            ⟨[("Widget", "Widget")],
              [[], [("Btn", Template.mk (Node.mk "Widget"
                [Node.mk "defs" [Node.mk "v" [Node.mk "hi" []]],
                  Node.mk "text" [Node.mk "@" [Node.mk "v" []]]]) [])]],
              [[("v", [Node.mk "hi" []])]]⟩).2 true true) :=
  (inflate_local_defs_of_merged createEcho
    ⟨[("Widget", "Widget")],
      [[("Btn", Template.mk (Node.mk "Widget" [Node.mk "defs" [Node.mk "v" [Node.mk "hi" []]],
        Node.mk "text" [Node.mk "@" [Node.mk "v" []]]]) [])]], []⟩
    ⟨[("Widget", "Widget")],
      [[], [("Btn", Template.mk (Node.mk "Widget" [Node.mk "defs" [Node.mk "v" [Node.mk "hi" []]],
        Node.mk "text" [Node.mk "@" [Node.mk "v" []]]]) [])]],
      [[("v", [Node.mk "hi" []])]]⟩
    (Node.mk "Btn" [Node.mk "Z" []]) []
    [Node.mk "Z" [], Node.mk "text" [Node.mk "@" [Node.mk "v" []]],
      Node.mk "defs" [Node.mk "v" [Node.mk "hi" []]]]
    [Node.mk "Z" [], Node.mk "text" [Node.mk "hi" []],
      Node.mk "defs" [Node.mk "v" [Node.mk "hi" []]]]
    (Template.mk (Node.mk "Widget" [Node.mk "defs" [Node.mk "v" [Node.mk "hi" []]],
      Node.mk "text" [Node.mk "@" [Node.mk "v" []]]]) [])
    "Widget" true true rfl rfl rfl rfl rfl rfl).1

end Inflater

end morda
